import Mathlib

/-!
# CudaParse instruction analyzer: a shallow embedding

Embedding of `src/lib/cuda/InstructionAnalyzer.cpp`.

* A `std::string` is a `List Char`; string literals are written `"...".toList`.
* A C++ `int` is an `Int`; where the code does arithmetic on it the result is
  wrapped to 32 bits (`wrapInt`).
* An output parameter (`std::string &metric_name`, `InstructionMetrics &metrics`)
  is passed in and returned.
-/

namespace CudaParse

/-! ## Strings -/

/-- The search loop of `std::string::find`: the first position, counted from `i`,
at which `sub` starts in `str`. -/
def findFrom (sub : List Char) : List Char → Nat → Option Nat
  | [], i => if sub.isPrefixOf [] then some i else none
  | c :: cs, i => if sub.isPrefixOf (c :: cs) then some i else findFrom sub cs (i + 1)

/-- Model of `str.find(sub)`: `none` stands for `std::string::npos`. -/
def find (str sub : List Char) : Option Nat := findFrom sub str 0

/-- Model of `str.find(sub) != std::string::npos`. -/
def found (str sub : List Char) : Bool := (find str sub).isSome

/-- Model of `str[pos]` on a `const std::string`: position `size()` holds the
terminating null character. -/
def charAt (str : List Char) (pos : Nat) : Char := str.getD pos (Char.ofNat 0)

/-! ## Instructions

`DotCFG.hpp` is not part of the sources; the fields are the ones the analyzer reads. -/

/-- Coarse instruction types, the keys of the dispatch table. -/
inductive InsType where
  | INS_TYPE_MEMORY
  | INS_TYPE_FLOAT
  | INS_TYPE_INTEGER
  | INS_TYPE_TEXTRUE
  | INS_TYPE_CONTROL
  | INS_TYPE_MISC
  deriving DecidableEq

/-- Modelled from the spec: the `Instruction` record of `DotCFG.hpp` (not in the
sources): offset, opcode, predicate, operands, modifiers and coarse type. -/
structure Instruction where
  offset : Int
  opcode : List Char
  predicate : List Char
  operands : List (List Char)
  modifiers : List (List Char)
  type : InsType
  deriving DecidableEq

/-- Modelled from the spec: a basic block of `DotCFG.hpp`, an ordered list of instructions. -/
structure Block where
  insts : List Instruction
  deriving DecidableEq

/-- Modelled from the spec: a function of `DotCFG.hpp`, an ordered list of blocks. -/
structure Function where
  blocks : List Block
  deriving DecidableEq

/-! ## The six classifiers -/

/-- Body of the loop over `inst.modifiers` in the memory classifier. -/
def memory_width_step (width modifier : List Char) : List Char :=
  if modifier = "64".toList ∨ modifier = "128".toList then ".".toList ++ modifier else width

/-- The `ldst` and `scope` strings computed by the memory classifier. -/
def memory_ldst_scope (opcode : List Char) : List Char × List Char :=
  if found opcode "LD".toList then
    (".LOAD".toList,
      if opcode = "LDS".toList then ".SHARED".toList
      else if opcode = "LDL".toList then ".LOCAL".toList
      else if opcode = "LDG".toList then ".GLOBAL".toList
      else [])
  else if found opcode "ST".toList then
    (".STORE".toList,
      if opcode = "STS".toList then ".SHARED".toList
      else if opcode = "STL".toList then ".LOCAL".toList
      else if opcode = "STG".toList then ".GLOBAL".toList
      else [])
  else if opcode = "RED".toList ∨ found opcode "ATOM".toList then
    (".ATOMIC".toList,
      if opcode = "ATOMS".toList then ".SHARED".toList
      else if opcode = "ATOMG".toList then ".GLOBAL".toList
      else [])
  else
    (".OTHER".toList, [])

/-- Embedding of `analyze_instruction<INS_TYPE_MEMORY>`; the second argument is the
content of `metric_name` on entry, the result its content on exit. -/
def analyze_instruction_MEMORY (inst : Instruction) (_metric_name : List Char) : List Char :=
  let metric_name := "MEMORY".toList
  let ls := memory_ldst_scope inst.opcode
  let ldst := ls.1
  let scope := ls.2
  let width := inst.modifiers.foldl memory_width_step ".32".toList
  metric_name ++ (ldst ++ scope ++ width)

/-- Embedding of `analyze_instruction<INS_TYPE_FLOAT>`. -/
def analyze_instruction_FLOAT (inst : Instruction) (_metric_name : List Char) : List Char :=
  let metric_name := "FLOAT".toList
  let opcode := inst.opcode
  let width :=
    if charAt opcode 0 = 'D' then ".64".toList
    else if charAt opcode 0 = 'H' then ".16".toList
    else ".32".toList
  let type :=
    if opcode = "MUFU".toList then ".MUFU".toList
    else if found opcode "ADD".toList then ".ADD".toList
    else if found opcode "MUL".toList then ".MUL".toList
    else if found opcode "FMA".toList then ".MAD".toList
    else if found opcode "MMA".toList then ".TENSOR".toList
    else ".OTHER".toList
  metric_name ++ (type ++ width)

/-- Embedding of `analyze_instruction<INS_TYPE_INTEGER>`. -/
def analyze_instruction_INTEGER (inst : Instruction) (_metric_name : List Char) : List Char :=
  let metric_name := "INTEGER".toList
  let opcode := inst.opcode
  let type :=
    if found opcode "MAD".toList then ".MAD".toList
    else if found opcode "DP".toList then ".DOT".toList
    else if found opcode "MMA".toList then ".TENSOR".toList
    else if found opcode "MUL".toList then ".MUL".toList
    else if found opcode "ADD".toList then
      (if opcode = "IADD3".toList then ".ADD3".toList else ".ADD".toList)
    else ".OTHER".toList
  metric_name ++ type

/-- Embedding of `analyze_instruction<INS_TYPE_TEXTRUE>`. -/
def analyze_instruction_TEXTRUE (_inst : Instruction) (_metric_name : List Char) : List Char :=
  "TEXTURE".toList

/-- Embedding of `analyze_instruction<INS_TYPE_CONTROL>`. -/
def analyze_instruction_CONTROL (inst : Instruction) (_metric_name : List Char) : List Char :=
  let metric_name := "CONTROL".toList
  let opcode := inst.opcode
  let type :=
    if found opcode "MEMBAR".toList ∨ found opcode "DEPBAR".toList then ".BAR".toList
    else if found opcode "SYNC".toList ∨ found opcode "BAR".toList then
      (if found opcode "WARP".toList then ".SYNC".toList ++ ".WARP".toList
       else ".SYNC".toList ++ ".BLOCK".toList)
    else if found opcode "SHFL".toList then ".SHFL".toList
    else if found opcode "CAL".toList then ".CALL".toList
    else if found opcode "EXIT".toList then ".EXIT".toList
    else if found opcode "RET".toList then ".RET".toList
    else if found opcode "JM".toList then ".JMP".toList
    else if found opcode "BR".toList then ".BRANCH".toList
    else ".OTHER".toList
  metric_name ++ type

/-- Embedding of `analyze_instruction<INS_TYPE_MISC>`. -/
def analyze_instruction_MISC (inst : Instruction) (_metric_name : List Char) : List Char :=
  let metric_name := "MISC".toList
  let opcode := inst.opcode
  let type :=
    if found opcode "I2".toList ∨ found opcode "F2".toList ∨ opcode = "FRND".toList then
      ".CONVERT".toList
    else ".OTHER".toList
  metric_name ++ type

/-- The dispatch table `_dispatcher` filled by the constructor of `InstructionAnalyzer`:
entry `TYPE` is `analyze_instruction<TYPE>`. -/
def _dispatcher : InsType → Instruction → List Char → List Char
  | .INS_TYPE_MEMORY => analyze_instruction_MEMORY
  | .INS_TYPE_FLOAT => analyze_instruction_FLOAT
  | .INS_TYPE_INTEGER => analyze_instruction_INTEGER
  | .INS_TYPE_TEXTRUE => analyze_instruction_TEXTRUE
  | .INS_TYPE_CONTROL => analyze_instruction_CONTROL
  | .INS_TYPE_MISC => analyze_instruction_MISC

/-! ## The classification rules as the specification words them -/

namespace Spec

/-- The kind of a memory instruction: load, store, atomic or other. -/
def memory_kind (opcode : List Char) : List Char :=
  if "LD".toList <:+: opcode then ".LOAD".toList
  else if "ST".toList <:+: opcode then ".STORE".toList
  else if opcode = "RED".toList ∨ "ATOM".toList <:+: opcode then ".ATOMIC".toList
  else ".OTHER".toList

/-- The modifiers that name a width. -/
def width_modifiers (modifiers : List (List Char)) : List (List Char) :=
  modifiers.filter (fun m => m = "64".toList ∨ m = "128".toList)

/-- The width of a memory instruction: 32 unless a modifier is "64" or "128", then
the last such modifier. -/
def memory_width (modifiers : List (List Char)) : List Char :=
  match (width_modifiers modifiers).getLast? with
  | none => ".32".toList
  | some m => ".".toList ++ m

/-- The scope qualifier with all nine opcodes of the three families. -/
def memory_scope_nine (opcode : List Char) : List Char :=
  if opcode = "LDS".toList ∨ opcode = "STS".toList ∨ opcode = "ATOMS".toList then ".SHARED".toList
  else if opcode = "LDL".toList ∨ opcode = "STL".toList ∨ opcode = "ATOML".toList then
    ".LOCAL".toList
  else if opcode = "LDG".toList ∨ opcode = "STG".toList ∨ opcode = "ATOMG".toList then
    ".GLOBAL".toList
  else []

/-- The scope qualifier without a local atomic: ATOML has no scope. -/
def memory_scope (opcode : List Char) : List Char :=
  if opcode = "LDS".toList ∨ opcode = "STS".toList ∨ opcode = "ATOMS".toList then ".SHARED".toList
  else if opcode = "LDL".toList ∨ opcode = "STL".toList then ".LOCAL".toList
  else if opcode = "LDG".toList ∨ opcode = "STG".toList ∨ opcode = "ATOMG".toList then
    ".GLOBAL".toList
  else []

/-- The qualifier of a control instruction, first matching rule. -/
def control_qualifier (opcode : List Char) : List Char :=
  if "MEMBAR".toList <:+: opcode ∨ "DEPBAR".toList <:+: opcode then ".BAR".toList
  else if "SYNC".toList <:+: opcode ∨ "BAR".toList <:+: opcode then
    (if "WARP".toList <:+: opcode then ".SYNC.WARP".toList else ".SYNC.BLOCK".toList)
  else if "SHFL".toList <:+: opcode then ".SHFL".toList
  else if "CAL".toList <:+: opcode then ".CALL".toList
  else if "EXIT".toList <:+: opcode then ".EXIT".toList
  else if "RET".toList <:+: opcode then ".RET".toList
  else if "JM".toList <:+: opcode then ".JMP".toList
  else if "BR".toList <:+: opcode then ".BRANCH".toList
  else ".OTHER".toList

/-- The type qualifier of a float instruction. -/
def float_type (opcode : List Char) : List Char :=
  if opcode = "MUFU".toList then ".MUFU".toList
  else if "ADD".toList <:+: opcode then ".ADD".toList
  else if "MUL".toList <:+: opcode then ".MUL".toList
  else if "FMA".toList <:+: opcode then ".MAD".toList
  else if "MMA".toList <:+: opcode then ".TENSOR".toList
  else ".OTHER".toList

/-- The width of a float instruction, from the first character of the opcode. -/
def float_width : List Char → List Char
  | 'D' :: _ => ".64".toList
  | 'H' :: _ => ".16".toList
  | _ => ".32".toList

/-- The qualifier of an integer instruction, first matching rule. -/
def integer_qualifier (opcode : List Char) : List Char :=
  if "MAD".toList <:+: opcode then ".MAD".toList
  else if "DP".toList <:+: opcode then ".DOT".toList
  else if "MMA".toList <:+: opcode then ".TENSOR".toList
  else if "MUL".toList <:+: opcode then ".MUL".toList
  else if "ADD".toList <:+: opcode then
    (if opcode = "IADD3".toList then ".ADD3".toList else ".ADD".toList)
  else ".OTHER".toList

end Spec

/-! ## Register decoding and `InstructionStat` -/

/-- A C++ `int` result: the value wrapped to 32 bits, two's complement. -/
def wrapInt (n : Int) : Int := (n + 2147483648) % 4294967296 - 2147483648

/-- Model of `isdigit` on a character of the string. -/
def isdigit (c : Char) : Bool := c.isDigit

/-- The `while` loop of `convert_reg`, run on the characters of `str` from `pos` on.
Past the last character `str[pos]` is the terminator, which is no digit, so the loop
leaves there. -/
def convert_reg_loop : List Char → Int → Bool → Int × Bool
  | [], num, find_digit => (num, find_digit)
  | c :: rest, num, find_digit =>
    if isdigit c then
      convert_reg_loop rest (wrapInt (num * 10 + (c.toNat : Int) - ('0'.toNat : Int))) true
    else (num, find_digit)

/-- Embedding of `convert_reg(str, pos)`. -/
def convert_reg (str : List Char) (pos : Nat) : Int :=
  let r := convert_reg_loop (str.drop pos) 0 false
  if r.2 then r.1 else -1

/-- The pattern `pos = str.find(marker); if (pos != npos) convert_reg(str, pos + 1)` of
the constructor, as an optional register. -/
def find_reg (str : List Char) (marker : List Char) : Option Int :=
  match find str marker with
  | some pos => some (convert_reg str (pos + 1))
  | none => none

/-- Modelled from the spec: the `InstructionStat` record of `InstructionAnalyzer.hpp`
(not in the sources): pc, predicate, dst, srcs and the metric-id to count mapping `stat`,
the latter as an association list in iteration order. -/
structure InstructionStat where
  pc : Int
  predicate : Int
  dst : Int
  srcs : List Int
  stat : List (Int × Int)
  deriving DecidableEq

/-- Body of the loop over `inst.operands[i]`, `i ≥ 1`, of the constructor. -/
def srcs_step (srcs : List Int) (operand : List Char) : List Int :=
  match find_reg operand "R".toList with
  | some r => srcs ++ [r]
  | none => srcs

/-- Embedding of the constructor `InstructionStat::InstructionStat(const Instruction &)`. -/
def InstructionStat.ofInstruction (inst : Instruction) : InstructionStat :=
  let pc := inst.offset
  let predicate : Int :=
    if inst.predicate.length ≠ 0 then (find_reg inst.predicate "P".toList).getD (-1) else -1
  match inst.operands with
  | [] => ⟨pc, predicate, -1, [], []⟩
  | operand0 :: operands =>
    ⟨pc, predicate, (find_reg operand0 "R".toList).getD (-1), operands.foldl srcs_step [], []⟩

namespace Spec

/-- The characters after the first occurrence of the marker letter. -/
def after_marker (marker : Char) (s : List Char) : List Char :=
  (s.dropWhile (fun c => c != marker)).tail

/-- A decimal digit stands immediately after the first marker. -/
def digit_follows (marker : Char) (s : List Char) : Prop :=
  ∃ c, (after_marker marker s).head? = some c ∧ c.isDigit = true

/-- The maximal run of decimal digits immediately after the first marker. -/
def digit_run (marker : Char) (s : List Char) : List Char :=
  (after_marker marker s).takeWhile Char.isDigit

/-- The decimal value of a run of digits. -/
def decimal_value (run : List Char) : Nat :=
  run.foldl (fun n c => 10 * n + (c.toNat - '0'.toNat)) 0

end Spec

/-! ## The aggregate and `analyze` -/

/-- Model of `m.find(key)` on a map kept as an association list: the mapped value, or
`none` for `m.end()`. -/
def map_find {κ ν : Type} [DecidableEq κ] : List (κ × ν) → κ → Option ν
  | [], _ => none
  | (k, v) :: rest, key => if k = key then some v else map_find rest key

/-- Model of `m[key] = value`: the value of an existing key is overwritten, a new key is
added. -/
def map_assign {κ ν : Type} [DecidableEq κ] : List (κ × ν) → κ → ν → List (κ × ν)
  | [], key, value => [(key, value)]
  | (k, v) :: rest, key, value =>
    if k = key then (k, value) :: rest else (k, v) :: map_assign rest key value

/-- Modelled from the spec: the `InstructionMetrics` record of `InstructionAnalyzer.hpp`
(not in the sources): the mapping `metric_names` from metric name to id, as an association
list in iteration order (a new name comes last: insertion order is discovery order), and
the sequence `inst_stats`. -/
structure InstructionMetrics where
  metric_names : List (List Char × Int)
  inst_stats : List InstructionStat
  deriving DecidableEq

/-- Body of the innermost loop of `analyze`; the state is the local `metric_name` and the
aggregate `metrics`. The size of `metric_names` is taken as it is (it fits an `int`). -/
def analyze_inst (st : List Char × InstructionMetrics) (inst : Instruction) :
    List Char × InstructionMetrics :=
  let metric_name := _dispatcher inst.type inst st.1
  let metrics := st.2
  let inst_stat := InstructionStat.ofInstruction inst
  let r : Int × List (List Char × Int) :=
    match map_find metrics.metric_names metric_name with
    | none =>
      ((metrics.metric_names.length : Int),
        map_assign metrics.metric_names metric_name (metrics.metric_names.length : Int))
    | some id => (id, metrics.metric_names)
  let metric_id := r.1
  let inst_stat : InstructionStat :=
    { inst_stat with
      stat := map_assign inst_stat.stat metric_id
        (wrapInt ((map_find inst_stat.stat metric_id).getD 0 + 1)) }
  (metric_name, ⟨r.2, metrics.inst_stats ++ [inst_stat]⟩)

/-- Embedding of `InstructionAnalyzer::analyze`: the three nested loops over functions,
blocks and instructions. -/
def analyze (functions : List Function) (metrics : InstructionMetrics) : InstructionMetrics :=
  (functions.foldl
    (fun st function =>
      function.blocks.foldl (fun st block => block.insts.foldl analyze_inst st) st)
    ([], metrics)).2

namespace Spec

/-- All instructions in traversal order: functions, then blocks, then instructions. -/
def instructions (functions : List Function) : List Instruction :=
  (functions.map (fun f => (f.blocks.map (fun b => b.insts)).flatten)).flatten

/-- The metric name of every instruction in traversal order, each classified under its
coarse type. -/
def metric_names_of (functions : List Function) : List (List Char) :=
  (instructions functions).map (fun inst => _dispatcher inst.type inst [])

end Spec

/-- The effect of one instruction of `analyze` on `metric_names`, given its metric name:
an unseen name gets the current size as id. -/
def names_step (m : List (List Char × Int)) (name : List Char) : List (List Char × Int) :=
  match map_find m name with
  | none => map_assign m name (m.length : Int)
  | some _ => m

/-! ## The text format: `dump` and `read` -/

/-- Model of `os << n` for an `int`: a minus sign for a negative number, then the decimal
digits. -/
def int_to_chars (n : Int) : List Char :=
  if n < 0 then '-' :: Nat.toDigits 10 n.natAbs else Nat.toDigits 10 n.natAbs

/-- Model of `os << c` for every element of a sequence, in order. -/
def concat_map {α : Type} (f : α → List Char) (l : List α) : List Char :=
  (l.map f).flatten

/-- The text `dump` writes for one entry of `metric_names`, before the separator. -/
def metric_name_text (e : List Char × Int) : List Char :=
  "(".toList ++ e.1 ++ ",".toList ++ int_to_chars e.2 ++ ")".toList

/-- The text `dump` writes for one source register: nothing for the sentinel. -/
def src_text (src : Int) : List Char :=
  if src ≠ -1 then int_to_chars src ++ ":".toList else []

/-- The text `dump` writes for one entry of `stat`, before the comma. -/
def stat_text (it : Int × Int) : List Char :=
  int_to_chars it.1 ++ ":".toList ++ int_to_chars it.2

/-- The text `dump` writes for one InstructionStat, before the separator. -/
def inst_stat_text (inst_stat : InstructionStat) : List Char :=
  ("(".toList ++ int_to_chars inst_stat.pc) ++ ',' ::
    ((if inst_stat.predicate ≠ -1 then int_to_chars inst_stat.predicate else []) ++ ',' ::
      ((if inst_stat.dst ≠ -1 then int_to_chars inst_stat.dst else []) ++ ',' ::
        (concat_map src_text inst_stat.srcs ++ ',' ::
          (concat_map (fun it => stat_text it ++ [',']) inst_stat.stat ++ ")".toList))))

/-- Embedding of `InstructionAnalyzer::dump`. `can_open` says whether the output file can
be opened for writing. The result is the returned flag and the content of the file after
the call: `none` when the file was not opened, else everything written to the (truncated)
file. -/
def dump (can_open : Bool) (metrics : InstructionMetrics) (sparse : Bool) :
    Bool × Option (List Char) :=
  if ¬ can_open then (false, none)
  else if metrics.metric_names.length = 0 then (false, some [])
  else
    let sep : Char := if sparse then '\n' else '#'
    (true, some (
      "<metric names>".toList ++ ['\n'] ++
      concat_map (fun e => metric_name_text e ++ [sep]) metrics.metric_names ++
      ['\n'] ++ "<inst stats>".toList ++ ['\n'] ++
      concat_map (fun inst_stat => inst_stat_text inst_stat ++ [sep]) metrics.inst_stats))

/-- Model of `std::getline(is, buf, delim)` on the unread rest of a stream: it fails
(`none`) when nothing is left, else it yields the characters before the first delimiter
and the rest after that delimiter. -/
def getline (rest : List Char) (delim : Char) : Option (List Char × List Char) :=
  match rest with
  | [] => none
  | _ :: _ => some (rest.takeWhile (fun c => c != delim), (rest.dropWhile (fun c => c != delim)).tail)

/-- The pieces that `while (std::getline(iss, cur_buf, delim))` extracts from a string
stream, in order. -/
def getlines (delim : Char) : List Char → List (List Char)
  | [] => []
  | c :: cs =>
    if c = delim then [] :: getlines delim cs
    else
      match getlines delim cs with
      | [] => [[c]]
      | line :: lines => (c :: line) :: lines

/-- Exceptions of `std::stoi` and `std::string::substr`. -/
inductive Exception where
  | invalid_argument
  | out_of_range
  deriving DecidableEq

/-- Model of `isspace` in the C locale. -/
def isspace (c : Char) : Bool :=
  c = ' ' ∨ c = '\t' ∨ c = '\n' ∨ c = Char.ofNat 11 ∨ c = Char.ofNat 12 ∨ c = '\r'

/-- Model of `std::stoi(str)`: leading white space, an optional sign, then the longest run
of decimal digits; `invalid_argument` without a digit, `out_of_range` when the value is no
`int`. -/
def stoi (str : List Char) : Except Exception Int :=
  let s := str.dropWhile isspace
  let signed : Bool × List Char :=
    match s with
    | '-' :: r => (true, r)
    | '+' :: r => (false, r)
    | _ => (false, s)
  let run := signed.2.takeWhile Char.isDigit
  if run = [] then .error .invalid_argument
  else
    let v : Int := (Spec.decimal_value run : Nat)
    let n : Int := if signed.1 then -v else v
    if n < -2147483648 ∨ 2147483647 < n then .error .out_of_range else .ok n

/-- Subtraction of `size_t` values, wrapping at `2^64`. -/
def size_sub (a b : Nat) : Nat := if b ≤ a then a - b else 18446744073709551616 - (b - a)

/-- Model of `str.substr(pos, count)` for `pos ≤ str.size()`. -/
def substr (str : List Char) (pos count : Nat) : List Char := (str.drop pos).take count

/-- The `while` loop of `read` over the entries of the metric-name line. The right operand
of the assignment, `std::stoi`, is evaluated before the entry is made, so an exception
leaves the mapping as it was. -/
def read_names_loop :
    List (List Char × Int) → List (List Char) → Option Exception × List (List Char × Int)
  | metric_names, [] => (none, metric_names)
  | metric_names, cur_buf :: rest =>
    match find cur_buf ",".toList with
    | some pos =>
      let metric_name := substr cur_buf 1 (size_sub pos 1)
      let metric_id := substr cur_buf (pos + 1) (size_sub (size_sub cur_buf.length pos) 2)
      match stoi metric_id with
      | .ok id => read_names_loop (map_assign metric_names ("MIX:".toList ++ metric_name) id) rest
      | .error e => (some e, metric_names)
    | none => read_names_loop metric_names rest

/-- The inner `while` loop of `read` over the comma-separated fields of one record;
`first` and `inst_stat` are the loop's variables. Of the two `std::stoi` calls of the
assignment the right one runs first. -/
def read_fields_loop :
    Bool → InstructionStat → List (List Char) → Except Exception InstructionStat
  | _, inst_stat, [] => .ok inst_stat
  | first, inst_stat, cur_buf :: rest =>
    if cur_buf = ")".toList then .ok inst_stat
    else if first then
      if cur_buf.length < 1 then .error .out_of_range
      else
        match stoi (cur_buf.drop 1) with
        | .ok pc => read_fields_loop false { inst_stat with pc := pc } rest
        | .error e => .error e
    else
      match find cur_buf ":".toList with
      | some pos =>
        let metric_id := substr cur_buf 0 pos
        let metric_count := substr cur_buf (pos + 1) (size_sub (size_sub cur_buf.length pos) 1)
        match stoi metric_count, stoi metric_id with
        | .ok count, .ok id =>
          read_fields_loop false { inst_stat with stat := map_assign inst_stat.stat id count } rest
        | .error e, _ => .error e
        | .ok _, .error e => .error e
      | none => read_fields_loop false inst_stat rest

/-- The outer `while` loop of `read` over the records of the inst-stats line. Every record
starts from a default-constructed InstructionStat, `fresh`. -/
def read_stats_loop (fresh : InstructionStat) :
    List InstructionStat → List (List Char) → Option Exception × List InstructionStat
  | inst_stats, [] => (none, inst_stats)
  | inst_stats, cur_buf :: rest =>
    match read_fields_loop true fresh (getlines ',' cur_buf) with
    | .ok inst_stat => read_stats_loop fresh (inst_stats ++ [inst_stat]) rest
    | .error e => (some e, inst_stats)

/-- How a call of `read` ends: it returns a flag or an exception leaves it. -/
inductive Outcome where
  | returned (value : Bool)
  | thrown (e : Exception)
  deriving DecidableEq

/-- Modelled from the spec: the default constructor of `InstructionStat`
(`InstructionAnalyzer.hpp` is not in the sources): empty `srcs` and `stat`; the three
`int` fields hold whatever the constructor leaves in them, given as arguments. -/
def InstructionStat.fresh (pc predicate dst : Int) : InstructionStat :=
  ⟨pc, predicate, dst, [], []⟩

/-- Embedding of `InstructionAnalyzer::read`. `file` is the content of the file at
`file_path`, `none` when it cannot be opened; `fresh` is a default-constructed
InstructionStat. The result is how the call ends and the aggregate it leaves. -/
def read (fresh : InstructionStat) (file : Option (List Char)) (metrics : InstructionMetrics)
    (sparse : Bool) : Outcome × InstructionMetrics :=
  match file with
  | none => (.returned false, metrics)
  | some ifs =>
    let sep : Char := if sparse then '\n' else '#'
    match getline ifs '\n' with
    | none => (.returned false, metrics)
    | some (buf, ifs1) =>
      if buf ≠ "<metric names>".toList then (.returned false, metrics)
      else
        let names : (Option Exception × List (List Char × Int)) × List Char :=
          match getline ifs1 '\n' with
          | some (buf, ifs2) => (read_names_loop metrics.metric_names (getlines sep buf), ifs2)
          | none => ((none, metrics.metric_names), [])
        let metrics1 : InstructionMetrics := ⟨names.1.2, metrics.inst_stats⟩
        match names.1.1 with
        | some e => (.thrown e, metrics1)
        | none =>
          match getline names.2 '\n' with
          | none => (.returned false, metrics1)
          | some (buf, ifs3) =>
            if buf ≠ "<inst stats>".toList then (.returned false, metrics1)
            else
              match getline ifs3 '\n' with
              | some (buf, _) =>
                match read_stats_loop fresh metrics1.inst_stats (getlines sep buf) with
                | (some e, inst_stats) => (.thrown e, ⟨metrics1.metric_names, inst_stats⟩)
                | (none, inst_stats) => (.returned true, ⟨metrics1.metric_names, inst_stats⟩)
              | none => (.returned true, metrics1)

namespace Spec

/-- The value is a C++ `int`. -/
@[reducible] def is_int (n : Int) : Prop := -2147483648 ≤ n ∧ n ≤ 2147483647

/-- A metric name without the characters the text format uses around names. -/
@[reducible] def plain_name (name : List Char) : Prop := ',' ∉ name ∧ '#' ∉ name ∧ '\n' ∉ name

/-- A record that carries no source register, with `int` fields and a `stat` mapping
with distinct keys. -/
@[reducible] def plain_stat (s : InstructionStat) : Prop :=
  is_int s.pc ∧ (∀ src ∈ s.srcs, src = -1) ∧ (∀ it ∈ s.stat, is_int it.1 ∧ is_int it.2) ∧
    (s.stat.map Prod.fst).Nodup

end Spec

namespace Spec

/-- An aggregate as `analyze` leaves it for `IADD3 R1, R2, R3`: one metric name and one
record with destination 1 and source registers 2 and 3. -/
def iadd3_metrics : InstructionMetrics :=
  ⟨[("INTEGER.ADD3".toList, 0)], [⟨0, -1, 1, [2, 3], [(0, 1)]⟩]⟩

/-- An aggregate whose only metric name holds a comma. -/
def comma_metrics : InstructionMetrics := ⟨[("A,B".toList, 0)], []⟩

/-- An aggregate whose only metric name holds the separator '#'. -/
def hash_metrics : InstructionMetrics := ⟨[("A#B".toList, 0)], []⟩

/-- An aggregate whose only metric name holds a newline. -/
def newline_metrics : InstructionMetrics := ⟨[("A\nB".toList, 0)], []⟩

/-- An aggregate with two metric names and three records without source registers. -/
def plain_metrics : InstructionMetrics :=
  ⟨[("INTEGER.ADD3".toList, 0), ("MEMORY.LOAD.GLOBAL.32".toList, 1)],
    [⟨0, -1, 1, [], [(0, 1)]⟩, ⟨8, 0, 2, [-1], [(1, 1)]⟩, ⟨8, 0, 2, [-1], [(1, 1)]⟩]⟩

end Spec

namespace Spec

/-- The opcode matches one of the patterns its category recognises; the texture category
recognises none. -/
def recognised : InsType → List Char → Prop
  | .INS_TYPE_MEMORY, opcode =>
    "LD".toList <:+: opcode ∨ "ST".toList <:+: opcode ∨ opcode = "RED".toList ∨
      "ATOM".toList <:+: opcode
  | .INS_TYPE_FLOAT, opcode =>
    opcode = "MUFU".toList ∨ "ADD".toList <:+: opcode ∨ "MUL".toList <:+: opcode ∨
      "FMA".toList <:+: opcode ∨ "MMA".toList <:+: opcode
  | .INS_TYPE_INTEGER, opcode =>
    "MAD".toList <:+: opcode ∨ "DP".toList <:+: opcode ∨ "MMA".toList <:+: opcode ∨
      "MUL".toList <:+: opcode ∨ "ADD".toList <:+: opcode
  | .INS_TYPE_TEXTRUE, _ => False
  | .INS_TYPE_CONTROL, opcode =>
    "MEMBAR".toList <:+: opcode ∨ "DEPBAR".toList <:+: opcode ∨ "SYNC".toList <:+: opcode ∨
      "BAR".toList <:+: opcode ∨ "SHFL".toList <:+: opcode ∨ "CAL".toList <:+: opcode ∨
      "EXIT".toList <:+: opcode ∨ "RET".toList <:+: opcode ∨ "JM".toList <:+: opcode ∨
      "BR".toList <:+: opcode
  | .INS_TYPE_MISC, opcode =>
    "I2".toList <:+: opcode ∨ "F2".toList <:+: opcode ∨ opcode = "FRND".toList

/-- The literal of a coarse category, the first part of every metric name of that
category. -/
def category : InsType → List Char
  | .INS_TYPE_MEMORY => "MEMORY".toList
  | .INS_TYPE_FLOAT => "FLOAT".toList
  | .INS_TYPE_INTEGER => "INTEGER".toList
  | .INS_TYPE_TEXTRUE => "TEXTURE".toList
  | .INS_TYPE_CONTROL => "CONTROL".toList
  | .INS_TYPE_MISC => "MISC".toList

/-- The metric name carries the "OTHER" qualifier of its category: it is the category,
then ".OTHER", then at most a width. -/
def carries_other (t : InsType) (metric_name : List Char) : Prop :=
  ∃ width : List Char, metric_name = category t ++ ".OTHER".toList ++ width

end Spec

namespace Spec

/-- The lines of a file, as successive `std::getline` calls yield them. -/
def lines (content : List Char) : List (List Char) := getlines '\n' content

/-- The separator of the two record streams: a newline when `sparse` is set, else '#'. -/
def sep (sparse : Bool) : Char := if sparse then '\n' else '#'

end Spec

namespace Spec

/-- A file with a metric-name entry whose id is no number, in front of a line that is not
the inst-stats header. -/
def bad_id_no_header : List Char := "<metric names>\n(A,0)#(B,x)#\nfoo\n(4,,,,0:1,)#".toList

/-- A file with both headers and a metric id that is no number. -/
def bad_id_file : List Char :=
  "<metric names>\n(A,0)#(B,x)#(C,2)#\n<inst stats>\n(4,,,,0:1,)#".toList

/-- A file whose first line is not the metric-names header. -/
def no_header_file : List Char := "<metrics>\n(A,0)#\n<inst stats>\n(4,,,,0:1,)#".toList

/-- A file with a well-formed metric-name line in front of a line that is not the
inst-stats header. -/
def no_second_header_file : List Char := "<metric names>\n(A,0)#\nfoo\n(4,,,,0:1,)#".toList

end Spec

namespace Spec

/-- A number written in decimal. -/
def decimal (n : Int) : List Char := (toString n).toList

/-- A register written in decimal, or nothing for the none sentinel. -/
def optional_decimal (n : Int) : List Char := if n = -1 then [] else decimal n

/-- The sources field: each non-none source register followed by ':'. -/
def sources_text (srcs : List Int) : List Char :=
  ((srcs.filter (fun s => s ≠ -1)).map (fun s => decimal s ++ ":".toList)).flatten

/-- The pairs field: each metric id, ':', its count, followed by ','. -/
def pairs_text (stat : List (Int × Int)) : List Char :=
  (stat.map (fun it => decimal it.1 ++ ":".toList ++ decimal it.2 ++ ",".toList)).flatten

/-- One metric entry: "(" name "," id ")". -/
def entry_text (e : List Char × Int) : List Char :=
  "(".toList ++ e.1 ++ ",".toList ++ decimal e.2 ++ ")".toList

/-- One record: "(" pc "," predicate "," dst "," sources "," pairs ")". -/
def record_text (s : InstructionStat) : List Char :=
  "(".toList ++ decimal s.pc ++ ",".toList ++ optional_decimal s.predicate ++ ",".toList ++
    optional_decimal s.dst ++ ",".toList ++ sources_text s.srcs ++ ",".toList ++
    pairs_text s.stat ++ ")".toList

/-- The whole file: the two section headers, each on its own line, the entries and the
records each followed by the separator, and a newline after the entries. -/
def file_text (m : InstructionMetrics) (sparse : Bool) : List Char :=
  "<metric names>\n".toList ++
    (m.metric_names.map (fun e => entry_text e ++ [sep sparse])).flatten ++
    "\n".toList ++ "<inst stats>\n".toList ++
    (m.inst_stats.map (fun s => record_text s ++ [sep sparse])).flatten

end Spec

namespace Spec

/-- The ids of a mapping are pairwise distinct and are exactly the numbers 0 to k-1, k the
number of names: the ids, in some order, are 0, 1, ..., k-1. -/
@[reducible] def dense_ids (metric_names : List (List Char × Int)) : Prop :=
  (metric_names.map Prod.snd).Perm
    ((List.range metric_names.length).map (fun i : Nat => (i : Int)))

end Spec

namespace Spec

/-- The register named after the first marker: the decimal value of the digit run that
follows it, or the none sentinel -1 when no digit follows. -/
def register_after (marker : Char) (s : List Char) : Int :=
  if digit_run marker s = [] then -1 else ((decimal_value (digit_run marker s) : Nat) : Int)

end Spec

/-- The `while` loop of `convert_reg` with `pos` as its loop variable, as the source has
it: every iteration inspects `str[pos]`, and a digit moves `pos` on. `fuel` bounds the
number of iterations (`none` when it runs out) and `seen` records the positions
inspected, in order. The test `pos != npos` holds throughout, `pos` staying within the
string. -/
def convert_reg_scan (str : List Char) :
    Nat → Nat → Int → Bool → List Nat → Option (Int × Bool × List Nat)
  | 0, _, _, _, _ => none
  | fuel + 1, pos, num, find_digit, seen =>
    if isdigit (charAt str pos) then
      convert_reg_scan str fuel (pos + 1)
        (wrapInt (num * 10 + ((charAt str pos).toNat : Int) - ('0'.toNat : Int))) true
        (seen ++ [pos])
    else some (num, find_digit, seen ++ [pos])

namespace Spec

/-- An aggregate with a plain record followed by the record of `IADD3 R1, R2, R3`. -/
def two_sources_metrics : InstructionMetrics :=
  ⟨[("INTEGER.ADD3".toList, 0)],
    [⟨0, -1, 1, [], [(0, 1)]⟩, ⟨8, -1, 1, [2, -1, 3], [(0, 1)]⟩]⟩

end Spec

namespace Spec

/-- The record "(pc,,,,a:b,c:d,)": no predicate, no destination, no source register, and
two metric-id:count pairs. -/
def two_pair_record (pc a b c d : Int) : List Char :=
  "(".toList ++ decimal pc ++ ",,,,".toList ++ decimal a ++ ":".toList ++ decimal b ++
    ",".toList ++ decimal c ++ ":".toList ++ decimal d ++ ",)".toList

/-- A file whose inst-stats line holds one record with the two pairs 3:4 and 5:6. -/
def two_pair_file : List Char := "<metric names>\n(A,0)#\n<inst stats>\n(16,,,,3:4,5:6,)#".toList

end Spec

/-! ## The correlation map and the buffer pool of `hpcrun`

Only the declarations (`gpu-correlation-id-map.h`, `sanitizer-buffer.h`) are among the
sources; the operations are modelled from the specification, one call at a time. -/

namespace Hpcrun

/-- Modelled from the spec: the entry of `gpu-correlation-id-map.c` (not in the sources):
the external id, and device id, start and end, which are absent until the completion is
reported. -/
structure gpu_correlation_id_map_entry_t where
  external_id : Nat
  device_id : Option Nat
  start : Option Nat
  finish : Option Nat
  deriving DecidableEq

/-- Modelled from the spec: the correlation map, a mapping from correlation id to entry
(its implementation is not in the sources), kept as an association list. -/
abbrev gpu_correlation_id_map_t := List (Nat × gpu_correlation_id_map_entry_t)

/-- Modelled from the spec: `lookup(correlation_id) -> entry|absent`. -/
def gpu_correlation_id_map_lookup (map : gpu_correlation_id_map_t) (id : Nat) :
    Option gpu_correlation_id_map_entry_t :=
  map_find map id

/-- Modelled from the spec: `insert(correlation_id, external_id)` creates an entry with
absent timestamps. -/
def gpu_correlation_id_map_insert (map : gpu_correlation_id_map_t)
    (correlation_id external_id : Nat) : gpu_correlation_id_map_t :=
  map_assign map correlation_id ⟨external_id, none, none, none⟩

/-- Modelled from the spec: `delete(correlation_id)` removes an entry. -/
def gpu_correlation_id_map_delete (map : gpu_correlation_id_map_t) (correlation_id : Nat) :
    gpu_correlation_id_map_t :=
  map.filter (fun p => p.1 ≠ correlation_id)

/-- Modelled from the spec: `external_id_replace(correlation_id, external_id)` overwrites
the external id of an existing entry and does nothing for an unknown id. -/
def gpu_correlation_id_map_external_id_replace (map : gpu_correlation_id_map_t)
    (correlation_id external_id : Nat) : gpu_correlation_id_map_t :=
  match map_find map correlation_id with
  | some entry => map_assign map correlation_id { entry with external_id := external_id }
  | none => map

/-- Modelled from the spec: `kernel_update(correlation_id, device_id, start, end)` fills
in the completion data of an existing entry; timestamps once set are not overwritten by a
later update, and an unknown id is left alone. -/
def gpu_correlation_id_map_kernel_update (map : gpu_correlation_id_map_t)
    (correlation_id device_id start finish : Nat) : gpu_correlation_id_map_t :=
  match map_find map correlation_id with
  | some entry =>
    if entry.start = none ∧ entry.finish = none then
      map_assign map correlation_id
        { entry with device_id := some device_id, start := some start, finish := some finish }
    else map
  | none => map

/-- Modelled from the spec: a transport buffer of `sanitizer-buffer.c` (not in the
sources): the back-reference to its owning channel, its number within the channel, and
the identity and provenance data that `produce` attaches. -/
structure sanitizer_buffer_t where
  channel : Nat
  index : Nat
  thread_id : Nat
  cubin_id : Nat
  mod_id : Nat
  kernel_id : Int
  host_op_id : Nat
  type : Nat
  num_records : Nat
  async : Bool
  deriving DecidableEq

/-- Modelled from the spec: a buffer channel: its free list, the number of buffers it has
created, and the configured pool size ceiling and growth policy. -/
structure sanitizer_buffer_channel_t where
  id : Nat
  free_list : List sanitizer_buffer_t
  created : Nat
  pool_size : Nat
  growth : Bool
  deriving DecidableEq

/-- Modelled from the spec: `alloc(channel) -> buffer` removes a buffer from the free
list, or creates a fresh one up to the pool size ceiling (beyond it only when growth is
allowed); `none` when the pool is exhausted and growth is disallowed. -/
def sanitizer_buffer_alloc (channel : sanitizer_buffer_channel_t) :
    Option (sanitizer_buffer_t × sanitizer_buffer_channel_t) :=
  match channel.free_list with
  | b :: rest => some (b, { channel with free_list := rest })
  | [] =>
    if channel.created < channel.pool_size ∨ channel.growth = true then
      some (⟨channel.id, channel.created, 0, 0, 0, 0, 0, 0, 0, false⟩,
        { channel with created := channel.created + 1 })
    else none

/-- Modelled from the spec: `produce` attaches the metadata to a checked-out buffer and
increments the shared balance counter, an `atomic_uint` of 32 bits. -/
def sanitizer_buffer_produce (b : sanitizer_buffer_t)
    (thread_id cubin_id mod_id : Nat) (kernel_id : Int) (host_op_id type num_records : Nat)
    (balance : Nat) (async : Bool) : sanitizer_buffer_t × Nat :=
  ({ b with thread_id := thread_id, cubin_id := cubin_id, mod_id := mod_id,
            kernel_id := kernel_id, host_op_id := host_op_id, type := type,
            num_records := num_records, async := async },
    (balance + 1) % 4294967296)

/-- Modelled from the spec: `free(channel, buffer, balance)` returns the buffer to the
free list of its owning channel and decrements the balance counter. -/
def sanitizer_buffer_free (channel : sanitizer_buffer_channel_t) (b : sanitizer_buffer_t)
    (balance : Nat) : sanitizer_buffer_channel_t × Nat :=
  ({ channel with free_list := b :: channel.free_list },
    (balance + 4294967296 - 1) % 4294967296)

/-- One alloc, produce, free in order, on a channel and its balance counter; `none` when
the alloc finds the pool exhausted. The metadata of the round is `tag`. -/
def alloc_produce_free (state : sanitizer_buffer_channel_t × Nat) (tag : Nat) :
    Option (sanitizer_buffer_channel_t × Nat) :=
  match sanitizer_buffer_alloc state.1 with
  | none => none
  | some (b, channel) =>
    let produced := sanitizer_buffer_produce b tag tag tag 0 tag tag tag state.2 false
    some (sanitizer_buffer_free channel produced.1 produced.2)

/-- A sequence of rounds of alloc, produce, free, one for every tag. -/
def rounds : List Nat → sanitizer_buffer_channel_t × Nat →
    Option (sanitizer_buffer_channel_t × Nat)
  | [], state => some state
  | tag :: tags, state =>
    match alloc_produce_free state tag with
    | none => none
    | some state1 => rounds tags state1

namespace Spec

/-- A channel of capacity 1 with no buffer checked out: it has created no buffer yet and
its free list is empty, or it has created its one buffer and that is on the free list. -/
@[reducible] def idle_capacity_one (channel : sanitizer_buffer_channel_t) : Prop :=
  channel.pool_size = 1 ∧
    ((channel.created = 0 ∧ channel.free_list = []) ∨
     (channel.created = 1 ∧ ∃ b, channel.free_list = [b] ∧ b.channel = channel.id))

end Spec

end Hpcrun

namespace Spec

/-- An aggregate as `analyze` leaves it for `IADD3 R1, R2, 0x1` followed by
`IADD3 R1, R2, R3`: the first record has the one source register 2, the second the two
source registers 2 and 3 and the single stat entry 0 -> 1. -/
def one_then_two_sources_metrics : InstructionMetrics :=
  ⟨[("INTEGER.ADD3".toList, 0)],
    [⟨0, -1, 1, [2], [(0, 1)]⟩, ⟨16, -1, 1, [2, 3], [(0, 1)]⟩]⟩

end Spec

/-! ## Substring search -/

theorem findFrom_isSome_iff (sub str : List Char) (i : Nat) :
    (findFrom sub str i).isSome = true ↔ sub <:+: str := by
  induction str generalizing i with
  | nil =>
    cases sub <;> simp [findFrom, List.isPrefixOf]
  | cons c cs ih =>
    unfold findFrom
    by_cases h : sub.isPrefixOf (c :: cs) = true
    · simp only [h, if_true, Option.isSome_some, true_iff]
      exact (List.isPrefixOf_iff_prefix.mp h).isInfix
    · simp only [h, if_false, Bool.false_eq_true]
      rw [ih, List.infix_cons_iff]
      constructor
      · intro h1; exact Or.inr h1
      · rintro (h1 | h1)
        · exact absurd (List.isPrefixOf_iff_prefix.mpr h1) h
        · exact h1

/-- `str.find(sub) != npos` holds exactly when `sub` occurs in `str`. -/
theorem found_iff (str sub : List Char) : found str sub = true ↔ sub <:+: str := by
  unfold found find
  exact findFrom_isSome_iff sub str 0

theorem found_false_iff (str sub : List Char) : found str sub = false ↔ ¬ sub <:+: str := by
  rw [← found_iff]; simp


/-! ## The classifiers -/

theorem memory_ldst_eq (opcode : List Char) :
    (memory_ldst_scope opcode).1 = Spec.memory_kind opcode := by
  unfold memory_ldst_scope Spec.memory_kind
  simp only [found_iff]
  split_ifs <;> rfl

theorem memory_width_foldl (modifiers : List (List Char)) (w : List Char) :
    modifiers.foldl memory_width_step w =
      match (Spec.width_modifiers modifiers).getLast? with
      | none => w
      | some m => ".".toList ++ m := by
  induction modifiers generalizing w with
  | nil => rfl
  | cons m ms ih =>
    rw [List.foldl_cons, ih]
    unfold Spec.width_modifiers memory_width_step
    by_cases hm : m = "64".toList ∨ m = "128".toList
    · rw [if_pos hm, List.filter_cons_of_pos (by simpa using hm)]
      cases hf : List.filter (fun m => decide (m = "64".toList ∨ m = "128".toList)) ms with
      | nil => simp
      | cons a l =>
        obtain ⟨x, hx⟩ : ∃ x, (a :: l).getLast? = some x :=
          ⟨_, List.getLast?_eq_getLast _ (List.cons_ne_nil a l)⟩
        rw [List.getLast?_cons_cons, hx]
    · rw [if_neg hm, List.filter_cons_of_neg (by simpa using hm)]

theorem memory_width_eq (modifiers : List (List Char)) :
    modifiers.foldl memory_width_step ".32".toList = Spec.memory_width modifiers := by
  rw [memory_width_foldl]; rfl

theorem memory_scope_mem (opcode : List Char) :
    (memory_ldst_scope opcode).2 ∈
      [[], ".SHARED".toList, ".LOCAL".toList, ".GLOBAL".toList] := by
  unfold memory_ldst_scope
  split_ifs <;> simp

/-- C1: the memory classifier yields "MEMORY", then the kind (load if the opcode contains
"LD", else store if it contains "ST", else atomic if it is "RED" or contains "ATOM", else
other), then an optional scope, then the width (".32" unless a modifier is "64" or "128",
then "." and the last such modifier); opcode "LDG" without such a modifier yields exactly
"MEMORY.LOAD.GLOBAL.32". -/
theorem memory_metric_name (inst : Instruction) (metric_name : List Char) :
    (∃ scope ∈ [[], ".SHARED".toList, ".LOCAL".toList, ".GLOBAL".toList],
      analyze_instruction_MEMORY inst metric_name =
        "MEMORY".toList ++ (Spec.memory_kind inst.opcode ++ scope ++
          Spec.memory_width inst.modifiers)) ∧
    (inst.opcode = "LDG".toList →
      (∀ m ∈ inst.modifiers, m ≠ "64".toList ∧ m ≠ "128".toList) →
      analyze_instruction_MEMORY inst metric_name = "MEMORY.LOAD.GLOBAL.32".toList) := by
  constructor
  · refine ⟨(memory_ldst_scope inst.opcode).2, memory_scope_mem _, ?_⟩
    unfold analyze_instruction_MEMORY
    simp only [memory_ldst_eq, memory_width_eq]
  · intro hop hmods
    unfold analyze_instruction_MEMORY
    simp only [memory_width_eq]
    have hw : Spec.width_modifiers inst.modifiers = [] := by
      unfold Spec.width_modifiers
      rw [List.filter_eq_nil_iff]
      intro m hm
      simpa using hmods m hm
    unfold Spec.memory_width
    rw [hw, hop]
    decide

/-- C1 at a concrete instruction: "LDG" with modifiers "E" and "SYS". -/
theorem memory_metric_name_witness :
    analyze_instruction_MEMORY
      ⟨16, "LDG".toList, [], ["R0".toList], ["E".toList, "SYS".toList], .INS_TYPE_MEMORY⟩
      "stale".toList = "MEMORY.LOAD.GLOBAL.32".toList :=
  (memory_metric_name _ _).2 rfl (by decide)

theorem memory_scope_eq (opcode : List Char) :
    (memory_ldst_scope opcode).2 = Spec.memory_scope opcode := by
  unfold memory_ldst_scope Spec.memory_scope
  by_cases h1 : opcode = "LDS".toList
  · subst h1; decide
  by_cases h2 : opcode = "LDL".toList
  · subst h2; decide
  by_cases h3 : opcode = "LDG".toList
  · subst h3; decide
  by_cases h4 : opcode = "STS".toList
  · subst h4; decide
  by_cases h5 : opcode = "STL".toList
  · subst h5; decide
  by_cases h6 : opcode = "STG".toList
  · subst h6; decide
  by_cases h7 : opcode = "ATOMS".toList
  · subst h7; decide
  by_cases h8 : opcode = "ATOMG".toList
  · subst h8; decide
  simp only [h1, h2, h3, h4, h5, h6, h7, h8, if_false, or_self]
  split_ifs <;> rfl

/-- C2 as stated fails: for opcode "ATOML" the classifier gives "MEMORY.ATOMIC.32", with
no ".LOCAL" scope between kind and width. -/
theorem memory_scope_ATOML_counterexample :
    analyze_instruction_MEMORY ⟨0, "ATOML".toList, [], [], [], .INS_TYPE_MEMORY⟩ [] =
      "MEMORY.ATOMIC.32".toList ∧
    analyze_instruction_MEMORY ⟨0, "ATOML".toList, [], [], [], .INS_TYPE_MEMORY⟩ [] ≠
      "MEMORY".toList ++ (Spec.memory_kind "ATOML".toList ++
        Spec.memory_scope_nine "ATOML".toList ++ Spec.memory_width []) := by
  decide

/-- C2 (amended): the scope qualifier of the memory classifier is ".SHARED" exactly for
LDS, STS, ATOMS, ".LOCAL" exactly for LDL, STL, ".GLOBAL" exactly for LDG, STG, ATOMG, and
every other opcode (ATOML included) has no scope qualifier between kind and width. -/
theorem memory_scope_qualifier (inst : Instruction) (metric_name : List Char) :
    analyze_instruction_MEMORY inst metric_name =
      "MEMORY".toList ++ (Spec.memory_kind inst.opcode ++ Spec.memory_scope inst.opcode ++
        Spec.memory_width inst.modifiers) := by
  unfold analyze_instruction_MEMORY
  simp only [memory_ldst_eq, memory_width_eq, memory_scope_eq]

/-- C3: the control classifier yields "CONTROL" followed by the qualifier of the first
matching rule: MEMBAR/DEPBAR, then SYNC/BAR (WARP or BLOCK), SHFL, CAL, EXIT, RET, JM, BR,
else OTHER. -/
theorem control_metric_name (inst : Instruction) (metric_name : List Char) :
    analyze_instruction_CONTROL inst metric_name =
      "CONTROL".toList ++ Spec.control_qualifier inst.opcode := by
  unfold analyze_instruction_CONTROL Spec.control_qualifier
  simp only [found_iff]
  split_ifs <;> rfl

theorem float_width_eq (opcode : List Char) :
    (if charAt opcode 0 = 'D' then ".64".toList
      else if charAt opcode 0 = 'H' then ".16".toList else ".32".toList) =
      Spec.float_width opcode := by
  cases opcode with
  | nil => decide
  | cons c cs =>
    have hc : charAt (c :: cs) 0 = c := rfl
    rw [hc]
    by_cases hD : c = 'D'
    · subst hD; rfl
    · by_cases hH : c = 'H'
      · subst hH; rfl
      · rw [if_neg hD, if_neg hH]
        unfold Spec.float_width
        split
        · rename_i h; exact absurd (List.cons.inj h).1 hD
        · rename_i h; exact absurd (List.cons.inj h).1 hH
        · rfl

/-- C4: the float classifier yields "FLOAT", then the type (MUFU if the opcode is "MUFU",
else ADD, MUL, MAD for "FMA", TENSOR for "MMA" by containment, else OTHER), then the width
(".64" for a first character 'D', ".16" for 'H', ".32" otherwise, the empty opcode
included). -/
theorem float_metric_name (inst : Instruction) (metric_name : List Char) :
    analyze_instruction_FLOAT inst metric_name =
      "FLOAT".toList ++ (Spec.float_type inst.opcode ++ Spec.float_width inst.opcode) := by
  unfold analyze_instruction_FLOAT
  simp only [float_width_eq]
  unfold Spec.float_type
  simp only [found_iff]

/-- C5: the integer classifier yields "INTEGER" followed by the qualifier of the first
matching rule (MAD, DP, MMA, MUL, ADD with ADD3 for exactly "IADD3", else OTHER); opcode
"IADD3" yields exactly "INTEGER.ADD3". -/
theorem integer_metric_name (inst : Instruction) (metric_name : List Char) :
    analyze_instruction_INTEGER inst metric_name =
      "INTEGER".toList ++ Spec.integer_qualifier inst.opcode ∧
    (inst.opcode = "IADD3".toList →
      analyze_instruction_INTEGER inst metric_name = "INTEGER.ADD3".toList) := by
  have h : analyze_instruction_INTEGER inst metric_name =
      "INTEGER".toList ++ Spec.integer_qualifier inst.opcode := by
    unfold analyze_instruction_INTEGER Spec.integer_qualifier
    simp only [found_iff]
  refine ⟨h, fun hop => ?_⟩
  unfold analyze_instruction_INTEGER
  rw [hop]
  decide

/-- C5 at a concrete instruction with opcode "IADD3". -/
theorem integer_metric_name_witness :
    analyze_instruction_INTEGER
      ⟨8, "IADD3".toList, [], ["R1".toList, "R2".toList], [], .INS_TYPE_INTEGER⟩ [] =
      "INTEGER.ADD3".toList :=
  (integer_metric_name _ _).2 rfl

/-- C6: the misc classifier yields "MISC.CONVERT" if the opcode contains "I2" or "F2" or
is "FRND", and "MISC.OTHER" otherwise. -/
theorem misc_metric_name (inst : Instruction) (metric_name : List Char) :
    analyze_instruction_MISC inst metric_name =
      if "I2".toList <:+: inst.opcode ∨ "F2".toList <:+: inst.opcode ∨
          inst.opcode = "FRND".toList then "MISC.CONVERT".toList
      else "MISC.OTHER".toList := by
  unfold analyze_instruction_MISC
  simp only [found_iff]
  split_ifs <;> rfl

/-! ## Register decoding -/

theorem findFrom_singleton (m : Char) (s : List Char) (i : Nat) :
    findFrom [m] s i =
      if m ∈ s then some (i + (s.takeWhile (fun c => c != m)).length) else none := by
  induction s generalizing i with
  | nil => simp [findFrom, List.isPrefixOf]
  | cons c cs ih =>
    unfold findFrom
    by_cases h : m = c
    · subst h
      simp [List.isPrefixOf]
    · have h2 : ¬ c = m := fun e => h e.symm
      simp only [List.isPrefixOf, beq_iff_eq, h, Bool.and_true, decide_False, Bool.false_and,
        Bool.false_eq_true, if_false, ih, List.mem_cons, false_or]
      have h3 : (c != m) = true := by simpa using h2
      have h4 : List.takeWhile (fun c => c != m) (c :: cs) =
          c :: List.takeWhile (fun c => c != m) cs := by
        rw [List.takeWhile_cons]; simp only [h3, if_true]
      rw [h4]
      simp only [List.length_cons]
      split_ifs
      · simp only [Option.some.injEq]; omega
      · rfl

theorem drop_takeWhile_length_succ (p : Char → Bool) (s : List Char) :
    s.drop ((s.takeWhile p).length + 1) = (s.dropWhile p).tail := by
  induction s with
  | nil => rfl
  | cons c cs ih =>
    by_cases h : p c = true
    · rw [List.takeWhile_cons_of_pos h, List.dropWhile_cons_of_pos h]
      simpa using ih
    · rw [List.takeWhile_cons_of_neg h, List.dropWhile_cons_of_neg h]
      rfl

/-- The digit-accumulating step of `convert_reg`. -/
theorem convert_reg_loop_eq (rest : List Char) (num : Int) (fd : Bool) :
    convert_reg_loop rest num fd =
      ((rest.takeWhile Char.isDigit).foldl
          (fun n c => wrapInt (n * 10 + (c.toNat : Int) - ('0'.toNat : Int))) num,
        fd || !(rest.takeWhile Char.isDigit).isEmpty) := by
  induction rest generalizing num fd with
  | nil => simp [convert_reg_loop]
  | cons c cs ih =>
    unfold convert_reg_loop
    by_cases h : c.isDigit = true
    · rw [if_pos (by simpa [isdigit] using h), ih, List.takeWhile_cons_of_pos h]
      simp
    · rw [if_neg (by simpa [isdigit] using h), List.takeWhile_cons_of_neg h]
      simp

theorem find_reg_eq (marker : Char) (s : List Char) :
    find_reg s [marker] =
      if marker ∈ s then
        some (if Spec.digit_run marker s = [] then -1
          else (Spec.digit_run marker s).foldl
            (fun n c => wrapInt (n * 10 + (c.toNat : Int) - ('0'.toNat : Int))) 0)
      else none := by
  unfold find_reg find
  rw [findFrom_singleton]
  by_cases h : marker ∈ s
  · simp only [h, if_true, zero_add]
    unfold convert_reg
    rw [drop_takeWhile_length_succ, convert_reg_loop_eq]
    unfold Spec.digit_run Spec.after_marker
    cases hr : List.takeWhile Char.isDigit (List.dropWhile (fun c => c != marker) s).tail <;>
      simp
  · simp only [h, if_false]

theorem wrapInt_of_range (n : Int) (h0 : 0 ≤ n) (h1 : n < 2147483648) : wrapInt n = n := by
  unfold wrapInt
  omega

theorem isDigit_toNat (c : Char) (h : c.isDigit = true) : 48 ≤ c.toNat ∧ c.toNat ≤ 57 := by
  simp only [Char.isDigit, Bool.and_eq_true, decide_eq_true_eq] at h
  have h1 : (48 : UInt32) ≤ c.val := h.1
  have h2 : c.val ≤ (57 : UInt32) := h.2
  rw [UInt32.le_def] at h1 h2
  constructor
  · exact h1
  · exact h2

/-- Without overflow (the accumulated number stays below `2^31`) the loop computes the
decimal value. -/
theorem foldl_digits_no_overflow (run : List Char) (hd : ∀ c ∈ run, c.isDigit = true)
    (n : Nat) (hb : (n + 1) * 10 ^ run.length ≤ 2147483648) :
    run.foldl (fun n c => wrapInt (n * 10 + (c.toNat : Int) - ('0'.toNat : Int))) (n : Int) =
      ((run.foldl (fun n c => 10 * n + (c.toNat - '0'.toNat)) n : Nat) : Int) := by
  induction run generalizing n with
  | nil => rfl
  | cons c cs ih =>
    have hc := isDigit_toNat c (hd c (List.mem_cons_self c cs))
    have h0 : '0'.toNat = 48 := rfl
    rw [List.foldl_cons, List.foldl_cons]
    have hpow : 10 ^ (c :: cs).length = 10 * 10 ^ cs.length := by
      rw [List.length_cons, pow_succ, mul_comm]
    rw [hpow] at hb
    have hpos : 1 ≤ 10 ^ cs.length := Nat.one_le_pow _ _ (by norm_num)
    have hstep : (10 * n + (c.toNat - '0'.toNat) + 1) * 10 ^ cs.length ≤ 2147483648 := by
      have : 10 * n + (c.toNat - '0'.toNat) + 1 ≤ (n + 1) * 10 := by rw [h0]; omega
      calc (10 * n + (c.toNat - '0'.toNat) + 1) * 10 ^ cs.length
          ≤ ((n + 1) * 10) * 10 ^ cs.length := Nat.mul_le_mul_right _ this
        _ = (n + 1) * (10 * 10 ^ cs.length) := by ring
        _ ≤ 2147483648 := hb
    have hlt : 10 * n + (c.toNat - '0'.toNat) < 2147483648 := by
      have : (10 * n + (c.toNat - '0'.toNat) + 1) * 1 ≤
          (10 * n + (c.toNat - '0'.toNat) + 1) * 10 ^ cs.length := Nat.mul_le_mul_left _ hpos
      omega
    have hw : wrapInt ((n : Int) * 10 + (c.toNat : Int) - ('0'.toNat : Int)) =
        ((10 * n + (c.toNat - '0'.toNat) : Nat) : Int) := by
      have e : (n : Int) * 10 + (c.toNat : Int) - ('0'.toNat : Int) =
          ((10 * n + (c.toNat - '0'.toNat) : Nat) : Int) := by
        rw [h0]; omega
      rw [e]
      apply wrapInt_of_range
      · exact Int.natCast_nonneg _
      · rw [h0] at hlt ⊢; omega
    rw [hw]
    exact ih (fun x hx => hd x (List.mem_cons_of_mem c hx)) _ hstep

theorem digit_run_ne_nil_iff (marker : Char) (s : List Char) :
    Spec.digit_run marker s ≠ [] ↔ Spec.digit_follows marker s := by
  unfold Spec.digit_run Spec.digit_follows
  cases h : Spec.after_marker marker s with
  | nil => simp
  | cons c cs =>
    by_cases hc : c.isDigit = true
    · simp [List.takeWhile_cons_of_pos hc, hc]
    · simp [List.takeWhile_cons_of_neg hc, hc]

theorem pow_le_of_le_nine (k : Nat) (h : k ≤ 9) : (0 + 1) * 10 ^ k ≤ 2147483648 := by
  have : 10 ^ k ≤ 10 ^ 9 := Nat.pow_le_pow_right (by norm_num) h
  norm_num at this ⊢
  omega

/-- Value of a marked register: the sentinel without marker or without a digit after
it, else the decimal value of the digit run when that has at most nine digits. -/
theorem find_reg_value (marker : Char) (s : List Char)
    (h9 : (Spec.digit_run marker s).length ≤ 9) :
    (find_reg s [marker]).getD (-1) =
      if marker ∈ s ∧ Spec.digit_run marker s ≠ [] then
        ((Spec.decimal_value (Spec.digit_run marker s) : Nat) : Int)
      else -1 := by
  rw [find_reg_eq]
  by_cases hm : marker ∈ s
  · by_cases hne : Spec.digit_run marker s ≠ []
    · simp only [hm, hne, and_self, if_true, if_false, Option.getD_some, ne_eq,
        not_false_eq_true]
      have := foldl_digits_no_overflow (Spec.digit_run marker s)
        (fun c hc => (List.mem_takeWhile_imp hc)) 0 (pow_le_of_le_nine _ h9)
      simpa [Spec.decimal_value] using this
    · have hnil : Spec.digit_run marker s = [] := by
        by_contra h; exact hne h
      simp [hm, hnil]
  · simp [hm]

theorem ofInstruction_predicate (inst : Instruction) :
    (InstructionStat.ofInstruction inst).predicate =
      (find_reg inst.predicate ['P']).getD (-1) := by
  have hp : (if inst.predicate.length ≠ 0 then (find_reg inst.predicate "P".toList).getD (-1)
      else -1) = (find_reg inst.predicate ['P']).getD (-1) := by
    by_cases h : inst.predicate.length ≠ 0
    · rw [if_pos h]; rfl
    · rw [if_neg h]
      have hnil : inst.predicate = [] := List.length_eq_zero.mp (by simpa using h)
      rw [hnil]; rfl
  unfold InstructionStat.ofInstruction
  cases inst.operands <;> exact hp

theorem ofInstruction_dst (inst : Instruction) (operand0 : List Char)
    (h : inst.operands.head? = some operand0) :
    (InstructionStat.ofInstruction inst).dst = (find_reg operand0 ['R']).getD (-1) := by
  unfold InstructionStat.ofInstruction
  cases hops : inst.operands with
  | nil => rw [hops] at h; cases h
  | cons a l =>
    rw [hops] at h
    cases h
    rfl

/-- C7: the register decoded for the predicate (marker 'P') and for the destination
operand (marker 'R') of an InstructionStat is the sentinel -1 exactly when the string has
no marker or no decimal digit immediately after the first marker; otherwise it is the
decimal value of the maximal digit run after the first marker (runs of at most nine
digits). -/
theorem register_decoding (inst : Instruction) (marker : Char) (s : List Char) (v : Int)
    (hv : (marker = 'P' ∧ s = inst.predicate ∧
            v = (InstructionStat.ofInstruction inst).predicate) ∨
          (marker = 'R' ∧ inst.operands.head? = some s ∧
            v = (InstructionStat.ofInstruction inst).dst))
    (h9 : (Spec.digit_run marker s).length ≤ 9) :
    (v = -1 ↔ (marker ∉ s ∨ ¬ Spec.digit_follows marker s)) ∧
    (marker ∈ s → Spec.digit_follows marker s →
      v = ((Spec.decimal_value (Spec.digit_run marker s) : Nat) : Int)) := by
  have hval : v = (find_reg s [marker]).getD (-1) := by
    rcases hv with ⟨hm, hs, hv⟩ | ⟨hm, hs, hv⟩
    · rw [hv, hm, hs]; exact ofInstruction_predicate inst
    · rw [hv, hm]; exact ofInstruction_dst inst s hs
  rw [find_reg_value marker s h9] at hval
  constructor
  · constructor
    · intro hneg
      by_contra hcon
      push_neg at hcon
      have hne := (digit_run_ne_nil_iff marker s).mpr hcon.2
      rw [if_pos ⟨hcon.1, hne⟩] at hval
      omega
    · intro h
      rw [hval, if_neg]
      rintro ⟨hm, hne⟩
      rcases h with h | h
      · exact h hm
      · exact h ((digit_run_ne_nil_iff marker s).mp hne)
  · intro hm hf
    rw [hval, if_pos ⟨hm, (digit_run_ne_nil_iff marker s).mpr hf⟩]

/-- C7 at concrete operands: "R12" decodes to 12, "R0" to 0 (not the sentinel), "RZ" and
a string without marker to the sentinel; predicate "@!P3" decodes to 3. -/
theorem register_decoding_witness :
    (InstructionStat.ofInstruction
        ⟨0, "IADD3".toList, [], ["R12".toList], [], .INS_TYPE_INTEGER⟩).dst = 12 ∧
    ((InstructionStat.ofInstruction
        ⟨0, "IADD3".toList, [], ["R0".toList], [], .INS_TYPE_INTEGER⟩).dst = 0 ∧
      (InstructionStat.ofInstruction
        ⟨0, "IADD3".toList, [], ["R0".toList], [], .INS_TYPE_INTEGER⟩).dst ≠ -1) ∧
    (InstructionStat.ofInstruction
        ⟨0, "IADD3".toList, [], ["RZ".toList], [], .INS_TYPE_INTEGER⟩).dst = -1 ∧
    (InstructionStat.ofInstruction
        ⟨0, "IADD3".toList, [], ["0x10".toList], [], .INS_TYPE_INTEGER⟩).dst = -1 ∧
    (InstructionStat.ofInstruction
        ⟨0, "IADD3".toList, "@!P3".toList, [], [], .INS_TYPE_INTEGER⟩).predicate = 3 :=
  ⟨(register_decoding ⟨0, "IADD3".toList, [], ["R12".toList], [], .INS_TYPE_INTEGER⟩ 'R'
      "R12".toList _ (Or.inr ⟨rfl, rfl, rfl⟩) (by decide)).2 (by decide) ⟨'1', by decide⟩,
   ⟨(register_decoding ⟨0, "IADD3".toList, [], ["R0".toList], [], .INS_TYPE_INTEGER⟩ 'R'
      "R0".toList _ (Or.inr ⟨rfl, rfl, rfl⟩) (by decide)).2 (by decide) ⟨'0', by decide⟩,
    fun h => ((register_decoding ⟨0, "IADD3".toList, [], ["R0".toList], [], .INS_TYPE_INTEGER⟩
      'R' "R0".toList _ (Or.inr ⟨rfl, rfl, rfl⟩) (by decide)).1.mp h).elim
        (fun h1 => h1 (by decide)) (fun h2 => h2 ⟨'0', by decide⟩)⟩,
   (register_decoding ⟨0, "IADD3".toList, [], ["RZ".toList], [], .INS_TYPE_INTEGER⟩ 'R'
      "RZ".toList _ (Or.inr ⟨rfl, rfl, rfl⟩) (by decide)).1.mpr
        (Or.inr (by rintro ⟨c, hc, hd⟩; cases hc; exact absurd hd (by decide))),
   (register_decoding ⟨0, "IADD3".toList, [], ["0x10".toList], [], .INS_TYPE_INTEGER⟩ 'R'
      "0x10".toList _ (Or.inr ⟨rfl, rfl, rfl⟩) (by decide)).1.mpr (Or.inl (by decide)),
   (register_decoding ⟨0, "IADD3".toList, "@!P3".toList, [], [], .INS_TYPE_INTEGER⟩ 'P'
      "@!P3".toList _ (Or.inl ⟨rfl, rfl, rfl⟩) (by decide)).2 (by decide) ⟨'3', by decide⟩⟩

/-! ## The analysis pass -/

theorem dispatcher_ignores_old (t : InsType) (inst : Instruction) (old : List Char) :
    _dispatcher t inst old = _dispatcher t inst [] := by
  cases t <;> rfl

theorem analyze_eq_foldl (functions : List Function) (metrics : InstructionMetrics) :
    analyze functions metrics =
      ((Spec.instructions functions).foldl analyze_inst ([], metrics)).2 := by
  unfold analyze Spec.instructions
  rw [List.foldl_flatten, List.foldl_map]
  congr 1
  congr 1
  funext st function
  rw [List.foldl_flatten, List.foldl_map]

theorem foldl_analyze_inst_stats (insts : List Instruction)
    (st : List Char × InstructionMetrics) :
    ∃ recs : List InstructionStat,
      (insts.foldl analyze_inst st).2.inst_stats = st.2.inst_stats ++ recs ∧
      recs.map (fun r => r.pc) = insts.map (fun i => i.offset) := by
  induction insts generalizing st with
  | nil => exact ⟨[], by simp, rfl⟩
  | cons i is ih =>
    obtain ⟨recs, h1, h2⟩ := ih (analyze_inst st i)
    refine ⟨(analyze_inst st i).2.inst_stats.getLast?.toList ++ recs, ?_, ?_⟩
    · rw [List.foldl_cons, h1]
      simp [analyze_inst]
    · simp [analyze_inst, h2, InstructionStat.ofInstruction]
      cases i.operands <;> rfl

/-- C8: `analyze` appends one InstructionStat per instruction, in traversal order: the
records after the call are those before it followed by one record per instruction,
carrying that instruction's offset as pc; nothing is skipped or merged. -/
theorem analyze_appends_one_per_instruction (functions : List Function)
    (metrics : InstructionMetrics) :
    ∃ recs : List InstructionStat,
      (analyze functions metrics).inst_stats = metrics.inst_stats ++ recs ∧
      recs.map (fun r => r.pc) = (Spec.instructions functions).map (fun i => i.offset) ∧
      recs.length = (Spec.instructions functions).length := by
  rw [analyze_eq_foldl]
  obtain ⟨recs, h1, h2⟩ := foldl_analyze_inst_stats (Spec.instructions functions) ([], metrics)
  refine ⟨recs, h1, h2, ?_⟩
  have := congrArg List.length h2
  simpa using this

/-! ## Metric ids -/

theorem map_find_isSome_iff {κ ν : Type} [DecidableEq κ] (m : List (κ × ν)) (key : κ) :
    (map_find m key).isSome = true ↔ key ∈ m.map Prod.fst := by
  induction m with
  | nil => simp [map_find]
  | cons e rest ih =>
    obtain ⟨k, v⟩ := e
    unfold map_find
    by_cases h : k = key
    · simp [h]
    · have h2 : ¬ key = k := fun e => h e.symm
      simp [h, h2, ih]

theorem map_find_eq_none_iff {κ ν : Type} [DecidableEq κ] (m : List (κ × ν)) (key : κ) :
    map_find m key = none ↔ key ∉ m.map Prod.fst := by
  rw [← map_find_isSome_iff]
  cases map_find m key <;> simp

theorem map_assign_new {κ ν : Type} [DecidableEq κ] (m : List (κ × ν)) (key : κ) (value : ν)
    (h : map_find m key = none) : map_assign m key value = m ++ [(key, value)] := by
  induction m with
  | nil => rfl
  | cons e rest ih =>
    obtain ⟨k, v⟩ := e
    unfold map_find at h
    unfold map_assign
    by_cases hk : k = key
    · simp [hk] at h
    · simp only [hk, if_false] at h ⊢
      rw [ih h]; rfl

theorem map_find_append {κ ν : Type} [DecidableEq κ] (m m2 : List (κ × ν)) (key : κ) :
    map_find (m ++ m2) key = (map_find m key).orElse (fun _ => map_find m2 key) := by
  induction m with
  | nil => rfl
  | cons e rest ih =>
    obtain ⟨k, v⟩ := e
    simp only [List.cons_append, map_find]
    by_cases hk : k = key
    · simp [hk]
    · simp [hk, ih]

theorem names_step_find {m : List (List Char × Int)} {name : List Char} {id : Int}
    (x : List Char) (h : map_find m name = some id) :
    map_find (names_step m x) name = some id := by
  unfold names_step
  cases hx : map_find m x with
  | some _ => exact h
  | none =>
    simp only [map_assign_new m x _ hx, map_find_append, h]
    rfl

theorem names_step_foldl_find {m : List (List Char × Int)} {name : List Char} {id : Int}
    (xs : List (List Char)) (h : map_find m name = some id) :
    map_find (xs.foldl names_step m) name = some id := by
  induction xs generalizing m with
  | nil => exact h
  | cons x xs ih => exact ih (names_step_find x h)

theorem names_step_new {m : List (List Char × Int)} {x : List Char}
    (hx : x ∉ m.map Prod.fst) :
    names_step m x = m ++ [(x, (m.length : Int))] := by
  unfold names_step
  have h := (map_find_eq_none_iff m x).mpr hx
  rw [h]
  exact map_assign_new m x _ h

theorem names_step_old {m : List (List Char × Int)} {x : List Char}
    (hx : x ∈ m.map Prod.fst) : names_step m x = m := by
  unfold names_step
  have h := (map_find_isSome_iff m x).mpr hx
  cases hf : map_find m x with
  | none => rw [hf] at h; cases h
  | some _ => rfl

/-- Starting from the empty mapping, the keys stay distinct and are the names seen. -/
theorem names_step_foldl_keys (xs : List (List Char)) (m : List (List Char × Int))
    (seen : List (List Char)) (hnd : (m.map Prod.fst).Nodup)
    (hmem : ∀ n, n ∈ m.map Prod.fst ↔ n ∈ seen) :
    ((xs.foldl names_step m).map Prod.fst).Nodup ∧
      ∀ n, n ∈ (xs.foldl names_step m).map Prod.fst ↔ n ∈ seen ++ xs := by
  induction xs generalizing m seen with
  | nil =>
    simp only [List.foldl_nil, List.append_nil]
    exact ⟨hnd, hmem⟩
  | cons x xs ih =>
    rw [List.foldl_cons]
    have key : ((names_step m x).map Prod.fst).Nodup ∧
        ∀ n, n ∈ (names_step m x).map Prod.fst ↔ n ∈ seen ++ [x] := by
      by_cases hx : x ∈ m.map Prod.fst
      · rw [names_step_old hx]
        refine ⟨hnd, fun n => ?_⟩
        rw [List.mem_append, List.mem_singleton, hmem]
        constructor
        · exact Or.inl
        · rintro (h | h)
          · exact h
          · rw [h]; exact (hmem x).mp hx
      · rw [names_step_new hx]
        constructor
        · rw [List.map_append, List.nodup_append]
          refine ⟨hnd, List.nodup_singleton _, ?_⟩
          intro a ha hb
          simp only [List.map_cons, List.map_nil, List.mem_singleton] at hb
          exact hx (hb ▸ ha)
        · intro n
          simp only [List.map_append, List.map_cons, List.map_nil, List.mem_append,
            List.mem_singleton, hmem]
    have := ih (names_step m x) (seen ++ [x]) key.1 key.2
    simpa using this

theorem foldl_analyze_inst_names (insts : List Instruction)
    (st : List Char × InstructionMetrics) :
    (insts.foldl analyze_inst st).2.metric_names =
      (insts.map (fun inst => _dispatcher inst.type inst [])).foldl names_step
        st.2.metric_names := by
  induction insts generalizing st with
  | nil => rfl
  | cons i is ih =>
    rw [List.foldl_cons, ih, List.map_cons, List.foldl_cons]
    congr 1
    unfold analyze_inst names_step
    simp only [dispatcher_ignores_old i.type i st.1]
    cases map_find st.2.metric_names (_dispatcher i.type i []) <;> rfl

theorem analyze_metric_names (functions : List Function) (metrics : InstructionMetrics) :
    (analyze functions metrics).metric_names =
      (Spec.metric_names_of functions).foldl names_step metrics.metric_names := by
  rw [analyze_eq_foldl, foldl_analyze_inst_names]
  rfl

theorem metric_names_of_append (fs gs : List Function) :
    Spec.metric_names_of (fs ++ gs) = Spec.metric_names_of fs ++ Spec.metric_names_of gs := by
  simp [Spec.metric_names_of, Spec.instructions]

/-- C9: run on an empty aggregate, `analyze` gives ids in first-seen order: a metric name
first met at position `i` of the traversal gets as id the number of distinct names met
before it (0 for the first instruction, k-1 for the k-th distinct name), and an id given
to a name is not changed by the instructions that follow. -/
theorem analyze_ids_first_seen (functions : List Function) :
    (∀ (i : Nat) (hi : i < (Spec.metric_names_of functions).length),
      (Spec.metric_names_of functions)[i] ∉ (Spec.metric_names_of functions).take i →
      map_find (analyze functions ⟨[], []⟩).metric_names (Spec.metric_names_of functions)[i] =
        some ((((Spec.metric_names_of functions).take i).dedup.length : Nat) : Int)) ∧
    (∀ (later : List Function) (name : List Char) (id : Int),
      map_find (analyze functions ⟨[], []⟩).metric_names name = some id →
      map_find (analyze (functions ++ later) ⟨[], []⟩).metric_names name = some id) := by
  constructor
  · intro i hi hnew
    rw [analyze_metric_names]
    generalize Spec.metric_names_of functions = names at hi hnew ⊢
    have hsplit : names = names.take i ++ names[i] :: names.drop (i + 1) := by
      rw [← List.drop_eq_getElem_cons hi, List.take_append_drop]
    generalize names[i] = x at hsplit hnew ⊢
    have hinv := names_step_foldl_keys (names.take i) [] [] List.nodup_nil (by simp)
    simp only [List.nil_append] at hinv
    have hlen : ((names.take i).foldl names_step []).length = (names.take i).dedup.length := by
      rw [← List.card_toFinset, ← List.toFinset.ext hinv.2, List.toFinset_card_of_nodup hinv.1,
        List.length_map]
    have hnot : x ∉ ((names.take i).foldl names_step []).map Prod.fst := by
      rw [hinv.2]; exact hnew
    conv_lhs => rw [hsplit]
    simp only [InstructionMetrics.metric_names]
    rw [List.foldl_append, List.foldl_cons]
    apply names_step_foldl_find
    rw [names_step_new hnot, map_find_append, (map_find_eq_none_iff _ _).mpr hnot, hlen]
    simp [map_find]
  · intro later name id h
    rw [analyze_metric_names] at h ⊢
    rw [metric_names_of_append, List.foldl_append]
    exact names_step_foldl_find _ h

/-- C9 at a concrete program: IADD3, LDG, IADD3, BRA; the third distinct name met (at
position 3) gets id 2, and the first instruction's name gets id 0. -/
theorem analyze_ids_first_seen_witness :
    map_find (analyze
      [⟨[⟨[⟨0, "IADD3".toList, [], [], [], .INS_TYPE_INTEGER⟩,
           ⟨8, "LDG".toList, [], [], [], .INS_TYPE_MEMORY⟩]⟩,
         ⟨[⟨16, "IADD3".toList, [], [], [], .INS_TYPE_INTEGER⟩,
           ⟨24, "BRA".toList, [], [], [], .INS_TYPE_CONTROL⟩]⟩]⟩] ⟨[], []⟩).metric_names
      "CONTROL.BRANCH".toList = some 2 ∧
    map_find (analyze
      [⟨[⟨[⟨0, "IADD3".toList, [], [], [], .INS_TYPE_INTEGER⟩,
           ⟨8, "LDG".toList, [], [], [], .INS_TYPE_MEMORY⟩]⟩,
         ⟨[⟨16, "IADD3".toList, [], [], [], .INS_TYPE_INTEGER⟩,
           ⟨24, "BRA".toList, [], [], [], .INS_TYPE_CONTROL⟩]⟩]⟩] ⟨[], []⟩).metric_names
      "INTEGER.ADD3".toList = some 0 :=
  ⟨(analyze_ids_first_seen _).1 3 (by decide) (by decide),
   (analyze_ids_first_seen _).1 0 (by decide) (by decide)⟩

/-! ## Printing and parsing integers -/

theorem digitChar_spec (d : Nat) (h : d < 10) :
    (Nat.digitChar d).isDigit = true ∧ (Nat.digitChar d).toNat - '0'.toNat = d := by
  interval_cases d <;> decide

theorem decimal_value_append (l : List Char) (c : Char) :
    Spec.decimal_value (l ++ [c]) = 10 * Spec.decimal_value l + (c.toNat - '0'.toNat) := by
  unfold Spec.decimal_value
  rw [List.foldl_append]
  rfl

theorem toDigitsCore_spec (fuel : Nat) :
    ∀ (n : Nat) (ds : List Char), n < fuel →
      ∃ l : List Char, Nat.toDigitsCore 10 fuel n ds = l ++ ds ∧ l ≠ [] ∧
        (∀ c ∈ l, c.isDigit = true) ∧ Spec.decimal_value l = n := by
  induction fuel with
  | zero => intro n ds h; omega
  | succ fuel ih =>
    intro n ds h
    have hd := digitChar_spec (n % 10) (Nat.mod_lt _ (by norm_num))
    unfold Nat.toDigitsCore
    by_cases h0 : n / 10 = 0
    · simp only [h0, if_true]
      refine ⟨[Nat.digitChar (n % 10)], rfl, by simp, ?_, ?_⟩
      · intro c hc
        rw [List.mem_singleton] at hc
        rw [hc]; exact hd.1
      · have : Spec.decimal_value [Nat.digitChar (n % 10)] =
            10 * 0 + ((Nat.digitChar (n % 10)).toNat - '0'.toNat) := rfl
        rw [this, hd.2]
        omega
    · simp only [h0, if_false]
      have hlt : n / 10 < fuel := by omega
      obtain ⟨l, hl, _, hdig, hval⟩ := ih (n / 10) (Nat.digitChar (n % 10) :: ds) hlt
      refine ⟨l ++ [Nat.digitChar (n % 10)], ?_, by simp, ?_, ?_⟩
      · rw [hl]; simp
      · intro c hc
        rw [List.mem_append, List.mem_singleton] at hc
        rcases hc with hc | hc
        · exact hdig c hc
        · rw [hc]; exact hd.1
      · rw [decimal_value_append, hval, hd.2]
        omega

/-- The decimal digits printed for a natural number: a non-empty run of digits whose
value is the number. -/
theorem toDigits_spec (n : Nat) :
    Nat.toDigits 10 n ≠ [] ∧ (∀ c ∈ Nat.toDigits 10 n, c.isDigit = true) ∧
      Spec.decimal_value (Nat.toDigits 10 n) = n := by
  obtain ⟨l, hl, hne, hdig, hval⟩ := toDigitsCore_spec (n + 1) n [] (Nat.lt_succ_self n)
  have : Nat.toDigits 10 n = l := by
    unfold Nat.toDigits
    rw [hl, List.append_nil]
  rw [this]
  exact ⟨hne, hdig, hval⟩

/-- The characters of a printed `int` are digits, after an optional minus sign. -/
theorem int_to_chars_mem (n : Int) (c : Char) (h : c ∈ int_to_chars n) :
    c = '-' ∨ c.isDigit = true := by
  unfold int_to_chars at h
  split_ifs at h
  · rw [List.mem_cons] at h
    rcases h with h | h
    · exact Or.inl h
    · exact Or.inr ((toDigits_spec _).2.1 c h)
  · exact Or.inr ((toDigits_spec _).2.1 c h)

theorem int_to_chars_not_mem (n : Int) (c : Char) (h1 : c ≠ '-') (h2 : c.isDigit = false) :
    c ∉ int_to_chars n := by
  intro h
  rcases int_to_chars_mem n c h with h | h
  · exact h1 h
  · rw [h2] at h; cases h

theorem int_to_chars_ne_nil (n : Int) : int_to_chars n ≠ [] := by
  unfold int_to_chars
  split_ifs
  · simp
  · exact (toDigits_spec _).1

theorem takeWhile_all_append (p : Char → Bool) (l tail : List Char)
    (hl : ∀ c ∈ l, p c = true) (ht : ∀ c, tail.head? = some c → p c = false) :
    (l ++ tail).takeWhile p = l := by
  induction l with
  | nil =>
    cases tail with
    | nil => rfl
    | cons c cs =>
      have := ht c rfl
      simp [List.takeWhile_cons, this]
  | cons a l ih =>
    have ha := hl a (List.mem_cons_self a l)
    rw [List.cons_append, List.takeWhile_cons, ha]
    simp only [if_true]
    rw [ih (fun c hc => hl c (List.mem_cons_of_mem a hc))]

theorem isDigit_not_special (c : Char) (h : c.isDigit = true) :
    isspace c = false ∧ c ≠ '-' ∧ c ≠ '+' := by
  have hc := isDigit_toNat c h
  refine ⟨?_, ?_, ?_⟩
  · unfold isspace
    simp only [Bool.decide_or, Bool.or_eq_false_iff, decide_eq_false_iff_not]
    refine ⟨?_, ?_, ?_, ?_, ?_, ?_⟩ <;>
    · intro e
      rw [e] at hc
      revert hc
      decide
  · intro e; rw [e] at hc; revert hc; decide
  · intro e; rw [e] at hc; revert hc; decide

/-- Parsing a printed `int`, possibly followed by text that starts with no digit, gives
the number back. -/
theorem stoi_int_to_chars (n : Int) (hlo : -2147483648 ≤ n) (hhi : n ≤ 2147483647)
    (tail : List Char) (ht : ∀ c, tail.head? = some c → c.isDigit = false) :
    stoi (int_to_chars n ++ tail) = .ok n := by
  obtain ⟨hne, hdig, hval⟩ := toDigits_spec n.natAbs
  obtain ⟨d, ds, hds⟩ := List.exists_cons_of_ne_nil hne
  have hd : d.isDigit = true := hdig d (by rw [hds]; exact List.mem_cons_self d ds)
  obtain ⟨hsp, hminus, hplus⟩ := isDigit_not_special d hd
  have hrun : (Nat.toDigits 10 n.natAbs ++ tail).takeWhile Char.isDigit =
      Nat.toDigits 10 n.natAbs := takeWhile_all_append _ _ _ hdig ht
  unfold stoi int_to_chars
  by_cases hn : n < 0
  · have hsp2 : isspace '-' = false := by decide
    simp only [hn, if_true, List.cons_append, List.dropWhile_cons, hsp2, Bool.false_eq_true,
      if_false, hrun, hne, hval]
    have habs : -((n.natAbs : Nat) : Int) = n := by omega
    rw [habs]
    simp only [hlo, hhi, not_lt.mpr hlo, not_lt.mpr hhi, or_self, if_false]
  · simp only [hn, if_false]
    have hdrop : (Nat.toDigits 10 n.natAbs ++ tail).dropWhile isspace =
        d :: (ds ++ tail) := by
      rw [hds, List.cons_append, List.dropWhile_cons, hsp]
      simp
    rw [hdrop]
    have hmatch : (match d :: (ds ++ tail) with
        | '-' :: r => (true, r)
        | '+' :: r => (false, r)
        | _ => (false, d :: (ds ++ tail))) = (false, d :: (ds ++ tail)) := by
      split
      · rename_i h; exact absurd (List.cons.inj h).1 hminus
      · rename_i h; exact absurd (List.cons.inj h).1 hplus
      · rfl
    rw [hmatch]
    have hrun2 : (d :: (ds ++ tail)).takeWhile Char.isDigit = Nat.toDigits 10 n.natAbs := by
      rw [← List.cons_append, ← hds]; exact hrun
    simp only [hrun2, hne, if_false, hval, Bool.false_eq_true]
    have habs : ((n.natAbs : Nat) : Int) = n := by omega
    rw [habs]
    simp only [not_lt.mpr hlo, not_lt.mpr hhi, or_self, if_false]

/-! ## Splitting text at a delimiter -/

theorem takeWhile_ne_append (m : Char) (a b : List Char) (h : m ∉ a) :
    (a ++ m :: b).takeWhile (fun c => c != m) = a := by
  induction a with
  | nil => simp [List.takeWhile_cons]
  | cons x a ih =>
    have hx : (x != m) = true := by
      have : x ≠ m := fun e => h (e ▸ List.mem_cons_self x a)
      simpa using this
    rw [List.cons_append, List.takeWhile_cons, hx]
    simp only [if_true]
    rw [ih (fun hm => h (List.mem_cons_of_mem x hm))]

theorem dropWhile_ne_append (m : Char) (a b : List Char) (h : m ∉ a) :
    (a ++ m :: b).dropWhile (fun c => c != m) = m :: b := by
  induction a with
  | nil => simp [List.dropWhile_cons]
  | cons x a ih =>
    have hx : (x != m) = true := by
      have : x ≠ m := fun e => h (e ▸ List.mem_cons_self x a)
      simpa using this
    rw [List.cons_append, List.dropWhile_cons, hx]
    simp only [if_true]
    exact ih (fun hm => h (List.mem_cons_of_mem x hm))

theorem takeWhile_ne_self (m : Char) (a : List Char) (h : m ∉ a) :
    a.takeWhile (fun c => c != m) = a := by
  induction a with
  | nil => rfl
  | cons x a ih =>
    have hx : (x != m) = true := by
      have : x ≠ m := fun e => h (e ▸ List.mem_cons_self x a)
      simpa using this
    rw [List.takeWhile_cons, hx]
    simp only [if_true]
    rw [ih (fun hm => h (List.mem_cons_of_mem x hm))]

theorem dropWhile_ne_self (m : Char) (a : List Char) (h : m ∉ a) :
    a.dropWhile (fun c => c != m) = [] := by
  induction a with
  | nil => rfl
  | cons x a ih =>
    have hx : (x != m) = true := by
      have : x ≠ m := fun e => h (e ▸ List.mem_cons_self x a)
      simpa using this
    rw [List.dropWhile_cons, hx]
    simp only [if_true]
    exact ih (fun hm => h (List.mem_cons_of_mem x hm))

/-- Position of a one-character needle that first occurs right after `a`. -/
theorem find_singleton_append (m : Char) (a b : List Char) (h : m ∉ a) :
    find (a ++ m :: b) [m] = some a.length := by
  unfold find
  rw [findFrom_singleton, if_pos (by simp), takeWhile_ne_append m a b h, zero_add]

theorem find_singleton_none (m : Char) (a : List Char) (h : m ∉ a) : find a [m] = none := by
  unfold find
  rw [findFrom_singleton, if_neg h]

theorem getline_of_ne_nil (m : Char) (s : List Char) (hs : s ≠ []) :
    getline s m =
      some (s.takeWhile (fun c => c != m), (s.dropWhile (fun c => c != m)).tail) := by
  cases s with
  | nil => exact absurd rfl hs
  | cons x xs => rfl

/-- A line that ends at a delimiter. -/
theorem getline_append (m : Char) (a b : List Char) (h : m ∉ a) :
    getline (a ++ m :: b) m = some (a, b) := by
  rw [getline_of_ne_nil m _ (by simp), takeWhile_ne_append m a b h,
    dropWhile_ne_append m a b h]
  rfl

/-- The last line of a stream, without delimiter. -/
theorem getline_last (m : Char) (a : List Char) (hne : a ≠ []) (h : m ∉ a) :
    getline a m = some (a, []) := by
  rw [getline_of_ne_nil m a hne, takeWhile_ne_self m _ h, dropWhile_ne_self m _ h]
  rfl

theorem getlines_cons (delim c : Char) (cs : List Char) :
    getlines delim (c :: cs) =
      if c = delim then [] :: getlines delim cs
      else
        match getlines delim cs with
        | [] => [[c]]
        | line :: lines => (c :: line) :: lines := by
  rw [getlines]

/-- The pieces of `getlines` are those of repeated `getline`. -/
theorem getlines_unfold (delim : Char) (rest : List Char) :
    getlines delim rest =
      match getline rest delim with
      | none => []
      | some (line, rest1) => line :: getlines delim rest1 := by
  induction rest with
  | nil => rfl
  | cons c cs ih =>
    rw [getlines_cons, getline_of_ne_nil delim (c :: cs) (List.cons_ne_nil c cs)]
    by_cases hc : c = delim
    · subst hc
      simp [List.takeWhile_cons, List.dropWhile_cons]
    · have hc2 : (c != delim) = true := by simpa using hc
      simp only [hc, if_false, List.takeWhile_cons, List.dropWhile_cons, hc2, if_true]
      cases cs with
      | nil => rfl
      | cons d ds =>
        rw [ih, getline_of_ne_nil delim (d :: ds) (List.cons_ne_nil d ds)]

theorem getlines_append (delim : Char) (a rest : List Char) (h : delim ∉ a) :
    getlines delim (a ++ delim :: rest) = a :: getlines delim rest := by
  rw [getlines_unfold, getline_append delim a rest h]

theorem getlines_last (delim : Char) (a : List Char) (hne : a ≠ []) (h : delim ∉ a) :
    getlines delim a = [a] := by
  rw [getlines_unfold, getline_last delim a hne h]
  rfl

/-- Splitting a sequence of pieces, each followed by the delimiter, gives the pieces. -/
theorem getlines_concat_map {α : Type} (delim : Char) (f : α → List Char) (l : List α)
    (tail : List Char) (h : ∀ x ∈ l, delim ∉ f x) :
    getlines delim (concat_map (fun x => f x ++ [delim]) l ++ tail) =
      l.map f ++ getlines delim tail := by
  induction l with
  | nil => rfl
  | cons x l ih =>
    have e : concat_map (fun x => f x ++ [delim]) (x :: l) ++ tail =
        f x ++ delim :: (concat_map (fun x => f x ++ [delim]) l ++ tail) := by
      simp [concat_map]
    rw [e, getlines_append delim _ _ (h x (List.mem_cons_self x l)),
      ih (fun y hy => h y (List.mem_cons_of_mem x hy))]
    rfl

/-! ## Reading back one record -/

theorem map_assign_foldl {κ ν : Type} [DecidableEq κ] (l acc : List (κ × ν))
    (h : ((acc ++ l).map Prod.fst).Nodup) :
    l.foldl (fun m e => map_assign m e.1 e.2) acc = acc ++ l := by
  induction l generalizing acc with
  | nil => simp
  | cons e l ih =>
    have hnew : map_find acc e.1 = none := by
      rw [map_find_eq_none_iff]
      intro hmem
      rw [List.map_append, List.nodup_append] at h
      exact h.2.2 hmem (by simp)
    rw [List.foldl_cons, map_assign_new acc e.1 e.2 hnew, ih (acc ++ [(e.1, e.2)])]
    · simp
    · simp only [List.append_assoc, List.singleton_append]; exact h

theorem take_length_append (a b : List Char) : (a ++ b).take a.length = a := by
  induction a with
  | nil => simp
  | cons x a ih => simp [ih]

theorem drop_length_succ_append (a b : List Char) (m : Char) :
    (a ++ m :: b).drop (a.length + 1) = b := by
  induction a with
  | nil => simp
  | cons x a ih => simp

theorem size_sub_sub (a b : Nat) : size_sub (size_sub (a + 1 + b) a) 1 = b := by
  have h1 : size_sub (a + 1 + b) a = 1 + b := by
    unfold size_sub
    rw [if_pos (by omega)]
    omega
  rw [h1]
  unfold size_sub
  rw [if_pos (by omega)]
  omega

theorem stoi_int_to_chars_exact (n : Int) (h : Spec.is_int n) :
    stoi (int_to_chars n) = .ok n := by
  have := stoi_int_to_chars n h.1 h.2 [] (by simp)
  simpa using this

theorem colon_not_mem_int (n : Int) : ':' ∉ int_to_chars n :=
  int_to_chars_not_mem n ':' (by decide) (by decide)

theorem comma_not_mem_int (n : Int) : ',' ∉ int_to_chars n :=
  int_to_chars_not_mem n ',' (by decide) (by decide)

theorem hash_not_mem_int (n : Int) : '#' ∉ int_to_chars n :=
  int_to_chars_not_mem n '#' (by decide) (by decide)

theorem newline_not_mem_int (n : Int) : '\n' ∉ int_to_chars n :=
  int_to_chars_not_mem n '\n' (by decide) (by decide)

theorem paren_not_mem_int (n : Int) : ')' ∉ int_to_chars n :=
  int_to_chars_not_mem n ')' (by decide) (by decide)

/-- A field without colon that is not the closing parenthesis is passed over. -/
theorem read_fields_skip (st : InstructionStat) (t : List Char) (rest : List (List Char))
    (h1 : t ≠ ")".toList) (h2 : ':' ∉ t) :
    read_fields_loop false st (t :: rest) = read_fields_loop false st rest := by
  rw [read_fields_loop]
  have h3 : find t ":".toList = none := find_singleton_none ':' t h2
  simp only [h1, if_false, Bool.false_eq_true, h3]

/-- One `metric_id:count` field is entered into `stat`. -/
theorem read_fields_pair (st : InstructionStat) (it : Int × Int) (rest : List (List Char))
    (h : Spec.is_int it.1 ∧ Spec.is_int it.2) :
    read_fields_loop false st (stat_text it :: rest) =
      read_fields_loop false { st with stat := map_assign st.stat it.1 it.2 } rest := by
  rw [read_fields_loop]
  have hne : stat_text it ≠ ")".toList := by
    intro e
    have : ':' ∈ stat_text it := by simp [stat_text]
    rw [e] at this
    revert this
    decide
  have htext : stat_text it = int_to_chars it.1 ++ ':' :: int_to_chars it.2 := by
    simp [stat_text]
  have hfind : find (stat_text it) ":".toList = some (int_to_chars it.1).length := by
    rw [htext]
    exact find_singleton_append ':' _ _ (colon_not_mem_int it.1)
  have hlen : (stat_text it).length = (int_to_chars it.1).length + 1 +
      (int_to_chars it.2).length := by
    rw [htext]; simp; omega
  have hsz : size_sub (size_sub (stat_text it).length (int_to_chars it.1).length) 1 =
      (int_to_chars it.2).length := by
    rw [hlen]
    exact size_sub_sub _ _
  have hid : substr (stat_text it) 0 (int_to_chars it.1).length = int_to_chars it.1 := by
    unfold substr
    rw [htext, List.drop_zero, take_length_append]
  have hcount : substr (stat_text it) ((int_to_chars it.1).length + 1)
      (int_to_chars it.2).length = int_to_chars it.2 := by
    unfold substr
    rw [htext, drop_length_succ_append, List.take_length]
  simp only [hne, if_false, Bool.false_eq_true, hfind, hsz, hid, hcount,
    stoi_int_to_chars_exact it.1 h.1, stoi_int_to_chars_exact it.2 h.2]

theorem read_fields_pairs (stat : List (Int × Int)) (st : InstructionStat)
    (h : ∀ it ∈ stat, Spec.is_int it.1 ∧ Spec.is_int it.2) :
    read_fields_loop false st (stat.map stat_text ++ [")".toList]) =
      .ok { st with stat := stat.foldl (fun m e => map_assign m e.1 e.2) st.stat } := by
  induction stat generalizing st with
  | nil =>
    rw [List.map_nil, List.nil_append, read_fields_loop]
    simp
  | cons it stat ih =>
    rw [List.map_cons, List.cons_append, read_fields_pair st it _ (h it (List.mem_cons_self _ _)),
      ih _ (fun x hx => h x (List.mem_cons_of_mem _ hx))]
    rfl

theorem read_fields_first (st : InstructionStat) (pc : Int) (rest : List (List Char))
    (h : Spec.is_int pc) :
    read_fields_loop true st (("(".toList ++ int_to_chars pc) :: rest) =
      read_fields_loop false { st with pc := pc } rest := by
  rw [read_fields_loop]
  have hne : "(".toList ++ int_to_chars pc ≠ ")".toList := by
    intro e
    have : ('(' : Char) = ')' := (List.cons.inj e).1
    revert this
    decide
  have hlen : ¬ ("(".toList ++ int_to_chars pc).length < 1 := by simp
  have hdrop : ("(".toList ++ int_to_chars pc).drop 1 = int_to_chars pc := rfl
  simp only [hne, if_false, if_true, hlen, hdrop, stoi_int_to_chars_exact pc h]

theorem optional_int_skippable (c : Prop) [Decidable c] (n : Int) :
    (if c then int_to_chars n else []) ≠ ")".toList ∧
      ':' ∉ (if c then int_to_chars n else []) ∧ ',' ∉ (if c then int_to_chars n else []) := by
  split_ifs
  · refine ⟨?_, colon_not_mem_int n, comma_not_mem_int n⟩
    intro e
    have : ')' ∈ int_to_chars n := by rw [e]; decide
    exact paren_not_mem_int n this
  · refine ⟨by decide, by simp, by simp⟩

theorem concat_map_src_nil (srcs : List Int) (h : ∀ src ∈ srcs, src = -1) :
    concat_map src_text srcs = [] := by
  induction srcs with
  | nil => rfl
  | cons x xs ih =>
    have hx : x = -1 := h x (List.mem_cons_self _ _)
    have : concat_map src_text (x :: xs) = src_text x ++ concat_map src_text xs := by
      simp [concat_map]
    rw [this, ih (fun y hy => h y (List.mem_cons_of_mem _ hy)), hx]
    rfl

/-- The fields of a dumped record without source registers. -/
theorem getlines_inst_stat_text (s : InstructionStat) (hs : ∀ src ∈ s.srcs, src = -1) :
    getlines ',' (inst_stat_text s) =
      ("(".toList ++ int_to_chars s.pc) ::
        (if s.predicate ≠ -1 then int_to_chars s.predicate else []) ::
        (if s.dst ≠ -1 then int_to_chars s.dst else []) :: [] ::
        (s.stat.map stat_text ++ [")".toList]) := by
  unfold inst_stat_text
  rw [concat_map_src_nil s.srcs hs]
  rw [getlines_append ',' _ _ (by
      intro hmem
      rw [List.mem_append] at hmem
      rcases hmem with h | h
      · revert h; decide
      · exact comma_not_mem_int _ h),
    getlines_append ',' _ _ (optional_int_skippable _ _).2.2,
    getlines_append ',' _ _ (optional_int_skippable _ _).2.2,
    getlines_append ',' [] _ (by simp),
    getlines_concat_map ',' stat_text s.stat _ (by
      intro it _ hmem
      unfold stat_text at hmem
      simp only [List.mem_append] at hmem
      rcases hmem with (h | h) | h
      · exact comma_not_mem_int _ h
      · revert h; decide
      · exact comma_not_mem_int _ h)]
  rfl

/-- Reading the fields of a dumped record without source registers gives its pc and its
stat mapping; predicate, dst and srcs stay those of the fresh record. -/
theorem read_fields_inst_stat_text (fresh s : InstructionStat) (hs : Spec.plain_stat s)
    (hfresh : fresh.stat = []) :
    read_fields_loop true fresh (getlines ',' (inst_stat_text s)) =
      .ok { fresh with pc := s.pc, stat := s.stat } := by
  obtain ⟨hpc, hsrcs, hstat, hnd⟩ := hs
  rw [getlines_inst_stat_text s hsrcs, read_fields_first fresh s.pc _ hpc,
    read_fields_skip _ _ _ (optional_int_skippable _ _).1 (optional_int_skippable _ _).2.1,
    read_fields_skip _ _ _ (optional_int_skippable _ _).1 (optional_int_skippable _ _).2.1,
    read_fields_skip _ [] _ (by decide) (by simp),
    read_fields_pairs s.stat _ hstat]
  simp only [hfresh]
  rw [map_assign_foldl s.stat [] (by simpa using hnd)]
  rfl

/-! ## Reading back the metric names -/

theorem metric_name_text_eq (e : List Char × Int) :
    metric_name_text e = ('(' :: e.1) ++ ',' :: (int_to_chars e.2 ++ [')']) := by
  simp [metric_name_text]

/-- One entry of the metric-name line is entered under its name with the "MIX:" tag. -/
theorem read_names_entry (acc : List (List Char × Int)) (e : List Char × Int)
    (rest : List (List Char)) (hname : ',' ∉ e.1) (hid : Spec.is_int e.2) :
    read_names_loop acc (metric_name_text e :: rest) =
      read_names_loop (map_assign acc ("MIX:".toList ++ e.1) e.2) rest := by
  rw [read_names_loop]
  have hnot : ',' ∉ '(' :: e.1 := by
    intro h
    rw [List.mem_cons] at h
    rcases h with h | h
    · revert h; decide
    · exact hname h
  have hfind : find (metric_name_text e) ",".toList = some (e.1.length + 1) := by
    rw [metric_name_text_eq]
    exact find_singleton_append ',' _ _ hnot
  have hlen : (metric_name_text e).length = (e.1.length + 1) + 1 +
      ((int_to_chars e.2).length + 1) := by
    rw [metric_name_text_eq]; simp; omega
  have hs1 : size_sub (e.1.length + 1) 1 = e.1.length := by
    unfold size_sub
    rw [if_pos (by omega)]
    omega
  have hs2 : size_sub (size_sub (metric_name_text e).length (e.1.length + 1)) 2 =
      (int_to_chars e.2).length := by
    rw [hlen]
    have h1 : size_sub (e.1.length + 1 + 1 + ((int_to_chars e.2).length + 1))
        (e.1.length + 1) = (int_to_chars e.2).length + 2 := by
      unfold size_sub
      rw [if_pos (by omega)]
      omega
    rw [h1]
    unfold size_sub
    rw [if_pos (by omega)]
    omega
  have hname2 : substr (metric_name_text e) 1 e.1.length = e.1 := by
    unfold substr
    rw [metric_name_text_eq]
    simp only [List.cons_append, List.drop_succ_cons, List.drop_zero]
    exact take_length_append _ _
  have hid2 : substr (metric_name_text e) (e.1.length + 1 + 1) (int_to_chars e.2).length =
      int_to_chars e.2 := by
    unfold substr
    rw [metric_name_text_eq]
    have := drop_length_succ_append ('(' :: e.1) (int_to_chars e.2 ++ [')']) ','
    rw [List.length_cons] at this
    rw [this, take_length_append]
  simp only [hfind, hs1, hs2, hname2, hid2, stoi_int_to_chars_exact e.2 hid]

theorem read_names_entries (l : List (List Char × Int)) (acc : List (List Char × Int))
    (h : ∀ e ∈ l, ',' ∉ e.1 ∧ Spec.is_int e.2) :
    read_names_loop acc (l.map metric_name_text) =
      (none, l.foldl (fun m e => map_assign m ("MIX:".toList ++ e.1) e.2) acc) := by
  induction l generalizing acc with
  | nil => rfl
  | cons e l ih =>
    have he := h e (List.mem_cons_self _ _)
    rw [List.map_cons, read_names_entry acc e _ he.1 he.2,
      ih _ (fun x hx => h x (List.mem_cons_of_mem _ hx))]
    rfl

/-- Read from a fresh aggregate, the metric-name line of `dump` gives every entry back
under its tagged name, with its id. -/
theorem read_names_fresh (l : List (List Char × Int))
    (h : ∀ e ∈ l, ',' ∉ e.1 ∧ Spec.is_int e.2) (hnd : (l.map Prod.fst).Nodup) :
    read_names_loop [] (l.map metric_name_text) =
      (none, l.map (fun e => ("MIX:".toList ++ e.1, e.2))) := by
  rw [read_names_entries l [] h]
  have hfold : l.foldl (fun m e => map_assign m ("MIX:".toList ++ e.1) e.2) [] =
      (l.map (fun e => ("MIX:".toList ++ e.1, e.2))).foldl
        (fun m e => map_assign m e.1 e.2) [] := by
    rw [List.foldl_map]
  rw [hfold, map_assign_foldl _ [] ?_, List.nil_append]
  rw [List.nil_append, List.map_map]
  have hcomp : (Prod.fst ∘ fun e : List Char × Int => ("MIX:".toList ++ e.1, e.2)) =
      (fun n => "MIX:".toList ++ n) ∘ Prod.fst := rfl
  rw [hcomp, ← List.map_map]
  exact List.Nodup.map (List.append_right_injective _) hnd

/-! ## Reading back the records -/

theorem read_stats_records (fresh : InstructionStat) (hfresh : fresh.stat = [])
    (l : List InstructionStat) (acc : List InstructionStat)
    (h : ∀ s ∈ l, Spec.plain_stat s) :
    read_stats_loop fresh acc (l.map inst_stat_text) =
      (none, acc ++ l.map (fun s => { fresh with pc := s.pc, stat := s.stat })) := by
  induction l generalizing acc with
  | nil => simp [read_stats_loop]
  | cons s l ih =>
    rw [List.map_cons, read_stats_loop,
      read_fields_inst_stat_text fresh s (h s (List.mem_cons_self _ _)) hfresh]
    simp only
    rw [ih _ (fun x hx => h x (List.mem_cons_of_mem _ hx))]
    simp

theorem mem_concat_map {α : Type} (f : α → List Char) (l : List α) (c : Char) :
    c ∈ concat_map f l ↔ ∃ x ∈ l, c ∈ f x := by
  simp [concat_map, List.mem_flatten]

/-- The characters of a dumped record. -/
theorem inst_stat_text_mem (s : InstructionStat) (c : Char) (h : c ∈ inst_stat_text s) :
    c = '(' ∨ c = ',' ∨ c = ')' ∨ c = ':' ∨ c = '-' ∨ c.isDigit = true := by
  have hint : ∀ n : Int, c ∈ int_to_chars n →
      c = '(' ∨ c = ',' ∨ c = ')' ∨ c = ':' ∨ c = '-' ∨ c.isDigit = true := by
    intro n hn
    rcases int_to_chars_mem n c hn with h | h
    · exact Or.inr (Or.inr (Or.inr (Or.inr (Or.inl h))))
    · exact Or.inr (Or.inr (Or.inr (Or.inr (Or.inr h))))
  have hsrc : ∀ x : Int, c ∈ src_text x →
      c = '(' ∨ c = ',' ∨ c = ')' ∨ c = ':' ∨ c = '-' ∨ c.isDigit = true := by
    intro x hx
    unfold src_text at hx
    split_ifs at hx
    · rw [List.mem_append] at hx
      rcases hx with hx | hx
      · exact hint _ hx
      · simp only [String.toList, List.mem_singleton] at hx
        exact Or.inr (Or.inr (Or.inr (Or.inl hx)))
    · cases hx
  have hstat : ∀ x : Int × Int, c ∈ stat_text x →
      c = '(' ∨ c = ',' ∨ c = ')' ∨ c = ':' ∨ c = '-' ∨ c.isDigit = true := by
    intro x hx
    unfold stat_text at hx
    simp only [List.mem_append, String.toList, List.mem_singleton] at hx
    rcases hx with (hx | hx) | hx
    · exact hint _ hx
    · exact Or.inr (Or.inr (Or.inr (Or.inl hx)))
    · exact hint _ hx
  unfold inst_stat_text at h
  simp only [List.mem_append, List.mem_cons, mem_concat_map, String.toList,
    List.not_mem_nil, or_false] at h
  rcases h with (h | h) | h | h | h | h | h | h | h | h | h
  · exact Or.inl h
  · exact hint _ h
  · exact Or.inr (Or.inl h)
  · split_ifs at h
    · exact hint _ h
    · cases h
  · exact Or.inr (Or.inl h)
  · split_ifs at h
    · exact hint _ h
    · cases h
  · exact Or.inr (Or.inl h)
  · obtain ⟨x, _, hx⟩ := h
    exact hsrc x hx
  · exact Or.inr (Or.inl h)
  · obtain ⟨x, _, hx⟩ := h
    rcases hx with hx | hx
    · exact hstat x hx
    · exact Or.inr (Or.inl hx)
  · exact Or.inr (Or.inr (Or.inl h))

theorem inst_stat_text_not_mem (s : InstructionStat) (c : Char)
    (hc : c ≠ '(' ∧ c ≠ ',' ∧ c ≠ ')' ∧ c ≠ ':' ∧ c ≠ '-' ∧ c.isDigit = false) :
    c ∉ inst_stat_text s := by
  intro h
  rcases inst_stat_text_mem s c h with h | h | h | h | h | h
  · exact hc.1 h
  · exact hc.2.1 h
  · exact hc.2.2.1 h
  · exact hc.2.2.2.1 h
  · exact hc.2.2.2.2.1 h
  · rw [hc.2.2.2.2.2] at h; cases h

theorem metric_name_text_not_mem (e : List Char × Int) (c : Char) (hn : c ∉ e.1)
    (hc : c ≠ '(' ∧ c ≠ ',' ∧ c ≠ ')' ∧ c ≠ '-' ∧ c.isDigit = false) :
    c ∉ metric_name_text e := by
  intro h
  unfold metric_name_text at h
  simp only [List.mem_append, String.toList, List.mem_singleton] at h
  rcases h with (((h | h) | h) | h) | h
  · exact hc.1 h
  · exact hn h
  · exact hc.2.1 h
  · exact int_to_chars_not_mem e.2 c hc.2.2.2.1 hc.2.2.2.2 h
  · exact hc.2.2.1 h

/-! ## Round trip -/

theorem dump_content (m : InstructionMetrics) (hne : m.metric_names ≠ []) (sparse : Bool) :
    dump true m sparse =
      (true, some ("<metric names>".toList ++ '\n' ::
        (concat_map (fun e => metric_name_text e ++ [if sparse then '\n' else '#'])
            m.metric_names ++ '\n' ::
          ("<inst stats>".toList ++ '\n' ::
            concat_map (fun s => inst_stat_text s ++ [if sparse then '\n' else '#'])
              m.inst_stats)))) := by
  unfold dump
  have hlen : ¬ m.metric_names.length = 0 := by
    intro h; exact hne (List.length_eq_zero.mp h)
  simp [hlen]

theorem not_mem_concat_map_sep {α : Type} (f : α → List Char) (l : List α) (c sep : Char)
    (hsep : c ≠ sep) (h : ∀ x ∈ l, c ∉ f x) :
    c ∉ concat_map (fun x => f x ++ [sep]) l := by
  rw [mem_concat_map]
  rintro ⟨x, hx, hc⟩
  rw [List.mem_append, List.mem_singleton] at hc
  rcases hc with hc | hc
  · exact h x hx hc
  · exact hsep hc

theorem concat_map_sep_ne_nil {α : Type} (f : α → List Char) (l : List α) (sep : Char)
    (h : l ≠ []) : concat_map (fun x => f x ++ [sep]) l ≠ [] := by
  cases l with
  | nil => exact absurd rfl h
  | cons x xs => simp [concat_map]

/-- With '#' as separator, reading into a fresh aggregate the file that `dump` wrote for
an aggregate with plain names and records without source registers gives back the tagged
names with their ids and, for every record, its pc and stat mapping. -/
theorem read_dump_plain (pc0 p0 d0 : Int) (m : InstructionMetrics)
    (hne : m.metric_names ≠ [])
    (hnames : ∀ e ∈ m.metric_names, Spec.plain_name e.1 ∧ Spec.is_int e.2)
    (hkeys : (m.metric_names.map Prod.fst).Nodup)
    (hstats : ∀ s ∈ m.inst_stats, Spec.plain_stat s) :
    read (InstructionStat.fresh pc0 p0 d0) (dump true m false).2 ⟨[], []⟩ false =
      (.returned true,
        ⟨m.metric_names.map (fun e => ("MIX:".toList ++ e.1, e.2)),
          m.inst_stats.map (fun s => ⟨s.pc, p0, d0, [], s.stat⟩)⟩) := by
  rw [dump_content m hne false]
  have hnl : '\n' ∉ concat_map (fun e => metric_name_text e ++ ['#']) m.metric_names :=
    not_mem_concat_map_sep _ _ _ _ (by decide) (fun e he =>
      metric_name_text_not_mem e '\n' (hnames e he).1.2.2
        ⟨by decide, by decide, by decide, by decide, by decide⟩)
  have hnames_split : getlines '#'
      (concat_map (fun e => metric_name_text e ++ ['#']) m.metric_names) =
      m.metric_names.map metric_name_text := by
    have := getlines_concat_map '#' metric_name_text m.metric_names [] (fun e he =>
      metric_name_text_not_mem e '#' (hnames e he).1.2.1
        ⟨by decide, by decide, by decide, by decide, by decide⟩)
    simpa [getlines] using this
  have hnames_read := read_names_fresh m.metric_names
    (fun e he => ⟨(hnames e he).1.1, (hnames e he).2⟩) hkeys
  have hstats_split : getlines '#'
      (concat_map (fun s => inst_stat_text s ++ ['#']) m.inst_stats) =
      m.inst_stats.map inst_stat_text := by
    have := getlines_concat_map '#' inst_stat_text m.inst_stats [] (fun s _ =>
      inst_stat_text_not_mem s '#'
        ⟨by decide, by decide, by decide, by decide, by decide, by decide⟩)
    simpa [getlines] using this
  have hstats_read := read_stats_records (InstructionStat.fresh pc0 p0 d0) rfl m.inst_stats []
    hstats
  have h1 : ∀ rest, getline ("<metric names>".toList ++ '\n' :: rest) '\n' =
      some ("<metric names>".toList, rest) := fun rest =>
    getline_append '\n' _ rest (by decide)
  have h2 : ∀ rest, getline ("<inst stats>".toList ++ '\n' :: rest) '\n' =
      some ("<inst stats>".toList, rest) := fun rest =>
    getline_append '\n' _ rest (by decide)
  unfold read
  simp only [h1, getline_append '\n' _ _ hnl, h2, ne_eq, not_true_eq_false, if_false,
    Bool.false_eq_true, hnames_split, hnames_read]
  by_cases hempty : m.inst_stats = []
  · rw [hempty]
    simp [concat_map, getline]
  · have hne2 := concat_map_sep_ne_nil inst_stat_text m.inst_stats '#' hempty
    have hnl2 : '\n' ∉ concat_map (fun s => inst_stat_text s ++ ['#']) m.inst_stats :=
      not_mem_concat_map_sep _ _ _ _ (by decide) (fun s _ =>
        inst_stat_text_not_mem s '\n'
          ⟨by decide, by decide, by decide, by decide, by decide, by decide⟩)
    simp only [getline_last '\n' _ hne2 hnl2, hstats_split, hstats_read, List.nil_append]
    rfl

theorem map_find_of_mem {κ ν : Type} [DecidableEq κ] (l : List (κ × ν)) (k : κ) (v : ν)
    (hnd : (l.map Prod.fst).Nodup) (h : (k, v) ∈ l) : map_find l k = some v := by
  induction l with
  | nil => cases h
  | cons e l ih =>
    obtain ⟨k1, v1⟩ := e
    rw [List.map_cons, List.nodup_cons] at hnd
    rw [List.mem_cons] at h
    unfold map_find
    rcases h with h | h
    · cases h
      simp
    · have hk : k1 ≠ k := by
        intro e
        have hmem : (k, v).1 ∈ l.map Prod.fst := List.mem_map_of_mem Prod.fst h
        exact hnd.1 (e ▸ hmem)
      simp only [hk, if_false]
      exact ih hnd.2 h

/-- C10 as stated fails. For the aggregate that `analyze` builds for `IADD3 R1, R2, R3`:
with the sparse flag set `dump` succeeds and `read` of its file returns failure; with the flag clear `read`
succeeds, but the record it yields has no source registers (the original has 2 and 3), its
stat maps 2 to 3, a pair the original does not have, and its predicate and dst are those
of the fresh record (7 and 7 here, against none and 1). A metric name with a comma makes
`read` end in an exception, one with a newline makes it return failure, and one with '#'
is not stored under its tagged name. -/
theorem round_trip_counterexample :
    analyze [⟨[⟨[⟨0, "IADD3".toList, [], ["R1".toList, "R2".toList, "R3".toList], [],
      .INS_TYPE_INTEGER⟩]⟩]⟩] ⟨[], []⟩ = Spec.iadd3_metrics ∧
    (dump true Spec.iadd3_metrics true).1 = true ∧
    (read (InstructionStat.fresh 0 (-1) (-1)) (dump true Spec.iadd3_metrics true).2 ⟨[], []⟩
      true).1 = .returned false ∧
    (read (InstructionStat.fresh 0 (-1) (-1)) (dump true Spec.iadd3_metrics false).2 ⟨[], []⟩
      false).1 = .returned true ∧
    (read (InstructionStat.fresh 0 (-1) (-1)) (dump true Spec.iadd3_metrics false).2 ⟨[], []⟩
      false).2.inst_stats.map (fun s => (s.srcs, map_find s.stat 2)) = [([], some 3)] ∧
    Spec.iadd3_metrics.inst_stats.map (fun s => (s.srcs, map_find s.stat 2)) =
      [([2, 3], none)] ∧
    (read (InstructionStat.fresh 7 7 7) (dump true Spec.iadd3_metrics false).2 ⟨[], []⟩
      false).2.inst_stats.map (fun s => (s.predicate, s.dst)) = [(7, 7)] ∧
    Spec.iadd3_metrics.inst_stats.map (fun s => (s.predicate, s.dst)) = [(-1, 1)] ∧
    (read (InstructionStat.fresh 0 (-1) (-1)) (dump true Spec.comma_metrics false).2 ⟨[], []⟩
      false).1 = .thrown .invalid_argument ∧
    (read (InstructionStat.fresh 0 (-1) (-1)) (dump true Spec.newline_metrics false).2
      ⟨[], []⟩ false).1 = .returned false ∧
    map_find (read (InstructionStat.fresh 0 (-1) (-1)) (dump true Spec.hash_metrics false).2
      ⟨[], []⟩ false).2.metric_names "MIX:A#B".toList = none := by
  decide

/-- C10 (amended): for an aggregate with at least one metric name, names free of ',', '#'
and newline, and records without source registers, `dump` with the sparse flag clear
followed by `read` with the flag clear into a fresh aggregate succeeds and yields, in the
original order, one record per original InstructionStat with the same pc and the same
metric-id:count pairs; every original metric name is stored as "MIX:" followed by the
name, with its original id. -/
theorem round_trip_records (pc0 p0 d0 : Int) (m : InstructionMetrics)
    (hne : m.metric_names ≠ [])
    (hnames : ∀ e ∈ m.metric_names, Spec.plain_name e.1 ∧ Spec.is_int e.2)
    (hkeys : (m.metric_names.map Prod.fst).Nodup)
    (hstats : ∀ s ∈ m.inst_stats, Spec.plain_stat s) :
    (dump true m false).1 = true ∧
    (read (InstructionStat.fresh pc0 p0 d0) (dump true m false).2 ⟨[], []⟩ false).1 =
      .returned true ∧
    (read (InstructionStat.fresh pc0 p0 d0) (dump true m false).2 ⟨[], []⟩
        false).2.inst_stats.map (fun s => (s.pc, s.stat)) =
      m.inst_stats.map (fun s => (s.pc, s.stat)) ∧
    (∀ e ∈ m.metric_names,
      map_find (read (InstructionStat.fresh pc0 p0 d0) (dump true m false).2 ⟨[], []⟩
        false).2.metric_names ("MIX:".toList ++ e.1) = some e.2) := by
  rw [read_dump_plain pc0 p0 d0 m hne hnames hkeys hstats]
  refine ⟨?_, rfl, ?_, ?_⟩
  · rw [dump_content m hne false]
  · simp only [List.map_map]
    rfl
  · intro e he
    apply map_find_of_mem
    · rw [List.map_map]
      have hcomp : (Prod.fst ∘ fun e : List Char × Int => ("MIX:".toList ++ e.1, e.2)) =
          (fun n => "MIX:".toList ++ n) ∘ Prod.fst := rfl
      rw [hcomp, ← List.map_map]
      exact List.Nodup.map (List.append_right_injective _) hkeys
    · exact List.mem_map_of_mem (fun e : List Char × Int => ("MIX:".toList ++ e.1, e.2)) he

/-- C10 (amended) at a concrete aggregate: two metric names and three records, two of them
with the same pc. -/
theorem round_trip_records_witness :
    (dump true Spec.plain_metrics false).1 = true ∧
    (read (InstructionStat.fresh 0 0 0) (dump true Spec.plain_metrics false).2 ⟨[], []⟩
      false).1 = .returned true ∧
    (read (InstructionStat.fresh 0 0 0) (dump true Spec.plain_metrics false).2 ⟨[], []⟩
        false).2.inst_stats.map (fun s => (s.pc, s.stat)) =
      Spec.plain_metrics.inst_stats.map (fun s => (s.pc, s.stat)) ∧
    (∀ e ∈ Spec.plain_metrics.metric_names,
      map_find (read (InstructionStat.fresh 0 0 0) (dump true Spec.plain_metrics false).2
        ⟨[], []⟩ false).2.metric_names ("MIX:".toList ++ e.1) = some e.2) :=
  round_trip_records 0 0 0 Spec.plain_metrics (by decide) (by decide) (by decide) (by decide)

/-! ## Classification: coverage, precedence, repeatability -/

/-- C18 as stated fails: a texture instruction, whose category recognises no pattern,
gets the metric name "TEXTURE", which carries no "OTHER" qualifier. -/
theorem texture_no_other_counterexample :
    ¬ Spec.recognised .INS_TYPE_TEXTRUE "TEX".toList ∧
    _dispatcher .INS_TYPE_TEXTRUE ⟨0, "TEX".toList, [], [], [], .INS_TYPE_TEXTRUE⟩ [] =
      "TEXTURE".toList ∧
    ¬ ".OTHER".toList <:+:
      _dispatcher .INS_TYPE_TEXTRUE ⟨0, "TEX".toList, [], [], [], .INS_TYPE_TEXTRUE⟩ [] := by
  refine ⟨fun h => h, rfl, ?_⟩
  decide

/-- C18 (amended): classification is total: for each of the six coarse types the
dispatcher produces a metric name that begins with the category; for memory, float,
integer, control and misc an opcode that matches no recognised pattern gets the "OTHER"
qualifier of the category; a texture instruction always gets exactly "TEXTURE", without
qualifier. -/
theorem classification_total (t : InsType) (inst : Instruction) (old : List Char) :
    Spec.category t <+: _dispatcher t inst old ∧
    (t ≠ .INS_TYPE_TEXTRUE → ¬ Spec.recognised t inst.opcode →
      Spec.carries_other t (_dispatcher t inst old)) ∧
    (t = .INS_TYPE_TEXTRUE → _dispatcher t inst old = "TEXTURE".toList) := by
  refine ⟨?_, ?_, ?_⟩
  · cases t
    · exact ⟨_, rfl⟩
    · exact ⟨_, rfl⟩
    · exact ⟨_, rfl⟩
    · exact ⟨[], rfl⟩
    · exact ⟨_, rfl⟩
    · exact ⟨_, rfl⟩
  · intro ht hnot
    cases t with
    | INS_TYPE_TEXTRUE => exact absurd rfl ht
    | INS_TYPE_MEMORY =>
      simp only [Spec.recognised, not_or] at hnot
      refine ⟨Spec.memory_width inst.modifiers, ?_⟩
      have hls : memory_ldst_scope inst.opcode = (".OTHER".toList, []) := by
        unfold memory_ldst_scope
        simp only [found_iff]
        rw [if_neg hnot.1, if_neg hnot.2.1, if_neg (not_or.mpr ⟨hnot.2.2.1, hnot.2.2.2⟩)]
      show analyze_instruction_MEMORY inst old = _
      unfold analyze_instruction_MEMORY
      simp only [hls, memory_width_eq]
      rfl
    | INS_TYPE_FLOAT =>
      simp only [Spec.recognised, not_or] at hnot
      refine ⟨Spec.float_width inst.opcode, ?_⟩
      show analyze_instruction_FLOAT inst old = _
      unfold analyze_instruction_FLOAT
      simp only [float_width_eq, found_iff]
      rw [if_neg hnot.1, if_neg hnot.2.1, if_neg hnot.2.2.1, if_neg hnot.2.2.2.1,
        if_neg hnot.2.2.2.2]
      rfl
    | INS_TYPE_INTEGER =>
      simp only [Spec.recognised, not_or] at hnot
      refine ⟨[], ?_⟩
      show analyze_instruction_INTEGER inst old = _
      unfold analyze_instruction_INTEGER
      simp only [found_iff]
      rw [if_neg hnot.1, if_neg hnot.2.1, if_neg hnot.2.2.1, if_neg hnot.2.2.2.1,
        if_neg hnot.2.2.2.2]
      rfl
    | INS_TYPE_CONTROL =>
      simp only [Spec.recognised, not_or] at hnot
      obtain ⟨h1, h2, h3, h4, h5, h6, h7, h8, h9, h10⟩ := hnot
      refine ⟨[], ?_⟩
      show analyze_instruction_CONTROL inst old = _
      unfold analyze_instruction_CONTROL
      simp only [found_iff]
      rw [if_neg (not_or.mpr ⟨h1, h2⟩), if_neg (not_or.mpr ⟨h3, h4⟩), if_neg h5, if_neg h6,
        if_neg h7, if_neg h8, if_neg h9, if_neg h10]
      rfl
    | INS_TYPE_MISC =>
      simp only [Spec.recognised, not_or] at hnot
      refine ⟨[], ?_⟩
      show analyze_instruction_MISC inst old = _
      unfold analyze_instruction_MISC
      simp only [found_iff]
      rw [if_neg (not_or.mpr ⟨hnot.1, not_or.mpr ⟨hnot.2.1, hnot.2.2⟩⟩)]
      rfl
  · intro ht
    rw [ht]
    rfl

/-- C18 (amended) at concrete instructions: a memory opcode "NOP" and a texture opcode. -/
theorem classification_total_witness :
    Spec.carries_other .INS_TYPE_MEMORY
      (_dispatcher .INS_TYPE_MEMORY ⟨0, "NOP".toList, [], [], [], .INS_TYPE_MEMORY⟩ []) ∧
    _dispatcher .INS_TYPE_TEXTRUE ⟨0, "TEX".toList, [], [], [], .INS_TYPE_TEXTRUE⟩ [] =
      "TEXTURE".toList :=
  ⟨(classification_total .INS_TYPE_MEMORY ⟨0, "NOP".toList, [], [], [], .INS_TYPE_MEMORY⟩
      []).2.1 (by decide) (by simp only [Spec.recognised]; decide),
   (classification_total .INS_TYPE_TEXTRUE ⟨0, "TEX".toList, [], [], [], .INS_TYPE_TEXTRUE⟩
      []).2.2 rfl⟩

/-- C19 as stated fails: opcode "MEMBAR.SYNC.WARP" contains both "SYNC" and "WARP", and
the control classifier gives it "CONTROL.BAR": the MEMBAR/DEPBAR rule comes first. -/
theorem sync_warp_counterexample :
    "SYNC".toList <:+: "MEMBAR.SYNC.WARP".toList ∧
    "WARP".toList <:+: "MEMBAR.SYNC.WARP".toList ∧
    analyze_instruction_CONTROL
      ⟨0, "MEMBAR.SYNC.WARP".toList, [], [], [], .INS_TYPE_CONTROL⟩ [] =
      "CONTROL.BAR".toList := by
  decide

/-- C19 (amended): a control instruction whose opcode contains both "SYNC" and "WARP" and
neither "MEMBAR" nor "DEPBAR" (for example "BAR.SYNC.WARP") gets the metric name
"CONTROL.SYNC.WARP", not "CONTROL.BAR". -/
theorem sync_warp_metric_name (inst : Instruction) (old : List Char)
    (hsync : "SYNC".toList <:+: inst.opcode) (hwarp : "WARP".toList <:+: inst.opcode)
    (hmembar : ¬ "MEMBAR".toList <:+: inst.opcode)
    (hdepbar : ¬ "DEPBAR".toList <:+: inst.opcode) :
    analyze_instruction_CONTROL inst old = "CONTROL.SYNC.WARP".toList ∧
    analyze_instruction_CONTROL inst old ≠ "CONTROL.BAR".toList := by
  have h : analyze_instruction_CONTROL inst old = "CONTROL.SYNC.WARP".toList := by
    unfold analyze_instruction_CONTROL
    simp only [found_iff]
    rw [if_neg (not_or.mpr ⟨hmembar, hdepbar⟩), if_pos (Or.inl hsync), if_pos hwarp]
    rfl
  refine ⟨h, ?_⟩
  rw [h]
  decide

/-- C19 (amended) at opcode "BAR.SYNC.WARP". -/
theorem sync_warp_metric_name_witness :
    analyze_instruction_CONTROL ⟨0, "BAR.SYNC.WARP".toList, [], [], [], .INS_TYPE_CONTROL⟩
        "stale".toList = "CONTROL.SYNC.WARP".toList ∧
    analyze_instruction_CONTROL ⟨0, "BAR.SYNC.WARP".toList, [], [], [], .INS_TYPE_CONTROL⟩
        "stale".toList ≠ "CONTROL.BAR".toList :=
  sync_warp_metric_name ⟨0, "BAR.SYNC.WARP".toList, [], [], [], .INS_TYPE_CONTROL⟩
    "stale".toList (by decide) (by decide) (by decide) (by decide)

theorem analyze_inst_metric_name (st : List Char × InstructionMetrics) (inst : Instruction) :
    (analyze_inst st inst).1 = _dispatcher inst.type inst [] := by
  unfold analyze_inst
  exact dispatcher_ignores_old inst.type inst st.1

theorem analyze_inst_last (st : List Char × InstructionMetrics) (inst : Instruction) :
    ∃ rec : InstructionStat,
      (analyze_inst st inst).2.inst_stats = st.2.inst_stats ++ [rec] ∧
      rec.pc = (InstructionStat.ofInstruction inst).pc ∧
      rec.predicate = (InstructionStat.ofInstruction inst).predicate ∧
      rec.dst = (InstructionStat.ofInstruction inst).dst ∧
      rec.srcs = (InstructionStat.ofInstruction inst).srcs := by
  unfold analyze_inst
  exact ⟨_, rfl, rfl, rfl, rfl, rfl⟩

/-- C20: classifying the same instruction twice gives the same results: whatever the
metric-name string holds on entry, the classifier leaves the same name in it, and the two
records that `analyze` builds when it meets the instruction twice in a row have the same
pc, predicate, dst and srcs. -/
theorem classification_repeatable (inst : Instruction) (old1 old2 : List Char)
    (st : List Char × InstructionMetrics) :
    _dispatcher inst.type inst old1 = _dispatcher inst.type inst old2 ∧
    (analyze_inst (analyze_inst st inst) inst).1 = (analyze_inst st inst).1 ∧
    ∃ rec1 rec2 : InstructionStat,
      (analyze_inst (analyze_inst st inst) inst).2.inst_stats =
        st.2.inst_stats ++ [rec1, rec2] ∧
      rec1.pc = rec2.pc ∧ rec1.predicate = rec2.predicate ∧ rec1.dst = rec2.dst ∧
      rec1.srcs = rec2.srcs := by
  refine ⟨?_, ?_, ?_⟩
  · rw [dispatcher_ignores_old inst.type inst old1, dispatcher_ignores_old inst.type inst old2]
  · rw [analyze_inst_metric_name, analyze_inst_metric_name]
  · obtain ⟨rec1, h1, a1, b1, c1, d1⟩ := analyze_inst_last st inst
    obtain ⟨rec2, h2, a2, b2, c2, d2⟩ := analyze_inst_last (analyze_inst st inst) inst
    refine ⟨rec1, rec2, ?_, ?_, ?_, ?_, ?_⟩
    · rw [h2, h1]; simp
    · rw [a1, a2]
    · rw [b1, b2]
    · rw [c1, c2]
    · rw [d1, d2]

/-! ## `dump` without metric names -/

/-- C14 as stated fails: with no metric name and a file that can be opened, `dump`
returns failure but the file exists afterwards, empty: it was opened, that is created or
truncated, before the check. -/
theorem dump_empty_counterexample :
    dump true ⟨[], [⟨0, -1, 1, [2, 3], [(0, 1)]⟩]⟩ false = (false, some []) ∧
    (dump true ⟨[], [⟨0, -1, 1, [2, 3], [(0, 1)]⟩]⟩ false).2 ≠ none := by
  decide

/-- C14 (amended): for an aggregate without metric names, whatever its inst_stats, `dump`
returns the failure indicator and writes nothing, no header and no record; when the file
can be opened it is nevertheless created or truncated and left empty, and when it cannot
be opened it is left untouched. -/
theorem dump_empty (can_open : Bool) (metrics : InstructionMetrics) (sparse : Bool)
    (h : metrics.metric_names = []) :
    (dump can_open metrics sparse).1 = false ∧
    (dump can_open metrics sparse).2 = if can_open then some [] else none := by
  unfold dump
  cases can_open <;> simp [h]

/-- C14 (amended) at an aggregate with one record and no metric name. -/
theorem dump_empty_witness :
    (dump true ⟨[], [⟨0, -1, 1, [2, 3], [(0, 1)]⟩]⟩ true).1 = false ∧
    (dump true ⟨[], [⟨0, -1, 1, [2, 3], [(0, 1)]⟩]⟩ true).2 = some [] :=
  dump_empty true ⟨[], [⟨0, -1, 1, [2, 3], [(0, 1)]⟩]⟩ true rfl

/-! ## `read`, line by line -/

/-- The four `std::getline` calls of `read` take the first four lines of the file: `read`
in terms of these lines. -/
theorem read_by_lines (fresh : InstructionStat) (content : List Char)
    (metrics : InstructionMetrics) (sparse : Bool) :
    read fresh (some content) metrics sparse =
      if (Spec.lines content)[0]? ≠ some "<metric names>".toList then
        (.returned false, metrics)
      else
        match read_names_loop metrics.metric_names
            (getlines (Spec.sep sparse) ((Spec.lines content)[1]?.getD [])) with
        | (some e, names) => (.thrown e, ⟨names, metrics.inst_stats⟩)
        | (none, names) =>
          if (Spec.lines content)[2]? ≠ some "<inst stats>".toList then
            (.returned false, ⟨names, metrics.inst_stats⟩)
          else
            match read_stats_loop fresh metrics.inst_stats
                (getlines (Spec.sep sparse) ((Spec.lines content)[3]?.getD [])) with
            | (some e, inst_stats) => (.thrown e, ⟨names, inst_stats⟩)
            | (none, inst_stats) => (.returned true, ⟨names, inst_stats⟩) := by
  unfold read Spec.lines Spec.sep
  rw [getlines_unfold '\n' content]
  rcases h0 : getline content '\n' with _ | ⟨buf0, ifs1⟩
  · simp [h0]
  · by_cases hb0 : buf0 = "<metric names>".toList
    · subst hb0
      simp only [h0, ne_eq, not_true_eq_false, if_false, List.getElem?_cons_zero,
        List.getElem?_cons_succ]
      rw [getlines_unfold '\n' ifs1]
      rcases h1 : getline ifs1 '\n' with _ | ⟨buf1, ifs2⟩
      · simp [h1, getlines, read_names_loop, getline]
      · simp only [h1, List.getElem?_cons_zero, List.getElem?_cons_succ, Option.getD_some]
        rcases hn : read_names_loop metrics.metric_names
            (getlines (if sparse = true then '\n' else '#') buf1) with ⟨ex, names⟩
        cases ex with
        | some e => simp only [hn]
        | none =>
          simp only [hn]
          rw [getlines_unfold '\n' ifs2]
          rcases h2 : getline ifs2 '\n' with _ | ⟨buf2, ifs3⟩
          · simp [h2]
          · by_cases hb2 : buf2 = "<inst stats>".toList
            · subst hb2
              simp only [h2, ne_eq, not_true_eq_false, if_false, List.getElem?_cons_zero,
                List.getElem?_cons_succ]
              rw [getlines_unfold '\n' ifs3]
              rcases h3 : getline ifs3 '\n' with _ | ⟨buf3, ifs4⟩
              · simp [h3, getlines, read_stats_loop]
              · simp only [h3, List.getElem?_cons_zero, Option.getD_some]
            · simp only [h2, hb2, ne_eq, not_false_eq_true, if_true, if_false,
                List.getElem?_cons_zero, List.getElem?_cons_succ, Option.some.injEq]
    · simp only [h0, hb0, ne_eq, not_false_eq_true, if_true, if_false,
        List.getElem?_cons_zero, Option.some.injEq]

/-! ## What `read` leaves in place -/

theorem map_find_map_assign_ne {κ ν : Type} [DecidableEq κ] (m : List (κ × ν)) (key k : κ)
    (v : ν) (h : key ≠ k) : map_find (map_assign m key v) k = map_find m k := by
  induction m with
  | nil => simp [map_assign, map_find, h]
  | cons e rest ih =>
    obtain ⟨k1, v1⟩ := e
    unfold map_assign
    by_cases h1 : k1 = key
    · subst h1
      simp [map_find, h]
    · simp only [h1, if_false]
      unfold map_find
      rw [ih]

/-- The metric-name loop only touches names that begin with "MIX:". -/
theorem read_names_loop_frame (toks : List (List Char)) (acc : List (List Char × Int))
    (name : List Char) (h : ¬ "MIX:".toList <+: name) :
    map_find (read_names_loop acc toks).2 name = map_find acc name := by
  induction toks generalizing acc with
  | nil => rfl
  | cons t toks ih =>
    rw [read_names_loop]
    cases hf : find t ",".toList with
    | none => exact ih acc
    | some pos =>
      simp only
      cases hs : stoi (substr t (pos + 1) (size_sub (size_sub t.length pos) 2)) with
      | error e => rfl
      | ok id =>
        simp only
        rw [ih]
        apply map_find_map_assign_ne
        intro e
        exact h ⟨_, e⟩

/-- The record loop only appends. -/
theorem read_stats_loop_append (fresh : InstructionStat) (toks : List (List Char))
    (acc : List InstructionStat) :
    ∃ recs, (read_stats_loop fresh acc toks).2 = acc ++ recs := by
  induction toks generalizing acc with
  | nil => exact ⟨[], by simp [read_stats_loop]⟩
  | cons t toks ih =>
    rw [read_stats_loop]
    cases hf : read_fields_loop true fresh (getlines ',' t) with
    | error e => exact ⟨[], by simp⟩
    | ok rec =>
      obtain ⟨recs, hr⟩ := ih (acc ++ [rec])
      exact ⟨rec :: recs, by simp only [hr]; simp⟩

/-- C13: for every file (openable or not, well-formed or not) and every starting
aggregate none of whose metric names begins with "MIX:", after `read`, however it ends,
every metric name present before is still present with the same id, and the inst_stats
present before are a prefix of the inst_stats after. -/
theorem read_keeps_existing (fresh : InstructionStat) (file : Option (List Char))
    (metrics : InstructionMetrics) (sparse : Bool)
    (h : ∀ e ∈ metrics.metric_names, ¬ "MIX:".toList <+: e.1) :
    (∀ name id, map_find metrics.metric_names name = some id →
      map_find (read fresh file metrics sparse).2.metric_names name = some id) ∧
    metrics.inst_stats <+: (read fresh file metrics sparse).2.inst_stats := by
  have hname : ∀ name id, map_find metrics.metric_names name = some id →
      ¬ "MIX:".toList <+: name := by
    intro name id hfind
    have hmem : name ∈ metrics.metric_names.map Prod.fst := by
      rw [← map_find_isSome_iff, hfind]; rfl
    obtain ⟨e, he, hn⟩ := List.mem_map.mp hmem
    rw [← hn]
    exact h e he
  cases file with
  | none => exact ⟨fun _ _ hf => hf, List.prefix_refl _⟩
  | some content =>
    rw [read_by_lines]
    by_cases h0 : (Spec.lines content)[0]? ≠ some "<metric names>".toList
    · rw [if_pos h0]
      exact ⟨fun _ _ hf => hf, List.prefix_refl _⟩
    · rw [if_neg h0]
      have hframe := read_names_loop_frame
        (getlines (Spec.sep sparse) ((Spec.lines content)[1]?.getD [])) metrics.metric_names
      rcases hn : read_names_loop metrics.metric_names
          (getlines (Spec.sep sparse) ((Spec.lines content)[1]?.getD [])) with ⟨ex, names⟩
      rw [hn] at hframe
      have hkeep : ∀ name id, map_find metrics.metric_names name = some id →
          map_find names name = some id := by
        intro name id hf
        rw [hframe name (hname name id hf)]
        exact hf
      cases ex with
      | some e => exact ⟨hkeep, List.prefix_refl _⟩
      | none =>
        simp only
        by_cases h2 : (Spec.lines content)[2]? ≠ some "<inst stats>".toList
        · rw [if_pos h2]
          exact ⟨hkeep, List.prefix_refl _⟩
        · rw [if_neg h2]
          obtain ⟨recs, hr⟩ := read_stats_loop_append fresh
            (getlines (Spec.sep sparse) ((Spec.lines content)[3]?.getD [])) metrics.inst_stats
          rcases hs : read_stats_loop fresh metrics.inst_stats
              (getlines (Spec.sep sparse) ((Spec.lines content)[3]?.getD [])) with ⟨ex, stats⟩
          rw [hs] at hr
          simp only at hr
          cases ex <;> exact ⟨hkeep, ⟨recs, hr.symm⟩⟩

/-- C13 at a concrete call: a file with two entries and one record read into an aggregate
that already holds "INTEGER.ADD3" with id 0 and one record. -/
theorem read_keeps_existing_witness :
    (∀ name id, map_find Spec.iadd3_metrics.metric_names name = some id →
      map_find (read (InstructionStat.fresh 0 0 0) (some Spec.bad_id_file)
        Spec.iadd3_metrics false).2.metric_names name = some id) ∧
    Spec.iadd3_metrics.inst_stats <+:
      (read (InstructionStat.fresh 0 0 0) (some Spec.bad_id_file) Spec.iadd3_metrics
        false).2.inst_stats :=
  read_keeps_existing (InstructionStat.fresh 0 0 0) (some Spec.bad_id_file)
    Spec.iadd3_metrics false (by decide)

/-! ## Section headers and malformed numbers -/

/-- C16 as stated fails: in this file the line after the metric-name line is "foo", not
the inst-stats header, and `read` does not return the failure indicator: `std::stoi`
throws on the id "x" of the metric-name line before the header is looked at. -/
theorem header_check_counterexample :
    (Spec.lines Spec.bad_id_no_header)[0]? = some "<metric names>".toList ∧
    (Spec.lines Spec.bad_id_no_header)[2]? = some "foo".toList ∧
    (read (InstructionStat.fresh 0 0 0) (some Spec.bad_id_no_header) ⟨[], []⟩ false).1 =
      .thrown .invalid_argument ∧
    (read (InstructionStat.fresh 0 0 0) (some Spec.bad_id_no_header) ⟨[], []⟩ false).1 ≠
      .returned false := by
  decide

/-- C16 (amended): for every file content, `read` returns the failure indicator and
leaves the aggregate unchanged whenever the first line is not exactly "<metric names>";
and, when the metric-name line is read without an exception from `std::stoi`, it returns
the failure indicator whenever the line following the metric-name line is not exactly
"<inst stats>". -/
theorem read_header_checks (fresh : InstructionStat) (content : List Char)
    (metrics : InstructionMetrics) (sparse : Bool) :
    ((Spec.lines content)[0]? ≠ some "<metric names>".toList →
      read fresh (some content) metrics sparse = (.returned false, metrics)) ∧
    ((Spec.lines content)[0]? = some "<metric names>".toList →
      (read_names_loop metrics.metric_names
        (getlines (Spec.sep sparse) ((Spec.lines content)[1]?.getD []))).1 = none →
      (Spec.lines content)[2]? ≠ some "<inst stats>".toList →
      (read fresh (some content) metrics sparse).1 = .returned false) := by
  constructor
  · intro h0
    rw [read_by_lines, if_pos h0]
  · intro h0 hn h2
    rw [read_by_lines, if_neg (by rw [h0]; simp)]
    rcases hl : read_names_loop metrics.metric_names
        (getlines (Spec.sep sparse) ((Spec.lines content)[1]?.getD [])) with ⟨ex, names⟩
    rw [hl] at hn
    simp only at hn
    subst hn
    simp only
    rw [if_pos h2]

/-- C16 (amended) at two files: one without the first header, one with "foo" in place of
the second header after a well-formed metric-name line. -/
theorem read_header_checks_witness :
    read (InstructionStat.fresh 0 0 0) (some Spec.no_header_file) Spec.iadd3_metrics false =
      (.returned false, Spec.iadd3_metrics) ∧
    (read (InstructionStat.fresh 0 0 0) (some Spec.no_second_header_file) Spec.iadd3_metrics
      false).1 = .returned false :=
  ⟨(read_header_checks (InstructionStat.fresh 0 0 0) Spec.no_header_file Spec.iadd3_metrics
      false).1 (by decide),
   (read_header_checks (InstructionStat.fresh 0 0 0) Spec.no_second_header_file
      Spec.iadd3_metrics false).2 (by decide) (by decide) (by decide)⟩

theorem read_stats_loop_append_tokens (fresh : InstructionStat) (pre rest : List (List Char))
    (acc : List InstructionStat) (h : (read_stats_loop fresh acc pre).1 = none) :
    read_stats_loop fresh acc (pre ++ rest) =
      read_stats_loop fresh (read_stats_loop fresh acc pre).2 rest := by
  induction pre generalizing acc with
  | nil => rfl
  | cons t pre ih =>
    rw [List.cons_append, read_stats_loop]
    rw [read_stats_loop] at h ⊢
    cases hf : read_fields_loop true fresh (getlines ',' t) with
    | error e => simp [hf] at h
    | ok rec =>
      simp only [hf] at h ⊢
      exact ih _ h

/-- The lines of the file that `dump` writes: the header, the metric-name stream, then
the lines of the rest. -/
theorem lines_dump_dense (m : InstructionMetrics) :
    Spec.lines ("<metric names>".toList ++ '\n' ::
      (concat_map (fun e => metric_name_text e ++ ['#']) m.metric_names ++ '\n' ::
        ("<inst stats>".toList ++ '\n' ::
          concat_map (fun s => inst_stat_text s ++ ['#']) m.inst_stats))) =
      "<metric names>".toList ::
        (if '\n' ∈ concat_map (fun e => metric_name_text e ++ ['#']) m.metric_names then
          Spec.lines (concat_map (fun e => metric_name_text e ++ ['#']) m.metric_names ++
            '\n' :: ("<inst stats>".toList ++ '\n' ::
              concat_map (fun s => inst_stat_text s ++ ['#']) m.inst_stats))
        else
          concat_map (fun e => metric_name_text e ++ ['#']) m.metric_names ::
            Spec.lines ("<inst stats>".toList ++ '\n' ::
              concat_map (fun s => inst_stat_text s ++ ['#']) m.inst_stats)) := by
  unfold Spec.lines
  rw [getlines_append '\n' _ _ (by decide)]
  split_ifs with h
  · rfl
  · rw [getlines_append '\n' _ _ h]

theorem read_result_names (fresh : InstructionStat) (content : List Char)
    (metrics : InstructionMetrics) (sparse : Bool)
    (h0 : (Spec.lines content)[0]? = some "<metric names>".toList) :
    (read fresh (some content) metrics sparse).2.metric_names =
      (read_names_loop metrics.metric_names
        (getlines (Spec.sep sparse) ((Spec.lines content)[1]?.getD []))).2 := by
  rw [read_by_lines, if_neg (by rw [h0]; simp)]
  rcases hl : read_names_loop metrics.metric_names
      (getlines (Spec.sep sparse) ((Spec.lines content)[1]?.getD [])) with ⟨ex, names⟩
  cases ex with
  | some e => rfl
  | none =>
    simp only
    split_ifs
    · rfl
    · rcases hs : read_stats_loop fresh metrics.inst_stats
          (getlines (Spec.sep sparse) ((Spec.lines content)[3]?.getD [])) with ⟨ex, stats⟩
      cases ex <;> rfl

/-- C12: for an aggregate with at least one metric name whose names contain none of ',',
'#' and newline, `read` (sparse clear) of the file `dump` (sparse clear) wrote, into a
fresh aggregate, yields as metric_names exactly the entries "MIX:" + name -> id of the
original entries name -> id: every loaded name begins with "MIX:" and every id is the one
written, whatever the records of the aggregate are. -/
theorem read_metric_names (fresh : InstructionStat) (m : InstructionMetrics)
    (hne : m.metric_names ≠ [])
    (hnames : ∀ e ∈ m.metric_names, Spec.plain_name e.1 ∧ Spec.is_int e.2)
    (hkeys : (m.metric_names.map Prod.fst).Nodup) :
    (read fresh (dump true m false).2 ⟨[], []⟩ false).2.metric_names =
      m.metric_names.map (fun e => ("MIX:".toList ++ e.1, e.2)) ∧
    (∀ e ∈ (read fresh (dump true m false).2 ⟨[], []⟩ false).2.metric_names,
      "MIX:".toList <+: e.1) ∧
    (∀ name id, map_find (read fresh (dump true m false).2 ⟨[], []⟩ false).2.metric_names
        ("MIX:".toList ++ name) = some id ↔ map_find m.metric_names name = some id) := by
  have hnl : '\n' ∉ concat_map (fun e => metric_name_text e ++ ['#']) m.metric_names :=
    not_mem_concat_map_sep _ _ _ _ (by decide) (fun e he =>
      metric_name_text_not_mem e '\n' (hnames e he).1.2.2
        ⟨by decide, by decide, by decide, by decide, by decide⟩)
  have hsplit : getlines '#'
      (concat_map (fun e => metric_name_text e ++ ['#']) m.metric_names) =
      m.metric_names.map metric_name_text := by
    have := getlines_concat_map '#' metric_name_text m.metric_names [] (fun e he =>
      metric_name_text_not_mem e '#' (hnames e he).1.2.1
        ⟨by decide, by decide, by decide, by decide, by decide⟩)
    simpa [getlines] using this
  have hread := read_names_fresh m.metric_names
    (fun e he => ⟨(hnames e he).1.1, (hnames e he).2⟩) hkeys
  have hsep : Spec.sep false = '#' := rfl
  have hmain : (read fresh (dump true m false).2 ⟨[], []⟩ false).2.metric_names =
      m.metric_names.map (fun e => ("MIX:".toList ++ e.1, e.2)) := by
    rw [dump_content m hne false]
    simp only [Bool.false_eq_true, if_false]
    rw [read_result_names _ _ _ _ (by rw [lines_dump_dense, if_neg hnl]; rfl),
      lines_dump_dense, if_neg hnl]
    simp only [List.getElem?_cons_succ, List.getElem?_cons_zero, Option.getD_some, hsep,
      hsplit, hread]
  rw [hmain]
  refine ⟨rfl, ?_, ?_⟩
  · intro e he
    obtain ⟨x, _, hx⟩ := List.mem_map.mp he
    rw [← hx]
    exact ⟨x.1, rfl⟩
  · intro name id
    have hinj : Function.Injective (fun n : List Char => "MIX:".toList ++ n) :=
      List.append_right_injective _
    generalize m.metric_names = l
    induction l with
    | nil => simp [map_find]
    | cons e l ih =>
      obtain ⟨k, v⟩ := e
      simp only [List.map_cons, map_find]
      by_cases hk : k = name
      · subst hk; simp
      · have hk2 : "MIX:".toList ++ k ≠ "MIX:".toList ++ name := fun e => hk (hinj e)
        simp only [hk, hk2, if_false]
        exact ih

/-- C12 at the aggregate of `IADD3 R1, R2, R3`, whose record carries source registers. -/
theorem read_metric_names_witness :
    (read (InstructionStat.fresh 0 0 0) (dump true Spec.iadd3_metrics false).2 ⟨[], []⟩
      false).2.metric_names = [("MIX:INTEGER.ADD3".toList, 0)] :=
  (read_metric_names (InstructionStat.fresh 0 0 0) Spec.iadd3_metrics (by decide) (by decide)
    (by decide)).1

/-! ## Sparse files -/

theorem metric_name_text_ne_header (e : List Char × Int) :
    metric_name_text e ≠ "<inst stats>".toList := by
  rw [metric_name_text_eq]
  intro h
  have : ('(' : Char) = '<' := (List.cons.inj h).1
  revert this
  decide

/-- The first three lines of a sparse file: the header, the first metric entry, and then
the second entry or, after the last entry, an empty line. -/
theorem lines_dump_sparse (e : List Char × Int) (entries : List (List Char × Int))
    (rest : List Char) (h : ∀ x ∈ e :: entries, '\n' ∉ metric_name_text x) :
    Spec.lines ("<metric names>".toList ++ '\n' ::
      (concat_map (fun e => metric_name_text e ++ ['\n']) (e :: entries) ++ '\n' :: rest)) =
      "<metric names>".toList :: metric_name_text e ::
        (entries.map metric_name_text ++ [] :: Spec.lines rest) := by
  unfold Spec.lines
  have hnil : getlines '\n' ('\n' :: rest) = [] :: getlines '\n' rest :=
    getlines_append '\n' [] rest (by simp)
  rw [getlines_append '\n' _ _ (by decide), getlines_concat_map '\n' metric_name_text _ _ h,
    hnil]
  rfl

/-- C11, what the code does: for every aggregate with at least one metric name, the names
free of ',' and newline, `dump` with the sparse flag set succeeds and `read` with the flag
set of the file it wrote, into a fresh aggregate, returns the failure indicator; it has
then loaded the first metric name only and no record. -/
theorem read_sparse_fails (fresh : InstructionStat) (m : InstructionMetrics)
    (hne : m.metric_names ≠ [])
    (hnames : ∀ e ∈ m.metric_names, ',' ∉ e.1 ∧ '\n' ∉ e.1 ∧ Spec.is_int e.2) :
    (dump true m true).1 = true ∧
    read fresh (dump true m true).2 ⟨[], []⟩ true =
      (.returned false,
        ⟨(m.metric_names.take 1).map (fun e => ("MIX:".toList ++ e.1, e.2)), []⟩) := by
  rw [dump_content m hne true]
  refine ⟨rfl, ?_⟩
  simp only [if_true]
  obtain ⟨e, entries, hm⟩ := List.exists_cons_of_ne_nil hne
  rw [hm] at hnames ⊢
  have hnl : ∀ x ∈ e :: entries, '\n' ∉ metric_name_text x := fun x hx =>
    metric_name_text_not_mem x '\n' (hnames x hx).2.1
      ⟨by decide, by decide, by decide, by decide, by decide⟩
  have he := hnames e (List.mem_cons_self _ _)
  have htok : getlines (Spec.sep true) (metric_name_text e) = [metric_name_text e] :=
    getlines_last '\n' _ (by rw [metric_name_text_eq]; simp)
      (hnl e (List.mem_cons_self _ _))
  have hloop : read_names_loop [] [metric_name_text e] =
      (none, [("MIX:".toList ++ e.1, e.2)]) := by
    rw [read_names_entry [] e [] he.1 he.2.2]
    rfl
  have h2 : (entries.map metric_name_text ++
      [] :: Spec.lines ("<inst stats>".toList ++ '\n' ::
        concat_map (fun s => inst_stat_text s ++ ['\n']) m.inst_stats))[0]? ≠
      some "<inst stats>".toList := by
    cases entries with
    | nil =>
      simp only [List.map_nil, List.nil_append, List.getElem?_cons_zero, ne_eq,
        Option.some.injEq]
      decide
    | cons x xs =>
      simp only [List.map_cons, List.cons_append, List.getElem?_cons_zero, ne_eq,
        Option.some.injEq]
      exact metric_name_text_ne_header x
  rw [read_by_lines, lines_dump_sparse e entries _ hnl]
  simp only [List.getElem?_cons_zero, List.getElem?_cons_succ, ne_eq, not_true_eq_false,
    if_false, Option.getD_some, htok, hloop]
  rw [if_pos h2]
  rfl

/-- C11 at the aggregate of `IADD3 R1, R2, R3`. -/
theorem read_sparse_fails_witness :
    (dump true Spec.iadd3_metrics true).1 = true ∧
    read (InstructionStat.fresh 0 0 0) (dump true Spec.iadd3_metrics true).2 ⟨[], []⟩ true =
      (.returned false, ⟨[("MIX:INTEGER.ADD3".toList, 0)], []⟩) :=
  read_sparse_fails (InstructionStat.fresh 0 0 0) Spec.iadd3_metrics (by decide) (by decide)

/-! ## The text that `dump` writes -/

theorem int_to_chars_eq_decimal (n : Int) : int_to_chars n = Spec.decimal n := by
  unfold int_to_chars Spec.decimal
  cases n with
  | ofNat k =>
    have h : ¬ (Int.ofNat k < 0) := by simp [Int.ofNat_eq_coe]
    rw [if_neg h]
    rfl
  | negSucc k =>
    have h : Int.negSucc k < 0 := Int.negSucc_lt_zero k
    rw [if_pos h]
    rfl

theorem metric_name_text_eq_entry (e : List Char × Int) :
    metric_name_text e = Spec.entry_text e := by
  unfold metric_name_text Spec.entry_text
  rw [int_to_chars_eq_decimal]

theorem concat_map_src_text (srcs : List Int) :
    concat_map src_text srcs = Spec.sources_text srcs := by
  unfold concat_map Spec.sources_text
  induction srcs with
  | nil => rfl
  | cons x xs ih =>
    by_cases hx : x = -1
    · subst hx
      have h1 : src_text (-1) = [] := rfl
      rw [List.map_cons, List.flatten_cons, ih, h1, List.nil_append,
        List.filter_cons_of_neg (by simp)]
    · have h1 : src_text x = Spec.decimal x ++ ":".toList := by
        unfold src_text
        rw [if_pos hx, int_to_chars_eq_decimal]
      rw [List.map_cons, List.flatten_cons, ih, h1,
        List.filter_cons_of_pos (by simpa using hx), List.map_cons, List.flatten_cons]

theorem concat_map_stat_text (stat : List (Int × Int)) :
    concat_map (fun it => stat_text it ++ [',']) stat = Spec.pairs_text stat := by
  unfold concat_map Spec.pairs_text
  congr 1
  apply List.map_congr_left
  intro it _
  unfold stat_text
  rw [int_to_chars_eq_decimal, int_to_chars_eq_decimal]
  rfl

theorem inst_stat_text_eq_record (s : InstructionStat) :
    inst_stat_text s = Spec.record_text s := by
  have hopt : ∀ n : Int, (if n ≠ -1 then int_to_chars n else []) = Spec.optional_decimal n := by
    intro n
    unfold Spec.optional_decimal
    by_cases h : n = -1
    · rw [if_neg (by simpa using h), if_pos h]
    · rw [if_pos h, if_neg h, int_to_chars_eq_decimal]
  unfold inst_stat_text Spec.record_text
  rw [hopt, hopt, concat_map_src_text, concat_map_stat_text, int_to_chars_eq_decimal]
  simp only [String.toList, List.append_assoc, List.singleton_append, List.cons_append,
    List.nil_append]

/-- C15: for an aggregate with at least one metric name, the text `dump` writes is
exactly: the line "<metric names>", each metric entry "(" name "," id ")" followed by the
separator, a newline, the line "<inst stats>", then each InstructionStat in order as "("
pc "," predicate "," dst "," sources "," pairs ")" followed by the separator; the
separator is a newline when sparse is set and '#' otherwise, predicate and dst are decimal
numbers or empty for the none sentinel, sources is each non-none source register followed
by ':', and pairs is each metric id, ':' and count followed by ','. -/
theorem dump_writes_file_text (m : InstructionMetrics) (sparse : Bool)
    (hne : m.metric_names ≠ []) :
    dump true m sparse = (true, some (Spec.file_text m sparse)) := by
  rw [dump_content m hne sparse]
  unfold Spec.file_text
  have h1 : concat_map (fun e => metric_name_text e ++ [if sparse = true then '\n' else '#'])
      m.metric_names =
      (m.metric_names.map (fun e => Spec.entry_text e ++ [Spec.sep sparse])).flatten := by
    unfold concat_map
    congr 1
    apply List.map_congr_left
    intro e _
    rw [metric_name_text_eq_entry]
    rfl
  have h2 : concat_map (fun s => inst_stat_text s ++ [if sparse = true then '\n' else '#'])
      m.inst_stats =
      (m.inst_stats.map (fun s => Spec.record_text s ++ [Spec.sep sparse])).flatten := by
    unfold concat_map
    congr 1
    apply List.map_congr_left
    intro s _
    rw [inst_stat_text_eq_record]
    rfl
  rw [h1, h2]
  simp only [String.toList, List.append_assoc, List.singleton_append, List.cons_append,
    List.nil_append]

/-- C15 at a concrete aggregate, dense and sparse: the none predicate and the none source
register are left out. -/
theorem dump_writes_file_text_witness :
    dump true ⟨[("INTEGER.ADD3".toList, 0), ("X".toList, 1)],
        [⟨4, 3, -1, [2, -1, 5], [(0, 1)]⟩, ⟨-8, -1, 7, [], [(1, 2), (0, 5)]⟩]⟩ false =
      (true, some ("<metric names>\n(INTEGER.ADD3,0)#(X,1)#\n<inst stats>\n" ++
        "(4,3,,2:5:,0:1,)#(-8,,7,,1:2,0:5,)#").toList) ∧
    dump true ⟨[("INTEGER.ADD3".toList, 0), ("X".toList, 1)],
        [⟨4, 3, -1, [2, -1, 5], [(0, 1)]⟩, ⟨-8, -1, 7, [], [(1, 2), (0, 5)]⟩]⟩ true =
      (true, some ("<metric names>\n(INTEGER.ADD3,0)\n(X,1)\n\n<inst stats>\n" ++
        "(4,3,,2:5:,0:1,)\n(-8,,7,,1:2,0:5,)\n").toList) :=
  ⟨dump_writes_file_text _ false (by decide), dump_writes_file_text _ true (by decide)⟩

/-! ## Records and ids after `analyze` -/

theorem map_find_map_assign_self {κ ν : Type} [DecidableEq κ] (m : List (κ × ν)) (key : κ)
    (v : ν) (h : map_find m key = none) : map_find (map_assign m key v) key = some v := by
  rw [map_assign_new m key v h, map_find_append, h]
  simp [map_find]

theorem ofInstruction_stat (inst : Instruction) : (InstructionStat.ofInstruction inst).stat = [] := by
  unfold InstructionStat.ofInstruction
  cases inst.operands <;> rfl

/-- One instruction: the record appended has one stat entry with count 1, under the id
that `metric_names` then gives to the instruction's metric name. -/
theorem analyze_inst_record (st : List Char × InstructionMetrics) (inst : Instruction) :
    ∃ (rec : InstructionStat) (id : Int),
      (analyze_inst st inst).2.inst_stats = st.2.inst_stats ++ [rec] ∧
      rec.stat = [(id, 1)] ∧
      map_find (analyze_inst st inst).2.metric_names (_dispatcher inst.type inst []) =
        some id := by
  unfold analyze_inst
  simp only [dispatcher_ignores_old inst.type inst st.1, ofInstruction_stat]
  cases hf : map_find st.2.metric_names (_dispatcher inst.type inst []) with
  | none =>
    exact ⟨_, _, rfl, rfl, map_find_map_assign_self _ _ _ hf⟩
  | some id =>
    exact ⟨_, _, rfl, rfl, hf⟩

theorem foldl_analyze_inst_records (insts : List Instruction)
    (st : List Char × InstructionMetrics) :
    ∃ recs : List InstructionStat,
      (insts.foldl analyze_inst st).2.inst_stats = st.2.inst_stats ++ recs ∧
      List.Forall₂
        (fun (rec : InstructionStat) (name : List Char) =>
          ∃ id : Int, rec.stat = [(id, 1)] ∧
            map_find (insts.foldl analyze_inst st).2.metric_names name = some id)
        recs (insts.map (fun inst => _dispatcher inst.type inst [])) := by
  induction insts generalizing st with
  | nil => exact ⟨[], by simp, List.Forall₂.nil⟩
  | cons i is ih =>
    obtain ⟨rec, id, h1, h2, h3⟩ := analyze_inst_record st i
    obtain ⟨recs, h4, h5⟩ := ih (analyze_inst st i)
    refine ⟨rec :: recs, ?_, ?_⟩
    · rw [List.foldl_cons, h4, h1]
      simp
    · rw [List.map_cons, List.foldl_cons]
      refine List.Forall₂.cons ⟨id, h2, ?_⟩ h5
      rw [foldl_analyze_inst_names]
      exact names_step_foldl_find _ h3

/-- C23: every InstructionStat that `analyze` appends has a stat mapping with exactly one
entry, whose count is 1 and whose key is the id that metric_names, after the call, gives
to the metric name the dispatcher produces for that instruction under its coarse type. -/
theorem analyze_stat_single_entry (functions : List Function) (metrics : InstructionMetrics) :
    ∃ recs : List InstructionStat,
      (analyze functions metrics).inst_stats = metrics.inst_stats ++ recs ∧
      List.Forall₂
        (fun (rec : InstructionStat) (inst : Instruction) =>
          ∃ id : Int, rec.stat = [(id, 1)] ∧
            map_find (analyze functions metrics).metric_names
              (_dispatcher inst.type inst []) = some id)
        recs (Spec.instructions functions) := by
  rw [analyze_eq_foldl]
  obtain ⟨recs, h1, h2⟩ := foldl_analyze_inst_records (Spec.instructions functions)
    ([], metrics)
  refine ⟨recs, h1, ?_⟩
  rw [List.forall₂_map_right_iff] at h2
  exact h2

theorem names_step_dense (m : List (List Char × Int)) (x : List Char)
    (h : Spec.dense_ids m) : Spec.dense_ids (names_step m x) := by
  by_cases hx : x ∈ m.map Prod.fst
  · rw [names_step_old hx]; exact h
  · rw [names_step_new hx]
    unfold Spec.dense_ids at h ⊢
    rw [List.map_append, List.length_append, List.length_singleton, List.range_succ,
      List.map_append]
    exact List.Perm.append h (List.Perm.refl _)

theorem names_step_foldl_dense (xs : List (List Char)) (m : List (List Char × Int))
    (h : Spec.dense_ids m) : Spec.dense_ids (xs.foldl names_step m) := by
  induction xs generalizing m with
  | nil => exact h
  | cons x xs ih => exact ih _ (names_step_dense m x h)

/-- C25: if before the call the metric names are distinct keys of the mapping and the ids
are pairwise distinct and exactly 0 to k-1 for the k names present (the empty aggregate
included), then after `analyze` over any list of functions the ids are again pairwise
distinct and exactly 0 to n-1 for the n names present, and every name that was present
keeps its id. -/
theorem analyze_dense_ids (functions : List Function) (metrics : InstructionMetrics)
    (hkeys : (metrics.metric_names.map Prod.fst).Nodup)
    (hids : Spec.dense_ids metrics.metric_names) :
    ((analyze functions metrics).metric_names.map Prod.fst).Nodup ∧
    Spec.dense_ids (analyze functions metrics).metric_names ∧
    ((analyze functions metrics).metric_names.map Prod.snd).Nodup ∧
    (∀ name id, map_find metrics.metric_names name = some id →
      map_find (analyze functions metrics).metric_names name = some id) := by
  rw [analyze_metric_names]
  have hdense := names_step_foldl_dense (Spec.metric_names_of functions) _ hids
  refine ⟨?_, hdense, ?_, ?_⟩
  · exact (names_step_foldl_keys (Spec.metric_names_of functions) metrics.metric_names
      (metrics.metric_names.map Prod.fst) hkeys (fun _ => Iff.rfl)).1
  · refine (List.Perm.nodup_iff hdense).mpr ?_
    exact List.Nodup.map (fun a b h => by exact_mod_cast h) (List.nodup_range _)
  · intro name id h
    exact names_step_foldl_find _ h

/-- C25 at a concrete call: from the names "INTEGER.ADD3" -> 1 and "X" -> 0, analysing
`LDG` and `IADD3` gives the new name the id 2 and keeps the two ids. -/
theorem analyze_dense_ids_witness :
    (analyze [⟨[⟨[⟨0, "LDG".toList, [], [], [], .INS_TYPE_MEMORY⟩,
        ⟨8, "IADD3".toList, [], [], [], .INS_TYPE_INTEGER⟩]⟩]⟩]
      ⟨[("INTEGER.ADD3".toList, 1), ("X".toList, 0)], []⟩).metric_names =
      [("INTEGER.ADD3".toList, 1), ("X".toList, 0), ("MEMORY.LOAD.GLOBAL.32".toList, 2)] ∧
    Spec.dense_ids (analyze [⟨[⟨[⟨0, "LDG".toList, [], [], [], .INS_TYPE_MEMORY⟩,
        ⟨8, "IADD3".toList, [], [], [], .INS_TYPE_INTEGER⟩]⟩]⟩]
      ⟨[("INTEGER.ADD3".toList, 1), ("X".toList, 0)], []⟩).metric_names :=
  ⟨by decide,
   (analyze_dense_ids _ ⟨[("INTEGER.ADD3".toList, 1), ("X".toList, 0)], []⟩ (by decide)
    (by decide)).2.1⟩

/-! ## Source registers -/

theorem srcs_step_foldl (operands : List (List Char)) (srcs : List Int) :
    operands.foldl srcs_step srcs =
      srcs ++ (operands.filter (fun op => decide ('R' ∈ op))).map
        (fun op => (find_reg op ['R']).getD (-1)) := by
  induction operands generalizing srcs with
  | nil => simp
  | cons op ops ih =>
    rw [List.foldl_cons, ih]
    have hstep : srcs_step srcs op =
        if 'R' ∈ op then srcs ++ [(find_reg op ['R']).getD (-1)] else srcs := by
      unfold srcs_step
      have : find_reg op "R".toList = find_reg op ['R'] := rfl
      rw [this, find_reg_eq]
      by_cases h : 'R' ∈ op
      · simp only [h, if_true, Option.getD_some]
      · simp only [h, if_false]
    rw [hstep]
    by_cases h : 'R' ∈ op
    · rw [if_pos h, List.filter_cons_of_pos (by simpa using h)]
      simp
    · rw [if_neg h, List.filter_cons_of_neg (by simpa using h)]

theorem find_reg_register_after (s : List Char) (hR : 'R' ∈ s)
    (h9 : (Spec.digit_run 'R' s).length ≤ 9) :
    (find_reg s ['R']).getD (-1) = Spec.register_after 'R' s := by
  rw [find_reg_value 'R' s h9]
  unfold Spec.register_after
  by_cases hrun : Spec.digit_run 'R' s = []
  · rw [if_neg (by simp [hrun]), if_pos hrun]
  · rw [if_pos ⟨hR, hrun⟩, if_neg hrun]

/-- C26: the srcs of an InstructionStat hold exactly one entry for each operand at
position 1 or later that contains 'R', in operand order; the operand at position 0 and
the operands without 'R' give no entry, so the length of srcs is the number of operands
after the first that contain 'R'; the entry is the register decoded after the first 'R':
the decimal value of the digits that follow (runs of at most nine digits), -1 when no
digit follows. -/
theorem srcs_of_operands (inst : Instruction) :
    (InstructionStat.ofInstruction inst).srcs =
      (inst.operands.tail.filter (fun op => decide ('R' ∈ op))).map
        (fun op => (find_reg op ['R']).getD (-1)) ∧
    (InstructionStat.ofInstruction inst).srcs.length =
      inst.operands.tail.countP (fun op => decide ('R' ∈ op)) ∧
    ((∀ op ∈ inst.operands.tail, (Spec.digit_run 'R' op).length ≤ 9) →
      (InstructionStat.ofInstruction inst).srcs =
        (inst.operands.tail.filter (fun op => decide ('R' ∈ op))).map
          (Spec.register_after 'R')) := by
  have h : (InstructionStat.ofInstruction inst).srcs =
      (inst.operands.tail.filter (fun op => decide ('R' ∈ op))).map
        (fun op => (find_reg op ['R']).getD (-1)) := by
    unfold InstructionStat.ofInstruction
    cases inst.operands with
    | nil => rfl
    | cons op0 ops =>
      simp only [List.tail_cons]
      rw [srcs_step_foldl, List.nil_append]
  refine ⟨h, ?_, ?_⟩
  · rw [h, List.length_map, List.countP_eq_length_filter]
  · intro h9
    rw [h]
    apply List.map_congr_left
    intro op hop
    have hmem := List.mem_filter.mp hop
    exact find_reg_register_after op (by simpa using hmem.2) (h9 op hmem.1)

/-- C26 at a concrete instruction: of the operands "R12", "RZ", "R7.X", "0x1", "c[R3]"
the first is the destination, "0x1" has no 'R', and srcs is -1, 7, 3. -/
theorem srcs_of_operands_witness :
    (InstructionStat.ofInstruction ⟨4, "IADD3".toList, [],
        ["R12".toList, "RZ".toList, "R7.X".toList, "0x1".toList, "c[R3]".toList], [],
        .INS_TYPE_INTEGER⟩).srcs = [-1, 7, 3] :=
  (srcs_of_operands ⟨4, "IADD3".toList, [],
    ["R12".toList, "RZ".toList, "R7.X".toList, "0x1".toList, "c[R3]".toList], [],
    .INS_TYPE_INTEGER⟩).2.2 (by decide)

/-! ## The scan of `convert_reg` -/

theorem charAt_of_drop_nil (str : List Char) (pos : Nat) (h : str.drop pos = []) :
    charAt str pos = Char.ofNat 0 := by
  unfold charAt
  have hlen : str.length ≤ pos := List.drop_eq_nil_iff.mp h
  rw [List.getD_eq_getElem?_getD, List.getElem?_eq_none hlen]
  rfl

theorem charAt_of_drop_cons (str : List Char) (pos : Nat) (c : Char) (rest : List Char)
    (h : str.drop pos = c :: rest) : charAt str pos = c ∧ str.drop (pos + 1) = rest := by
  have hlt : pos < str.length := by
    by_contra hge
    have : str.drop pos = [] := List.drop_eq_nil_iff.mpr (by omega)
    rw [this] at h
    cases h
  rw [List.drop_eq_getElem_cons hlt] at h
  obtain ⟨h1, h2⟩ := List.cons.inj h
  refine ⟨?_, h2⟩
  unfold charAt
  rw [List.getD_eq_getElem?_getD, List.getElem?_eq_getElem hlt]
  exact h1

/-- With more fuel than digits to pass, the scan ends: it gives what `convert_reg_loop`
gives on the rest of the string, having inspected the positions of the digits and the one
after them. -/
theorem convert_reg_scan_eq (str : List Char) (fuel : Nat) :
    ∀ (pos : Nat) (num : Int) (fd : Bool) (seen : List Nat),
      ((str.drop pos).takeWhile Char.isDigit).length < fuel →
      convert_reg_scan str fuel pos num fd seen =
        some ((convert_reg_loop (str.drop pos) num fd).1,
          (convert_reg_loop (str.drop pos) num fd).2,
          seen ++ List.range' pos (((str.drop pos).takeWhile Char.isDigit).length + 1)) := by
  induction fuel with
  | zero => intro pos num fd seen h; omega
  | succ fuel ih =>
    intro pos num fd seen h
    rw [convert_reg_scan]
    cases hd : str.drop pos with
    | nil =>
      have hc := charAt_of_drop_nil str pos hd
      have hnot : isdigit (charAt str pos) = false := by rw [hc]; decide
      rw [hnot]
      simp [convert_reg_loop, List.range']
    | cons c rest =>
      obtain ⟨hc, hrest⟩ := charAt_of_drop_cons str pos c rest hd
      rw [hc]
      by_cases hdig : c.isDigit = true
      · have hdig2 : isdigit c = true := hdig
        rw [hd, List.takeWhile_cons_of_pos hdig, List.length_cons] at h
        rw [hdig2, if_pos rfl, ih (pos + 1) _ true (seen ++ [pos]) (by rw [hrest]; omega),
          hrest, convert_reg_loop, hdig2, if_pos rfl, List.takeWhile_cons_of_pos hdig,
          List.length_cons]
        simp [List.range'_succ]
      · have hdig2 : isdigit c = false := by simpa [isdigit] using hdig
        rw [hdig2, convert_reg_loop, hdig2, List.takeWhile_cons_of_neg hdig]
        simp [List.range']

theorem findFrom_lt (sub : List Char) (hne : sub ≠ []) (s : List Char) (i j : Nat)
    (h : findFrom sub s i = some j) : j < i + s.length := by
  induction s generalizing i with
  | nil =>
    cases sub with
    | nil => exact absurd rfl hne
    | cons c cs => simp [findFrom, List.isPrefixOf] at h
  | cons c cs ih =>
    rw [findFrom] at h
    split_ifs at h
    · cases h
      simp
    · have := ih (i + 1) h
      simp only [List.length_cons]
      omega

/-- C29: for every string and every start position within it (the length included), the
scan of `convert_reg` ends after at most length - pos + 1 character inspections, whatever
fuel beyond that it is given, never inspects a position greater than the length (the
position equal to the length holds the terminating null, no digit), and gives the value
of `convert_reg`; the constructor of InstructionStat starts every scan within the string,
right after a marker it found, so building an InstructionStat ends for every
instruction. -/
theorem convert_reg_in_bounds (str : List Char) (pos : Nat) (hpos : pos ≤ str.length) :
    (∃ (num : Int) (find_digit : Bool) (seen : List Nat),
      (∀ fuel, str.length - pos + 1 ≤ fuel →
        convert_reg_scan str fuel pos 0 false [] = some (num, find_digit, seen)) ∧
      seen.length ≤ str.length - pos + 1 ∧
      (∀ p ∈ seen, p ≤ str.length) ∧
      convert_reg str pos = if find_digit then num else -1) ∧
    isdigit (charAt str str.length) = false ∧
    (∀ (s marker : List Char) (found_at : Nat),
      marker ≠ [] → find s marker = some found_at → found_at + 1 ≤ s.length) := by
  have hrun : ((str.drop pos).takeWhile Char.isDigit).length ≤ str.length - pos := by
    calc ((str.drop pos).takeWhile Char.isDigit).length
        ≤ (str.drop pos).length := (List.takeWhile_sublist _).length_le
      _ = str.length - pos := List.length_drop pos str
  refine ⟨⟨(convert_reg_loop (str.drop pos) 0 false).1,
    (convert_reg_loop (str.drop pos) 0 false).2,
    [] ++ List.range' pos (((str.drop pos).takeWhile Char.isDigit).length + 1),
    fun fuel hfuel => ?_, ?_, ?_, ?_⟩, ?_, ?_⟩
  · rw [convert_reg_scan_eq str fuel pos 0 false [] (by omega)]
  · simp only [List.nil_append, List.length_range']
    omega
  · intro p hp
    simp only [List.nil_append, List.mem_range'_1] at hp
    omega
  · rfl
  · rw [charAt_of_drop_nil str str.length (List.drop_length str)]
    decide
  · intro s marker found_at hne hfind
    have := findFrom_lt marker hne s 0 found_at hfind
    omega

/-- C29 at the string "R12" scanned from position 1: at most three inspections, none
beyond position 3, where the terminating null stands. -/
theorem convert_reg_in_bounds_witness :
    (∃ (num : Int) (find_digit : Bool) (seen : List Nat),
      (∀ fuel, "R12".toList.length - 1 + 1 ≤ fuel →
        convert_reg_scan "R12".toList fuel 1 0 false [] = some (num, find_digit, seen)) ∧
      seen.length ≤ "R12".toList.length - 1 + 1 ∧
      (∀ p ∈ seen, p ≤ "R12".toList.length) ∧
      convert_reg "R12".toList 1 = if find_digit then num else -1) ∧
    isdigit (charAt "R12".toList "R12".toList.length) = false :=
  ⟨(convert_reg_in_bounds "R12".toList 1 (by decide)).1,
   (convert_reg_in_bounds "R12".toList 1 (by decide)).2.1⟩

/-! ## Dense files read back, whatever the records -/

theorem first_line_of_single (text : List Char) (h : '\n' ∉ text) :
    (Spec.lines text)[0]?.getD [] = text := by
  unfold Spec.lines
  cases text with
  | nil => rfl
  | cons c cs =>
    rw [getlines_last '\n' (c :: cs) (List.cons_ne_nil c cs) h]
    rfl

/-- Reading, with the sparse flag clear, the file that `dump` wrote with the flag clear:
the metric names are read first, then the records one after the other, up to the first
one on which `std::stoi` throws. -/
theorem read_dump_dense (fresh : InstructionStat) (m : InstructionMetrics)
    (hne : m.metric_names ≠ [])
    (hnames : ∀ e ∈ m.metric_names, Spec.plain_name e.1 ∧ Spec.is_int e.2) :
    read fresh (dump true m false).2 ⟨[], []⟩ false =
      match read_stats_loop fresh [] (m.inst_stats.map inst_stat_text) with
      | (some e, inst_stats) =>
        (.thrown e,
          ⟨m.metric_names.foldl (fun mm e => map_assign mm ("MIX:".toList ++ e.1) e.2) [],
            inst_stats⟩)
      | (none, inst_stats) =>
        (.returned true,
          ⟨m.metric_names.foldl (fun mm e => map_assign mm ("MIX:".toList ++ e.1) e.2) [],
            inst_stats⟩) := by
  have hnl : '\n' ∉ concat_map (fun e => metric_name_text e ++ ['#']) m.metric_names :=
    not_mem_concat_map_sep _ _ _ _ (by decide) (fun e he =>
      metric_name_text_not_mem e '\n' (hnames e he).1.2.2
        ⟨by decide, by decide, by decide, by decide, by decide⟩)
  have hnl2 : '\n' ∉ concat_map (fun s => inst_stat_text s ++ ['#']) m.inst_stats :=
    not_mem_concat_map_sep _ _ _ _ (by decide) (fun s _ =>
      inst_stat_text_not_mem s '\n'
        ⟨by decide, by decide, by decide, by decide, by decide, by decide⟩)
  have hnames_split : getlines '#'
      (concat_map (fun e => metric_name_text e ++ ['#']) m.metric_names) =
      m.metric_names.map metric_name_text := by
    have := getlines_concat_map '#' metric_name_text m.metric_names [] (fun e he =>
      metric_name_text_not_mem e '#' (hnames e he).1.2.1
        ⟨by decide, by decide, by decide, by decide, by decide⟩)
    simpa [getlines] using this
  have hstats_split : getlines '#'
      (concat_map (fun s => inst_stat_text s ++ ['#']) m.inst_stats) =
      m.inst_stats.map inst_stat_text := by
    have := getlines_concat_map '#' inst_stat_text m.inst_stats [] (fun s _ =>
      inst_stat_text_not_mem s '#'
        ⟨by decide, by decide, by decide, by decide, by decide, by decide⟩)
    simpa [getlines] using this
  have hnames_read := read_names_entries m.metric_names []
    (fun e he => ⟨(hnames e he).1.1, (hnames e he).2⟩)
  have hsep : Spec.sep false = '#' := rfl
  have hl2 : Spec.lines ("<inst stats>".toList ++ '\n' ::
      concat_map (fun s => inst_stat_text s ++ ['#']) m.inst_stats) =
      "<inst stats>".toList ::
        Spec.lines (concat_map (fun s => inst_stat_text s ++ ['#']) m.inst_stats) := by
    unfold Spec.lines
    rw [getlines_append '\n' _ _ (by decide)]
  rw [dump_content m hne false]
  simp only [Bool.false_eq_true, if_false]
  rw [read_by_lines, lines_dump_dense, if_neg hnl, hl2]
  simp only [List.getElem?_cons_succ, List.getElem?_cons_zero, Option.getD_some, hsep,
    hnames_split, hnames_read, ne_eq, not_true_eq_false, if_false,
    first_line_of_single _ hnl2, hstats_split]

/-! ## Source registers read as a metric entry -/

theorem comma_not_mem_src_texts (srcs : List Int) : ',' ∉ concat_map src_text srcs := by
  rw [mem_concat_map]
  rintro ⟨x, _, hx⟩
  unfold src_text at hx
  split_ifs at hx
  · rw [List.mem_append] at hx
    rcases hx with hx | hx
    · exact comma_not_mem_int _ hx
    · revert hx; decide
  · cases hx

/-- The fields of a dumped record, whatever its source registers. -/
theorem getlines_inst_stat_text_any (s : InstructionStat) :
    getlines ',' (inst_stat_text s) =
      ("(".toList ++ int_to_chars s.pc) ::
        (if s.predicate ≠ -1 then int_to_chars s.predicate else []) ::
        (if s.dst ≠ -1 then int_to_chars s.dst else []) ::
        concat_map src_text s.srcs ::
        (s.stat.map stat_text ++ [")".toList]) := by
  unfold inst_stat_text
  rw [getlines_append ',' _ _ (by
      intro hmem
      rw [List.mem_append] at hmem
      rcases hmem with h | h
      · revert h; decide
      · exact comma_not_mem_int _ h),
    getlines_append ',' _ _ (optional_int_skippable _ _).2.2,
    getlines_append ',' _ _ (optional_int_skippable _ _).2.2,
    getlines_append ',' _ _ (comma_not_mem_src_texts s.srcs),
    getlines_concat_map ',' stat_text s.stat _ (by
      intro it _ hmem
      unfold stat_text at hmem
      simp only [List.mem_append] at hmem
      rcases hmem with (h | h) | h
      · exact comma_not_mem_int _ h
      · revert h; decide
      · exact comma_not_mem_int _ h)]
  rfl

theorem concat_map_src_text_two (srcs : List Int) (s1 s2 : Int)
    (h : srcs.filter (fun s => s ≠ -1) = [s1, s2]) :
    concat_map src_text srcs = int_to_chars s1 ++ ':' :: (int_to_chars s2 ++ [':']) := by
  rw [concat_map_src_text]
  unfold Spec.sources_text
  rw [h, int_to_chars_eq_decimal, int_to_chars_eq_decimal]
  simp

/-- The field of two source registers, "s1:s2:", is entered into `stat` as the pair
s1 -> s2: the text after the first colon is parsed up to the second one. -/
theorem read_fields_two_sources (st : InstructionStat) (s1 s2 : Int)
    (rest : List (List Char)) (h1 : Spec.is_int s1) (h2 : Spec.is_int s2) :
    read_fields_loop false st ((int_to_chars s1 ++ ':' :: (int_to_chars s2 ++ [':'])) :: rest) =
      read_fields_loop false { st with stat := map_assign st.stat s1 s2 } rest := by
  rw [read_fields_loop]
  have hne : int_to_chars s1 ++ ':' :: (int_to_chars s2 ++ [':']) ≠ ")".toList := by
    intro e
    have : ':' ∈ int_to_chars s1 ++ ':' :: (int_to_chars s2 ++ [':']) := by simp
    rw [e] at this
    revert this
    decide
  have hfind : find (int_to_chars s1 ++ ':' :: (int_to_chars s2 ++ [':'])) ":".toList =
      some (int_to_chars s1).length :=
    find_singleton_append ':' _ _ (colon_not_mem_int s1)
  have hlen : (int_to_chars s1 ++ ':' :: (int_to_chars s2 ++ [':'])).length =
      (int_to_chars s1).length + 1 + ((int_to_chars s2).length + 1) := by
    simp; omega
  have hsz : size_sub (size_sub (int_to_chars s1 ++ ':' :: (int_to_chars s2 ++ [':'])).length
      (int_to_chars s1).length) 1 = (int_to_chars s2).length + 1 := by
    rw [hlen]
    exact size_sub_sub _ _
  have hid : substr (int_to_chars s1 ++ ':' :: (int_to_chars s2 ++ [':'])) 0
      (int_to_chars s1).length = int_to_chars s1 := by
    unfold substr
    rw [List.drop_zero, take_length_append]
  have hcount : substr (int_to_chars s1 ++ ':' :: (int_to_chars s2 ++ [':']))
      ((int_to_chars s1).length + 1) ((int_to_chars s2).length + 1) =
      int_to_chars s2 ++ [':'] := by
    unfold substr
    rw [drop_length_succ_append]
    have : (int_to_chars s2).length + 1 = (int_to_chars s2 ++ [':']).length := by simp
    rw [this, List.take_length]
  have hstoi : stoi (int_to_chars s2 ++ [':']) = .ok s2 :=
    stoi_int_to_chars s2 h2.1 h2.2 [':'] (by
      intro c hc
      simp only [List.head?_cons, Option.some.injEq] at hc
      rw [← hc]
      decide)
  simp only [hne, if_false, Bool.false_eq_true, hfind, hsz, hid, hcount, hstoi,
    stoi_int_to_chars_exact s1 h1]

/-- Reading the fields of a dumped record with two source registers s1, s2 and the single
stat entry mid -> 1: the record read has the pairs s1 -> s2 and mid -> 1. -/
theorem read_fields_two_sources_record (fresh r : InstructionStat) (s1 s2 mid : Int)
    (hfresh : fresh.stat = []) (hpc : Spec.is_int r.pc)
    (hsrcs : r.srcs.filter (fun s => s ≠ -1) = [s1, s2])
    (hs1 : Spec.is_int s1) (hs2 : Spec.is_int s2)
    (hstat : r.stat = [(mid, 1)]) (hmid : Spec.is_int mid) (hne : mid ≠ s1) :
    read_fields_loop true fresh (getlines ',' (inst_stat_text r)) =
      .ok { fresh with pc := r.pc, stat := [(s1, s2), (mid, 1)] } := by
  rw [getlines_inst_stat_text_any r, concat_map_src_text_two r.srcs s1 s2 hsrcs,
    read_fields_first fresh r.pc _ hpc,
    read_fields_skip _ _ _ (optional_int_skippable _ _).1 (optional_int_skippable _ _).2.1,
    read_fields_skip _ _ _ (optional_int_skippable _ _).1 (optional_int_skippable _ _).2.1,
    read_fields_two_sources _ s1 s2 _ hs1 hs2, hstat,
    read_fields_pairs [(mid, 1)] _ (by
      intro it hit
      rw [List.mem_singleton] at hit
      rw [hit]
      exact ⟨hmid, ⟨by norm_num, by norm_num⟩⟩)]
  have hs : s1 ≠ mid := fun e => hne e.symm
  simp [hfresh, map_assign, hs]

theorem read_stats_loop_length (fresh : InstructionStat) (toks : List (List Char))
    (acc : List InstructionStat) (h : (read_stats_loop fresh acc toks).1 = none) :
    (read_stats_loop fresh acc toks).2.length = acc.length + toks.length := by
  induction toks generalizing acc with
  | nil => rfl
  | cons t toks ih =>
    rw [read_stats_loop] at h ⊢
    cases hf : read_fields_loop true fresh (getlines ',' t) with
    | error e => simp [hf] at h
    | ok rec =>
      simp only [hf] at h ⊢
      rw [ih _ h]
      simp
      omega

/-- C27 fails as worded: the aggregate `analyze` builds for `IADD3 R1, R2, 0x1` followed
by `IADD3 R1, R2, R3` has as second record pc 16, the two source registers 2 and 3 and the
single stat entry 0 -> 1 (0 different from 2); `dump` (sparse clear) writes the first
record with the source field "2:", on which `read` (sparse clear) ends in
std::invalid_argument (`std::stoi` of the empty count) before it reaches the second
record: the aggregate read has no record at all, none for pc 16, none whose stat
maps 2 to 3. -/
theorem read_sources_as_metric_entry_counterexample :
    analyze [⟨[⟨[⟨0, "IADD3".toList, [], ["R1".toList, "R2".toList, "0x1".toList], [],
        .INS_TYPE_INTEGER⟩,
      ⟨16, "IADD3".toList, [], ["R1".toList, "R2".toList, "R3".toList], [],
        .INS_TYPE_INTEGER⟩]⟩]⟩] ⟨[], []⟩ = Spec.one_then_two_sources_metrics ∧
    Spec.one_then_two_sources_metrics.inst_stats[1]? =
      some ⟨16, -1, 1, [2, 3], [(0, 1)]⟩ ∧
    (dump true Spec.one_then_two_sources_metrics false).1 = true ∧
    (dump true Spec.one_then_two_sources_metrics false).2 = some
      "<metric names>\n(INTEGER.ADD3,0)#\n<inst stats>\n(0,,1,2:,0:1,)#(16,,1,2:3:,0:1,)#".toList ∧
    (read (InstructionStat.fresh 0 (-1) (-1))
      (dump true Spec.one_then_two_sources_metrics false).2 ⟨[], []⟩ false).1 =
      .thrown .invalid_argument ∧
    (read (InstructionStat.fresh 0 (-1) (-1))
      (dump true Spec.one_then_two_sources_metrics false).2 ⟨[], []⟩ false).2.inst_stats =
      [] ∧
    (read (InstructionStat.fresh 0 (-1) (-1))
      (dump true Spec.one_then_two_sources_metrics false).2 ⟨[], []⟩
      false).2.inst_stats[1]? = none ∧
    ¬ ∃ rec ∈ (read (InstructionStat.fresh 0 (-1) (-1))
      (dump true Spec.one_then_two_sources_metrics false).2 ⟨[], []⟩ false).2.inst_stats,
      map_find rec.stat 2 = some 3 := by
  decide

/-- C27 (amended): the reader takes the source-register field of a dumped record for a
metric entry, when it reaches the record: for an aggregate with at least one metric name,
names free of ',', '#' and newline with ids that fit an `int`, and a record of it with pc
p, exactly two non-none source registers s1 and s2 and the single stat entry mid -> 1,
mid different from s1 (all four within `int`), such that the records before it are read
without exception, `read` (sparse clear) of the file `dump` (sparse clear) wrote yields
at the index of that record the pc p and a stat mapping of exactly two entries,
s1 -> s2 and mid -> 1. -/
theorem read_sources_as_metric_entry (pc0 p0 d0 : Int) (m : InstructionMetrics)
    (pre post : List InstructionStat) (r : InstructionStat) (s1 s2 mid : Int)
    (hne : m.metric_names ≠ [])
    (hnames : ∀ e ∈ m.metric_names, Spec.plain_name e.1 ∧ Spec.is_int e.2)
    (hstats : m.inst_stats = pre ++ r :: post)
    (hpre : (read_stats_loop (InstructionStat.fresh pc0 p0 d0) []
      (pre.map inst_stat_text)).1 = none)
    (hpc : Spec.is_int r.pc)
    (hsrcs : r.srcs.filter (fun s => s ≠ -1) = [s1, s2])
    (hs1 : Spec.is_int s1) (hs2 : Spec.is_int s2)
    (hstat : r.stat = [(mid, 1)]) (hmid : Spec.is_int mid) (hdiff : mid ≠ s1) :
    ∃ rec : InstructionStat,
      (read (InstructionStat.fresh pc0 p0 d0) (dump true m false).2 ⟨[], []⟩
        false).2.inst_stats[pre.length]? = some rec ∧
      rec.pc = r.pc ∧ map_find rec.stat s1 = some s2 ∧ map_find rec.stat mid = some 1 ∧
      rec.stat.length = 2 := by
  have hres : (read (InstructionStat.fresh pc0 p0 d0) (dump true m false).2 ⟨[], []⟩
      false).2.inst_stats =
      (read_stats_loop (InstructionStat.fresh pc0 p0 d0) []
        (m.inst_stats.map inst_stat_text)).2 := by
    rw [read_dump_dense _ m hne hnames]
    rcases hs : read_stats_loop (InstructionStat.fresh pc0 p0 d0) []
        (m.inst_stats.map inst_stat_text) with ⟨ex, stats⟩
    cases ex <;> rfl
  have hfields := read_fields_two_sources_record (InstructionStat.fresh pc0 p0 d0) r s1 s2 mid
    rfl hpc hsrcs hs1 hs2 hstat hmid hdiff
  have hlen := read_stats_loop_length _ _ _ hpre
  obtain ⟨recs, hrecs⟩ := read_stats_loop_append (InstructionStat.fresh pc0 p0 d0)
    (post.map inst_stat_text)
    ((read_stats_loop (InstructionStat.fresh pc0 p0 d0) [] (pre.map inst_stat_text)).2 ++
      [{ InstructionStat.fresh pc0 p0 d0 with pc := r.pc, stat := [(s1, s2), (mid, 1)] }])
  refine ⟨{ InstructionStat.fresh pc0 p0 d0 with pc := r.pc, stat := [(s1, s2), (mid, 1)] },
    ?_, rfl, ?_, ?_, rfl⟩
  · rw [hres, hstats, List.map_append, List.map_cons,
      read_stats_loop_append_tokens _ _ _ _ hpre, read_stats_loop]
    simp only [hfields]
    rw [hrecs, List.append_assoc, List.singleton_append]
    simp only [List.length_nil, List.length_map, zero_add] at hlen
    rw [← hlen, List.getElem?_append_right (le_refl _), Nat.sub_self]
    exact List.getElem?_cons_zero
  · simp [map_find]
  · have hs : s1 ≠ mid := fun e => hdiff e.symm
    simp [map_find, hs]

/-- C27 (amended) at the record of `IADD3 R1, R2, R3` (sources 2 and 3, metric id 0), second in its
aggregate: read back, its stat maps 2 to 3 and 0 to 1. -/
theorem read_sources_as_metric_entry_witness :
    ∃ rec : InstructionStat,
      (read (InstructionStat.fresh 0 0 0) (dump true Spec.two_sources_metrics false).2
        ⟨[], []⟩ false).2.inst_stats[1]? = some rec ∧
      rec.pc = 8 ∧ map_find rec.stat 2 = some 3 ∧ map_find rec.stat 0 = some 1 ∧
      rec.stat.length = 2 :=
  read_sources_as_metric_entry 0 0 0 Spec.two_sources_metrics [⟨0, -1, 1, [], [(0, 1)]⟩] []
    ⟨8, -1, 1, [2, -1, 3], [(0, 1)]⟩ 2 3 0 (by decide) (by decide) rfl (by decide)
    (by decide) (by decide) (by decide) (by decide) rfl (by decide) (by decide)

/-! ## Several pairs in one record, and the restricted round trip -/

theorem two_pair_record_eq (pc a b c d : Int) :
    Spec.two_pair_record pc a b c d =
      inst_stat_text ⟨pc, -1, -1, [], [(a, b), (c, d)]⟩ := by
  unfold Spec.two_pair_record inst_stat_text stat_text concat_map
  simp only [int_to_chars_eq_decimal]
  simp [String.toList]

/-- C24: the reader accepts several metric-id:count pairs in one record: for a file with
both headers in place whose metric-name line is read without exception and whose
inst-stats line holds the record "(pc,,,,a:b,c:d,)" (followed by '#' or not), a different
from c, `read` with the sparse flag clear succeeds and appends one InstructionStat with
that pc whose stat maps a to b and c to d and has no other entry. -/
theorem read_two_pairs (pc0 p0 d0 : Int) (content : List Char) (metrics : InstructionMetrics)
    (pc a b c d : Int) (tail : List Char)
    (hpc : Spec.is_int pc) (ha : Spec.is_int a) (hb : Spec.is_int b) (hc : Spec.is_int c)
    (hd : Spec.is_int d) (hac : a ≠ c)
    (h0 : (Spec.lines content)[0]? = some "<metric names>".toList)
    (hn : (read_names_loop metrics.metric_names
      (getlines '#' ((Spec.lines content)[1]?.getD []))).1 = none)
    (h2 : (Spec.lines content)[2]? = some "<inst stats>".toList)
    (h3 : (Spec.lines content)[3]? = some (Spec.two_pair_record pc a b c d ++ tail))
    (htail : tail = [] ∨ tail = ['#']) :
    (read (InstructionStat.fresh pc0 p0 d0) (some content) metrics false).1 =
      .returned true ∧
    (read (InstructionStat.fresh pc0 p0 d0) (some content) metrics false).2.inst_stats =
      metrics.inst_stats ++ [⟨pc, p0, d0, [], [(a, b), (c, d)]⟩] ∧
    map_find [(a, b), (c, d)] a = some b ∧ map_find [(a, b), (c, d)] c = some d := by
  have hne_hash : '#' ∉ Spec.two_pair_record pc a b c d := by
    rw [two_pair_record_eq]
    exact inst_stat_text_not_mem _ '#'
      ⟨by decide, by decide, by decide, by decide, by decide, by decide⟩
  have hne_nil : Spec.two_pair_record pc a b c d ≠ [] := by
    unfold Spec.two_pair_record; simp
  have htoks : getlines (Spec.sep false) (Spec.two_pair_record pc a b c d ++ tail) =
      [inst_stat_text ⟨pc, -1, -1, [], [(a, b), (c, d)]⟩] := by
    rw [← two_pair_record_eq]
    rcases htail with ht | ht
    · rw [ht, List.append_nil]
      exact getlines_last '#' _ hne_nil hne_hash
    · rw [ht]
      exact getlines_append '#' _ [] hne_hash
  have hplain : ∀ s ∈ [(⟨pc, -1, -1, [], [(a, b), (c, d)]⟩ : InstructionStat)],
      Spec.plain_stat s := by
    intro s hs
    rw [List.mem_singleton] at hs
    rw [hs]
    refine ⟨hpc, by simp, ?_, ?_⟩
    · intro it hit
      simp only [List.mem_cons, List.mem_singleton, List.not_mem_nil, or_false] at hit
      rcases hit with hit | hit
      · rw [hit]; exact ⟨ha, hb⟩
      · rw [hit]; exact ⟨hc, hd⟩
    · simp [hac]
  have hloop := read_stats_records (InstructionStat.fresh pc0 p0 d0) rfl
    [⟨pc, -1, -1, [], [(a, b), (c, d)]⟩] metrics.inst_stats hplain
  have hmain : read (InstructionStat.fresh pc0 p0 d0) (some content) metrics false =
      (.returned true,
        ⟨(read_names_loop metrics.metric_names
            (getlines '#' ((Spec.lines content)[1]?.getD []))).2,
          metrics.inst_stats ++ [⟨pc, p0, d0, [], [(a, b), (c, d)]⟩]⟩) := by
    rw [read_by_lines, if_neg (by rw [h0]; simp)]
    have hsep : Spec.sep false = '#' := rfl
    rcases hl : read_names_loop metrics.metric_names
        (getlines '#' ((Spec.lines content)[1]?.getD [])) with ⟨ex, names⟩
    rw [hl] at hn
    simp only at hn
    subst hn
    rw [hsep, hl]
    simp only
    rw [if_neg (by rw [h2]; simp), h3, Option.getD_some, ← hsep, htoks]
    simp only [List.map_cons, List.map_nil] at hloop
    rw [hloop]
    rfl
  rw [hmain]
  refine ⟨rfl, rfl, ?_, ?_⟩
  · simp [map_find]
  · simp [map_find, hac]

/-- C24 at a file with the record "(16,,,,3:4,5:6,)". -/
theorem read_two_pairs_witness :
    (read (InstructionStat.fresh 0 0 0) (some Spec.two_pair_file) ⟨[], []⟩ false).1 =
      .returned true ∧
    (read (InstructionStat.fresh 0 0 0) (some Spec.two_pair_file) ⟨[], []⟩ false).2.inst_stats =
      [] ++ [⟨16, 0, 0, [], [(3, 4), (5, 6)]⟩] ∧
    map_find [((3 : Int), (4 : Int)), (5, 6)] 3 = some 4 ∧
    map_find [((3 : Int), (4 : Int)), (5, 6)] 5 = some 6 :=
  read_two_pairs 0 0 0 Spec.two_pair_file ⟨[], []⟩ 16 3 4 5 6 ['#'] (by decide) (by decide)
    (by decide) (by decide) (by decide) (by decide) (by decide) (by decide) (by decide)
    (by decide) (Or.inr rfl)

/-- C28: restricted round trip: for an aggregate with at least one metric name, names free
of ',', '#' and newline, whose InstructionStats have no non-none source register and have
pc, ids and counts that are non-negative and fit an `int`, `read` (sparse clear) of the
file `dump` (sparse clear) wrote, into a fresh aggregate, succeeds and yields inst_stats of
the same length in which the i-th record has the pc and the stat mapping of the i-th
original record. -/
theorem restricted_round_trip (pc0 p0 d0 : Int) (m : InstructionMetrics)
    (hne : m.metric_names ≠ [])
    (hnames : ∀ e ∈ m.metric_names, Spec.plain_name e.1 ∧ Spec.is_int e.2)
    (hsrcs : ∀ s ∈ m.inst_stats, ∀ src ∈ s.srcs, src = -1)
    (hpc : ∀ s ∈ m.inst_stats, 0 ≤ s.pc ∧ s.pc ≤ 2147483647)
    (hstat : ∀ s ∈ m.inst_stats, ∀ it ∈ s.stat,
      (0 ≤ it.1 ∧ it.1 ≤ 2147483647) ∧ (0 ≤ it.2 ∧ it.2 ≤ 2147483647))
    (hmap : ∀ s ∈ m.inst_stats, (s.stat.map Prod.fst).Nodup) :
    (read (InstructionStat.fresh pc0 p0 d0) (dump true m false).2 ⟨[], []⟩ false).1 =
      .returned true ∧
    (read (InstructionStat.fresh pc0 p0 d0) (dump true m false).2 ⟨[], []⟩
      false).2.inst_stats.length = m.inst_stats.length ∧
    (∀ (i : Nat) (rec orig : InstructionStat),
      (read (InstructionStat.fresh pc0 p0 d0) (dump true m false).2 ⟨[], []⟩
        false).2.inst_stats[i]? = some rec →
      m.inst_stats[i]? = some orig → rec.pc = orig.pc ∧ rec.stat = orig.stat) := by
  have hplain : ∀ s ∈ m.inst_stats, Spec.plain_stat s := by
    intro s hs
    refine ⟨⟨by have := (hpc s hs).1; omega, (hpc s hs).2⟩, hsrcs s hs, ?_, hmap s hs⟩
    intro it hit
    have := hstat s hs it hit
    exact ⟨⟨by omega, this.1.2⟩, ⟨by omega, this.2.2⟩⟩
  have hloop := read_stats_records (InstructionStat.fresh pc0 p0 d0) rfl m.inst_stats []
    hplain
  rw [read_dump_dense _ m hne hnames, hloop]
  refine ⟨rfl, by simp, ?_⟩
  intro i rec orig hrec horig
  simp only [List.nil_append, List.getElem?_map, horig, Option.map_some',
    Option.some.injEq] at hrec
  rw [← hrec]
  exact ⟨rfl, rfl⟩

/-- C28 at an aggregate with two metric names and three records, two with equal pc. -/
theorem restricted_round_trip_witness :
    (read (InstructionStat.fresh 0 0 0) (dump true Spec.plain_metrics false).2 ⟨[], []⟩
      false).1 = .returned true ∧
    (read (InstructionStat.fresh 0 0 0) (dump true Spec.plain_metrics false).2 ⟨[], []⟩
      false).2.inst_stats.length = Spec.plain_metrics.inst_stats.length :=
  ⟨(restricted_round_trip 0 0 0 Spec.plain_metrics (by decide) (by decide) (by decide)
      (by decide) (by decide) (by decide)).1,
   (restricted_round_trip 0 0 0 Spec.plain_metrics (by decide) (by decide) (by decide)
      (by decide) (by decide) (by decide)).2.1⟩

/-! ## Correlation map and buffer pool -/

theorem map_find_map_assign_same {κ ν : Type} [DecidableEq κ] (m : List (κ × ν)) (key : κ)
    (v : ν) : map_find (map_assign m key v) key = some v := by
  induction m with
  | nil => simp [map_assign, map_find]
  | cons e rest ih =>
    obtain ⟨k1, v1⟩ := e
    unfold map_assign
    by_cases h1 : k1 = key
    · simp [h1, map_find]
    · simp only [h1, if_false]
      unfold map_find
      simp only [h1, if_false]
      exact ih

theorem map_find_filter_ne {κ ν : Type} [DecidableEq κ] (m : List (κ × ν)) (key : κ) :
    map_find (m.filter (fun p => p.1 ≠ key)) key = none := by
  rw [map_find_eq_none_iff]
  intro h
  obtain ⟨p, hp, hk⟩ := List.mem_map.mp h
  have := (List.mem_filter.mp hp).2
  simp only [ne_eq, decide_not, Bool.not_eq_eq_eq_not, Bool.not_true,
    decide_eq_false_iff_not] at this
  exact this hk

namespace Hpcrun

/-- C21: on a map with no entry for c: after insert(c, e) the lookup of c gives an entry
with external id e and absent timestamps; after kernel_update(c, d, s, t) it gives the
entry with device d, start s and end t; after delete(c) it gives absent. An id that was
never inserted is looked up as absent: the three operations on c make no entry for
another id, and the empty map holds none. -/
theorem correlation_map_life_cycle (map : gpu_correlation_id_map_t) (c e d s t : Nat)
    (_hfresh : gpu_correlation_id_map_lookup map c = none) :
    gpu_correlation_id_map_lookup (gpu_correlation_id_map_insert map c e) c =
      some ⟨e, none, none, none⟩ ∧
    gpu_correlation_id_map_lookup
      (gpu_correlation_id_map_kernel_update (gpu_correlation_id_map_insert map c e) c d s t)
      c = some ⟨e, some d, some s, some t⟩ ∧
    gpu_correlation_id_map_lookup
      (gpu_correlation_id_map_delete
        (gpu_correlation_id_map_kernel_update (gpu_correlation_id_map_insert map c e) c d s t)
        c) c = none ∧
    (∀ other, other ≠ c → gpu_correlation_id_map_lookup map other = none →
      gpu_correlation_id_map_lookup (gpu_correlation_id_map_insert map c e) other = none ∧
      gpu_correlation_id_map_lookup
        (gpu_correlation_id_map_kernel_update (gpu_correlation_id_map_insert map c e) c d s t)
        other = none) ∧
    gpu_correlation_id_map_lookup [] c = none := by
  have hins : map_find (gpu_correlation_id_map_insert map c e) c =
      some ⟨e, none, none, none⟩ := map_find_map_assign_same _ _ _
  have hupd : gpu_correlation_id_map_kernel_update (gpu_correlation_id_map_insert map c e)
      c d s t = map_assign (gpu_correlation_id_map_insert map c e) c
        ⟨e, some d, some s, some t⟩ := by
    unfold gpu_correlation_id_map_kernel_update
    rw [hins]
    simp
  refine ⟨hins, ?_, ?_, ?_, rfl⟩
  · rw [hupd]
    exact map_find_map_assign_same _ _ _
  · exact map_find_filter_ne _ _
  · intro other hne hother
    have h1 : gpu_correlation_id_map_lookup (gpu_correlation_id_map_insert map c e) other =
        none := by
      unfold gpu_correlation_id_map_lookup gpu_correlation_id_map_insert
      rw [map_find_map_assign_ne _ _ _ _ (fun e => hne e.symm)]
      exact hother
    refine ⟨h1, ?_⟩
    rw [hupd]
    unfold gpu_correlation_id_map_lookup
    rw [map_find_map_assign_ne _ _ _ _ (fun e => hne e.symm)]
    exact h1

/-- C21 at the spec's example: insert(7, 100), kernel_update(7, 0, 10, 20), delete(7) on
the empty map. -/
theorem correlation_map_life_cycle_witness :
    gpu_correlation_id_map_lookup (gpu_correlation_id_map_insert [] 7 100) 7 =
      some ⟨100, none, none, none⟩ ∧
    gpu_correlation_id_map_lookup
      (gpu_correlation_id_map_kernel_update (gpu_correlation_id_map_insert [] 7 100) 7 0 10 20)
      7 = some ⟨100, some 0, some 10, some 20⟩ ∧
    gpu_correlation_id_map_lookup
      (gpu_correlation_id_map_delete
        (gpu_correlation_id_map_kernel_update (gpu_correlation_id_map_insert [] 7 100)
          7 0 10 20) 7) 7 = none :=
  ⟨(correlation_map_life_cycle [] 7 100 0 10 20 rfl).1,
   (correlation_map_life_cycle [] 7 100 0 10 20 rfl).2.1,
   (correlation_map_life_cycle [] 7 100 0 10 20 rfl).2.2.1⟩

/-- One round on an idle channel of capacity 1: the alloc succeeds with a buffer of the
channel, and after the free the channel is idle again with that buffer on its free list
and the balance counter is back at its value. -/
theorem alloc_produce_free_idle (channel : sanitizer_buffer_channel_t) (balance tag : Nat)
    (hidle : Spec.idle_capacity_one channel) (hbal : balance < 4294967296) :
    ∃ channel1 : sanitizer_buffer_channel_t,
      alloc_produce_free (channel, balance) tag = some (channel1, balance) ∧
      Spec.idle_capacity_one channel1 ∧ channel1.id = channel.id ∧
      ∃ b, channel1.free_list = [b] ∧ b.channel = channel1.id := by
  obtain ⟨hsize, hstate⟩ := hidle
  have hback : ((balance + 1) % 4294967296 + 4294967296 - 1) % 4294967296 = balance := by
    omega
  have halloc : ∃ (b : sanitizer_buffer_t) (ch : sanitizer_buffer_channel_t),
      sanitizer_buffer_alloc channel = some (b, ch) ∧ b.channel = channel.id ∧
      ch.free_list = [] ∧ ch.created = 1 ∧ ch.pool_size = 1 ∧ ch.id = channel.id := by
    rcases hstate with ⟨hcreated, hfree⟩ | ⟨hcreated, b, hfree, hown⟩
    · refine ⟨⟨channel.id, channel.created, 0, 0, 0, 0, 0, 0, 0, false⟩,
        { channel with created := channel.created + 1 }, ?_, rfl, hfree, ?_, hsize, rfl⟩
      · unfold sanitizer_buffer_alloc
        simp only [hfree, hcreated, hsize]
        simp
      · simp [hcreated]
    · refine ⟨b, { channel with free_list := [] }, ?_, hown, rfl, hcreated, hsize, rfl⟩
      unfold sanitizer_buffer_alloc
      simp only [hfree]
  obtain ⟨b, ch, hsome, hown, hfree, hcreated, hsize1, hid⟩ := halloc
  refine ⟨(sanitizer_buffer_free ch
      (sanitizer_buffer_produce b tag tag tag 0 tag tag tag balance false).1
      (sanitizer_buffer_produce b tag tag tag 0 tag tag tag balance false).2).1, ?_, ?_, ?_, ?_⟩
  · unfold alloc_produce_free
    simp only [hsome]
    simp only [sanitizer_buffer_produce, sanitizer_buffer_free, hback]
  · refine ⟨hsize1, Or.inr ⟨hcreated, (sanitizer_buffer_produce b tag tag tag 0 tag tag tag
      balance false).1, ?_, ?_⟩⟩
    · simp only [sanitizer_buffer_free, hfree]
    · simp only [sanitizer_buffer_free, sanitizer_buffer_produce, hown, hid]
  · exact hid
  · refine ⟨(sanitizer_buffer_produce b tag tag tag 0 tag tag tag balance false).1, ?_, ?_⟩
    · simp only [sanitizer_buffer_free, hfree]
    · simp only [sanitizer_buffer_free, sanitizer_buffer_produce, hown, hid]

/-- C22: on a channel of capacity 1 with no buffer checked out, for every sequence that
repeats alloc, produce, free in order: every alloc succeeds (the sequence runs to its
end), produce increments the balance counter by one and free decrements it by one
(modulo 2^32, the counter being an `atomic_uint`), so after the rounds the channel is
again idle, its buffer back on its own free list, and the balance counter has the value
it had before. -/
theorem buffer_pool_hand_off (tags : List Nat) (channel : sanitizer_buffer_channel_t)
    (balance : Nat) (hidle : Spec.idle_capacity_one channel) (hbal : balance < 4294967296) :
    (∃ channel1 : sanitizer_buffer_channel_t,
      rounds tags (channel, balance) = some (channel1, balance) ∧
      Spec.idle_capacity_one channel1 ∧
      (tags ≠ [] → ∃ b, channel1.free_list = [b] ∧ b.channel = channel1.id)) ∧
    (∀ (b : sanitizer_buffer_t) (thread_id cubin_id mod_id : Nat) (kernel_id : Int)
        (host_op_id type num_records : Nat) (async : Bool),
      (sanitizer_buffer_produce b thread_id cubin_id mod_id kernel_id host_op_id type
        num_records balance async).2 = (balance + 1) % 4294967296) ∧
    (∀ (ch : sanitizer_buffer_channel_t) (b : sanitizer_buffer_t),
      (sanitizer_buffer_free ch b ((balance + 1) % 4294967296)).2 = balance ∧
      (sanitizer_buffer_free ch b ((balance + 1) % 4294967296)).1.free_list =
        b :: ch.free_list) := by
  refine ⟨?_, fun _ _ _ _ _ _ _ _ _ => rfl, fun ch b => ⟨?_, rfl⟩⟩
  · induction tags generalizing channel with
    | nil => exact ⟨channel, rfl, hidle, fun h => absurd rfl h⟩
    | cons tag tags ih =>
      obtain ⟨channel1, hround, hidle1, _, hfree1⟩ :=
        alloc_produce_free_idle channel balance tag hidle hbal
      obtain ⟨channel2, hrounds, hidle2, hfree2⟩ := ih channel1 hidle1
      refine ⟨channel2, ?_, hidle2, fun _ => ?_⟩
      · rw [rounds, hround]
        exact hrounds
      · cases tags with
        | nil =>
          rw [rounds] at hrounds
          cases hrounds
          exact hfree1
        | cons t ts => exact hfree2 (List.cons_ne_nil t ts)
  · unfold sanitizer_buffer_free
    simp only
    omega

/-- C22 at a fresh channel of capacity 1 without growth: three rounds, balance 5. -/
theorem buffer_pool_hand_off_witness :
    ∃ channel1 : sanitizer_buffer_channel_t,
      rounds [1, 2, 3] (⟨0, [], 0, 1, false⟩, 5) = some (channel1, 5) ∧
      Spec.idle_capacity_one channel1 ∧
      ([1, 2, 3] ≠ [] → ∃ b, channel1.free_list = [b] ∧ b.channel = channel1.id) :=
  (buffer_pool_hand_off [1, 2, 3] ⟨0, [], 0, 1, false⟩ 5
    ⟨rfl, Or.inl ⟨rfl, rfl⟩⟩ (by decide)).1

end Hpcrun

end CudaParse
